import Mathlib

/-!
# STM32 logic analyzer: sample queue, stream compressor and settings

A shallow embedding of `queue.c` (the ring buffer shared by the timer
interrupt and the main loop, with the sample encoder in front of it), of
`compress.c` (the LZW-style compressor with its bit packer) and of
`commands.c` (the settings received over the serial port), followed by the
properties proved about them.

Conventions of the embedding:

* C integers are `Nat`/`Int`; a conversion to a fixed-width type is written
  as an explicit remainder (`u8`, `u16`, `u32`) or wrap (`toInt16`).
* A C function is a Lean function from the state of the translation unit
  (its file-scope variables) to `Option` of the new state and the returned
  value.  `none` means the C execution has no result: a spin loop that is
  never released, or an access outside an array.
* A C loop with no structural bound (`while (1)`, the `for` of `CompressInit`)
  is a recursion on a step budget and yields `none` when the budget runs out;
  the theorems show that the budget is never used up in the states the program
  reaches.
* Execution is sequential: one call runs to completion before the next.  The
  one exception is `dequeueInterrupted`, where the timer interrupt is taken
  between two statements of `DequeueSample`.
-/

/-! ## Fixed-width conversions -/

/-- Conversion to `uint8_t`. -/
def u8 (x : Nat) : Nat := x % 256

/-- Conversion to `uint16_t`. -/
def u16 (x : Nat) : Nat := x % 65536

/-- Conversion to `uint32_t`. -/
def u32 (x : Nat) : Nat := x % 4294967296

/-- Conversion of a `uint16_t`/`int` value to `int16_t` (two's complement wrap). -/
def toInt16 (x : Int) : Int := (x + 32768) % 65536 - 32768

/-! ## main.h -/

def SAMPLING_MODE_CONTINUOUS : Nat := 0
def SAMPLING_MODE_TRANSITIONONLY : Nat := 1

def SAMPLE_MARKER : Nat := 0xbf
def PERIOD_MARKER : Nat := 0xbd
def ROLLOVER_MARKER : Nat := 0xbe

/-- The globals of other translation units that `queue.c` reads:
`SamplingChannels` and `SamplingMode` (commands.c) and the interrupt counter
`Irqs` (timer.c). -/
structure Env where
  SamplingChannels : Nat
  SamplingMode : Nat
  Irqs : Nat

/-! ## queue.c -/

/-- The 4K sample queue. -/
def QSIZE : Nat := 4096

/-- The file-scope variables of `queue.c`.  `queue` is the array
`queue[QSIZE]`; only the cells below `QSIZE` exist. -/
structure QState where
  queue : Nat → Nat
  qHead : Nat
  qTail : Nat
  qCount : Nat
  enqueueBusy : Nat
  dequeueBusy : Nat
  firstSample : Nat
  prevSample : Nat
  Overflow : Nat
  stackedSample : Nat
  stackShift : Nat
  stackMask : Nat

/-- The function `ClearSampleQueue()`.  The cells of `queue` are not touched. -/
def ClearSampleQueue (e : Env) (s : QState) : QState :=
  { s with
    qHead := 0, qTail := 0, qCount := 0,
    enqueueBusy := 0, dequeueBusy := 0,
    stackMask :=
      if e.SamplingChannels = 1 then 0x01
      else if e.SamplingChannels = 2 then 0x03
      else if e.SamplingChannels = 3 then 0x07
      else if e.SamplingChannels = 4 then 0x0f
      else 0xff,
    stackShift := 0,
    stackedSample := 0,
    Overflow := 0,
    firstSample := 1 }

/-- The function `SampleQueueIsEmpty()`: `qCount == 0` as an `int16_t`. -/
def SampleQueueIsEmpty (s : QState) : Int := if s.qCount = 0 then 1 else 0

/-- The function `SampleQueueIsFull()`: `qCount >= QSIZE` as an `int16_t`. -/
def SampleQueueIsFull (s : QState) : Int := if s.qCount ≥ QSIZE then 1 else 0

/-- The function `enqueueByte(byte)`.  The result is the `uint16_t` return value: `0`, or
`65535` for `return -1`.  `while (dequeueBusy);` has no exit when the flag is
set, since nothing else runs during the call. -/
def enqueueByte (s : QState) (byte : Nat) : Option (QState × Nat) :=
  if s.qCount ≥ QSIZE then
    some ({ s with Overflow := 1 }, u16 65535)
  else if s.qTail ≥ QSIZE then
    none
  else
    let queue1 := Function.update s.queue s.qTail (u8 byte)
    let qTail1 := u32 (s.qTail + 1)
    let qTail2 := if qTail1 = QSIZE then 0 else qTail1
    if s.dequeueBusy ≠ 0 then
      none
    else
      some ({ s with queue := queue1, qTail := qTail2,
                     qCount := u32 (s.qCount + 1), enqueueBusy := 0 }, 0)

/-- Lines 157-177 of `EnqueueSample`: the sample record of transition-only
mode and the final `return enqueueByte(sample)`. -/
def enqueueRecord (e : Env) (s : QState) (sample : Nat) : Option (QState × Int) :=
  if e.SamplingMode = SAMPLING_MODE_TRANSITIONONLY then
    if s.firstSample = 0 ∧ s.prevSample = sample then
      some (s, 0)
    else
      let s1 := { s with firstSample := 0, prevSample := sample }
      (enqueueByte s1 SAMPLE_MARKER).bind fun r1 =>
      (enqueueByte r1.1 (e.Irqs &&& 0xff)).bind fun r2 =>
      (enqueueByte r2.1 ((e.Irqs >>> 8) &&& 0xff)).bind fun r3 =>
      (enqueueByte r3.1 sample).bind fun r4 =>
      some (r4.1, toInt16 r4.2)
  else
    (enqueueByte s sample).bind fun r4 =>
    some (r4.1, toInt16 r4.2)

/-- The function `EnqueueSample(sample)`; the result is the `int16_t` return value. -/
def EnqueueSample (e : Env) (s : QState) (sample0 : Nat) : Option (QState × Int) :=
  let sample := u8 sample0
  if e.SamplingMode = SAMPLING_MODE_TRANSITIONONLY then
    if e.Irqs &&& 0xffff = 0 then
      let rolloverCnt := u16 (e.Irqs >>> 16)
      (enqueueByte s ROLLOVER_MARKER).bind fun r1 =>
      (enqueueByte r1.1 (rolloverCnt &&& 0xff)).bind fun r2 =>
      (enqueueByte r2.1 ((rolloverCnt >>> 8) &&& 0xff)).bind fun r3 =>
      (enqueueByte r3.1 0).bind fun r4 =>
      enqueueRecord e r4.1 sample
    else
      enqueueRecord e s sample
  else
    if e.SamplingChannels ≤ 4 then
      let s1 := { s with
        stackedSample := u8 (s.stackedSample ||| ((sample &&& s.stackMask) <<< s.stackShift)),
        stackShift := u8 (s.stackShift + e.SamplingChannels) }
      if s1.stackShift < 8 then
        some (s1, 0)
      else
        enqueueRecord e { s1 with stackShift := 0, stackedSample := 0 } s1.stackedSample
    else
      enqueueRecord e s sample

/-- The function `EnqueueFinalSample()`. -/
def EnqueueFinalSample (e : Env) (s : QState) : Option QState :=
  (EnqueueSample e s (if s.prevSample = 0 then 0xff else 0)).map Prod.fst

/-- The function `DequeueSample()`.  `while (enqueueBusy);` has no exit when the flag is
set. -/
def DequeueSample (s : QState) : Option (QState × Nat) :=
  if s.qCount = 0 then
    some (s, 0)
  else if s.qHead ≥ QSIZE then
    none
  else
    let sample := s.queue s.qHead
    let qHead1 := u32 (s.qHead + 1)
    let qHead2 := if qHead1 = QSIZE then 0 else qHead1
    if s.enqueueBusy ≠ 0 then
      none
    else
      some ({ s with qHead := qHead2, qCount := s.qCount - 1, dequeueBusy := 0 }, sample)

/-! ### Sequences of queue calls -/

/-- A call of one of the two primitive queue operations. -/
inductive QOp where
  | enq (byte : Nat)
  | deq

/-- Runs a sequence of `enqueueByte`/`DequeueSample` calls and collects the
bytes returned by `DequeueSample`, in order. -/
def runOps : QState → List QOp → Option (QState × List Nat)
  | s, [] => some (s, [])
  | s, QOp.enq b :: rest =>
      (enqueueByte s b).bind fun r => runOps r.1 rest
  | s, QOp.deq :: rest =>
      (DequeueSample s).bind fun r =>
      (runOps r.1 rest).map fun p => (p.1, r.2 :: p.2)

/-- The `uint8_t` arguments of the `enqueueByte` calls of a sequence, in order. -/
def enqueuedBytes : List QOp → List Nat
  | [] => []
  | QOp.enq b :: rest => u8 b :: enqueuedBytes rest
  | QOp.deq :: rest => enqueuedBytes rest

/-- The number of `DequeueSample` calls of a sequence. -/
def dequeueCount : List QOp → Nat
  | [] => 0
  | QOp.enq _ :: rest => dequeueCount rest
  | QOp.deq :: rest => dequeueCount rest + 1

/-- The occupancy condition on a sequence of calls made at occupancy `n`: no
`enqueueByte` is attempted at occupancy `QSIZE` and no `DequeueSample` at
occupancy `0`, where the occupancy counts the bytes put in and not yet taken
out.  It is a condition on the sequence alone and does not run the code. -/
def withinCapacity : Nat → List QOp → Bool
  | _, [] => true
  | n, QOp.enq _ :: rest => decide (n < QSIZE) && withinCapacity (n + 1) rest
  | n, QOp.deq :: rest => decide (0 < n) && withinCapacity (n - 1) rest

/-- A sequence of calls used to instantiate the theorems: `n` times one byte in
and one byte out. -/
def wrapOps : Nat → List QOp
  | 0 => []
  | n + 1 => QOp.enq n :: QOp.deq :: wrapOps n

/-- Runs `enqueueByte` on each byte of a list and collects the return values. -/
def enqueueAll : QState → List Nat → Option (QState × List Nat)
  | s, [] => some (s, [])
  | s, b :: rest =>
      (enqueueByte s b).bind fun r =>
      (enqueueAll r.1 rest).map fun p => (p.1, r.2 :: p.2)

/-- A call of one of the public queue functions, with the values of the
globals it reads at the time of the call. -/
inductive QCall where
  | enqueueSample (e : Env) (sample : Nat)
  | enqueueFinalSample (e : Env)
  | dequeueSample
  | sampleQueueIsEmpty
  | sampleQueueIsFull

/-- One public call. -/
def QCall.run (s : QState) : QCall → Option QState
  | QCall.enqueueSample e sample => (EnqueueSample e s sample).map Prod.fst
  | QCall.enqueueFinalSample e => EnqueueFinalSample e s
  | QCall.dequeueSample => (DequeueSample s).map Prod.fst
  | QCall.sampleQueueIsEmpty => some s
  | QCall.sampleQueueIsFull => some s

/-- A sequence of public calls, one after the other. -/
def runCalls : QState → List QCall → Option QState
  | s, [] => some s
  | s, c :: rest => (c.run s).bind fun s1 => runCalls s1 rest

/-- The bytes held by the queue, oldest first: the `qCount` cells from `qHead`
on, modulo `QSIZE`. -/
def contents (s : QState) : List Nat :=
  (List.range s.qCount).map fun i => s.queue ((s.qHead + i) % QSIZE)

/-- The queue invariant together with the released busy flags. -/
def QWellFormed (s : QState) : Prop :=
  s.qCount ≤ QSIZE ∧ s.qHead < QSIZE ∧ s.qTail < QSIZE ∧
  s.qTail = (s.qHead + s.qCount) % QSIZE ∧
  s.enqueueBusy = 0 ∧ s.dequeueBusy = 0

/-- A well-formed queue whose overflow flag, when `sticky` is set, is raised. -/
def QKeeps (sticky : Bool) (s : QState) : Prop :=
  QWellFormed s ∧ (sticky = true → s.Overflow = 1)

/-- A queue state used to instantiate the theorems: two bytes held, overflow
flag raised by an earlier overrun. -/
def sampleState : QState :=
  { queue := fun _ => 0, qHead := 7, qTail := 9, qCount := 2, enqueueBusy := 0,
    dequeueBusy := 0, firstSample := 0, prevSample := 0, Overflow := 1,
    stackedSample := 0, stackShift := 0, stackMask := 0 }

/-- A full queue used to instantiate the theorems. -/
def fullState : QState :=
  { queue := fun i => i % 256, qHead := 5, qTail := 5, qCount := 4096, enqueueBusy := 0,
    dequeueBusy := 0, firstSample := 1, prevSample := 0, Overflow := 0,
    stackedSample := 0, stackShift := 0, stackMask := 255 }

/-! ## compress.c -/

/-- Conversion of an `int` value to `int32_t` (two's complement wrap). -/
def toInt32 (x : Int) : Int := (x + 2147483648) % 4294967296 - 2147483648

def MINBITS : Nat := 9
def MAXBITS : Nat := 15
def CLEAR_CODE : Nat := 256
def FIRST_CODE : Nat := 257
def NBITS : Nat := 13
def MAX_CODE : Nat := (1 <<< NBITS) - 1

/-- The table `mask[]`. -/
def mask : List Nat :=
  [0x00, 0x01, 0x03, 0x07, 0x0f, 0x1f, 0x3f, 0x7f, 0xff, 0x1ff, 0x3ff, 0x7ff, 0xfff, 0x1fff,
   0x3fff, 0x7fff, 0xffff]

/-- The table `primes[]`. -/
def primes : List Nat := [601, 1501, 2801, 5003, 9001, 18013, 35023]

/-- The declared length of `hashTable[]` and `codeTable[]`. -/
def TABLE_LEN : Nat := 9001

/-- The file-scope variables of `compress.c`, with two traces in place of the
callback pointer: `sent` lists the bytes handed to `CompressCallback` and
`codes` lists the arguments of the calls of `sendOutputCode`, both oldest
first. -/
structure CState where
  hashSize : Nat
  shift : Int
  freeEntry : Nat
  hashTable : Fin TABLE_LEN → Int
  codeTable : Fin TABLE_LEN → Nat
  crc : Nat
  ent : Nat
  firstByte : Nat
  outBits : Nat
  outByte : Nat
  sent : List Nat
  codes : List Nat

/-- The function `clearHash()`: the two `memset` calls over the first `hashSize` elements
and the reset of `freeEntry`. -/
def clearHash (s : CState) : CState :=
  { s with
    hashTable := fun i => if i.val < s.hashSize then -1 else s.hashTable i,
    codeTable := fun i => if i.val < s.hashSize then 0 else s.codeTable i,
    freeEntry := FIRST_CODE }

/-- The loop `for (fc = hashSize; fc < 65536L; fc *= 2) j++;` of
`CompressInit`; the result is the final `j`.  It has no exit for `fc = 0`. -/
def shiftLoop : Nat → Int → Int → Option Int
  | 0, _, _ => none
  | fuel + 1, fc, j =>
      if fc < 65536 then shiftLoop fuel (toInt32 (fc * 2)) (toInt16 (j + 1)) else some j

/-- The function `CompressInit(Callback)` with `USE_MALLOC` 0.  The traces start empty for
the new callback. -/
def CompressInit (s : CState) : Option CState :=
  let hashSize := primes.getD (NBITS - MINBITS) 0
  (shiftLoop 32 hashSize 0).bind fun j =>
  let s1 := clearHash { s with hashSize := hashSize, shift := toInt16 (8 - j) }
  some { s1 with outBits := 0, outByte := 0, ent := 0, crc := 0, firstByte := 1,
                 sent := [], codes := [] }

/-- The function `checkIfOutbitsFull()`. -/
def checkIfOutbitsFull (s : CState) : CState :=
  if s.outBits = 8 then
    { s with sent := s.sent ++ [s.outByte], outBits := 0, outByte := 0 }
  else s

/-- The `while (1)` loop of `sendOutputCode` with the locals `ch` and `b`.
With `outBits > 8` the shift count `8 - outBits` is negative and the loop has
no result. -/
def sendLoop : Nat → CState → Nat → Nat → Option CState
  | 0, _, _, _ => none
  | fuel + 1, s, ch, b =>
      if 8 < s.outBits then none
      else if b ≤ 8 - s.outBits then
        some (checkIfOutbitsFull
          { s with outByte := u8 ((s.outByte <<< b) ||| ch), outBits := u16 (s.outBits + b) })
      else
        let outByte1 := u8 (s.outByte <<< (8 - s.outBits))
        let b1 := b - u8 (8 - s.outBits)
        let outByte2 := outByte1 ||| u8 (ch >>> b1)
        let ch1 := ch &&& mask.getD b1 0
        sendLoop fuel (checkIfOutbitsFull { s with outByte := outByte2, outBits := 8 }) ch1 b1

/-- The function `sendOutputCode(ch)`; the call is recorded in `codes`. -/
def sendOutputCode (s : CState) (ch : Nat) : Option CState :=
  sendLoop (NBITS + 2) { s with codes := s.codes ++ [ch] } (u16 ch) NBITS

/-- Where the search of `CompressByte` for the phrase ends: at a slot that
holds the key (`hit`), or at the slot the new phrase will be written to
(`miss`). -/
inductive Lookup where
  | hit (slot : Fin TABLE_LEN)
  | miss (slot : Fin TABLE_LEN)
  deriving DecidableEq

/-- The slot `hashTable[i]`/`codeTable[i]` designated by an `int16_t` index,
when it is within the arrays. -/
def slotOf (i : Int) : Option (Fin TABLE_LEN) :=
  if h : 0 ≤ i ∧ i < (TABLE_LEN : Int) then some ⟨i.toNat, by omega⟩ else none

/-- The value `hashCode = (ent << 16 | b)` as an `int32_t`. -/
def hashCodeOf (ent b : Nat) : Int := toInt32 (((ent <<< 16) ||| b : Nat) : Int)

/-- The probe loop of `CompressByte` (`while (1)` at line 174) from
`hashIndex` with step `hashDisplacement`; it reads `hashSize` and
`hashTable[]`. -/
def probe (hashSize : Nat) (hashTable : Fin TABLE_LEN → Int) (hashCode : Int) :
    Nat → Int → Int → Option Lookup
  | 0, _, _ => none
  | fuel + 1, hashIndex, hashDisplacement =>
      let i1 := toInt16 (hashIndex - hashDisplacement)
      let i2 := if i1 < 0 then toInt16 (i1 + hashSize) else i1
      (slotOf i2).bind fun slot =>
      if hashTable slot = hashCode then some (Lookup.hit slot)
      else if hashTable slot ≤ 0 then some (Lookup.miss slot)
      else probe hashSize hashTable hashCode fuel i2 hashDisplacement

/-- Lines 159-188 of `CompressByte`: the search for the phrase `(ent, b)`.  A
probe sequence that does not stop within `hashSize` steps has come back to
where it started, so it never stops. -/
def lookup (s : CState) (b : Nat) : Option Lookup :=
  if s.shift < 0 then none
  else
    let hashIndex := toInt16 (((b <<< s.shift.toNat) ^^^ s.ent : Nat) : Int)
    let hashCode := hashCodeOf s.ent b
    (slotOf hashIndex).bind fun slot =>
    if s.hashTable slot = hashCode then some (Lookup.hit slot)
    else if s.hashTable slot ≥ 0 then
      let d := toInt16 (if hashIndex = 0 then 1 else (s.hashSize : Int) - hashIndex)
      let d := if d < 0 then toInt16 (-d) else d
      probe s.hashSize s.hashTable hashCode s.hashSize hashIndex d
    else some (Lookup.miss slot)

/-- The function `CompressByte(b)`. -/
def CompressByte (s0 : CState) (b0 : Nat) : Option CState :=
  let b := u8 b0
  let s := { s0 with crc := u32 (s0.crc + b) }
  if s.firstByte ≠ 0 then
    some { s with firstByte := 0, ent := b }
  else
    (lookup s b).bind fun r =>
    match r with
    | Lookup.hit slot => some { s with ent := s.codeTable slot }
    | Lookup.miss slot =>
        (sendOutputCode s s.ent).bind fun s1 =>
        let s2 := { s1 with ent := b }
        if s2.freeEntry < MAX_CODE then
          some { s2 with
            codeTable := Function.update s2.codeTable slot s2.freeEntry,
            freeEntry := u16 (s2.freeEntry + 1),
            hashTable := Function.update s2.hashTable slot (hashCodeOf s.ent b) }
        else
          (sendOutputCode s2 CLEAR_CODE).map clearHash

/-- The function `CompressFlush()`. -/
def CompressFlush (s : CState) : Option CState :=
  (sendOutputCode s s.ent).bind fun s1 =>
  sendOutputCode s1 (u16 (0xffff &&& mask.getD NBITS 0))

/-- The function `CompressByte` on each byte of a list, in order. -/
def compressBytes : CState → List Nat → Option CState
  | s, [] => some s
  | s, b :: rest => (CompressByte s b).bind fun s1 => compressBytes s1 rest

/-- A whole stream: `CompressInit`, `CompressByte` on every byte, then
`CompressFlush`. -/
def compressStream (s0 : CState) (input : List Nat) : Option CState :=
  (CompressInit s0).bind fun s => (compressBytes s input).bind CompressFlush

/-- A compressor state before any `CompressInit`: statics zeroed. -/
def bootState : CState :=
  { hashSize := 0, shift := 0, freeEntry := 0, hashTable := fun _ => 0, codeTable := fun _ => 0,
    crc := 0, ent := 0, firstByte := 0, outBits := 0, outByte := 0, sent := [], codes := [] }

/-! ### The bit stream -/

/-- The `w` low bits of `n`, most significant first. -/
def bitsBE : Nat → Nat → List Bool
  | 0, _ => []
  | w + 1, n => n.testBit w :: bitsBE w n

/-- The concatenation of the `w`-bit big-endian representations of a list of
numbers. -/
def bitStream (w : Nat) : List Nat → List Bool
  | [] => []
  | c :: rest => bitsBE w c ++ bitStream w rest

/-- The function `sendOutputCode` on each code of a list, in order. -/
def sendAll : CState → List Nat → Option CState
  | s, [] => some s
  | s, c :: rest => (sendOutputCode s c).bind fun s1 => sendAll s1 rest

/-- What the bit packer holds between calls: fewer than 8 pending bits, in the
low bits of `outByte`. -/
def PackerOk (s : CState) : Prop :=
  s.outBits < 8 ∧ s.outByte < 2 ^ s.outBits

/-- The state that `CompressInit` leaves, whatever the state before. -/
def freshState : CState :=
  { hashSize := 9001, shift := 5, freeEntry := 257, hashTable := fun _ => -1,
    codeTable := fun _ => 0, crc := 0, ent := 0, firstByte := 1, outBits := 0, outByte := 0,
    sent := [], codes := [] }

/-- The bytes handed to the callback followed by the pending bits are the
`NBITS`-bit codes sent so far, and every byte handed over was a full byte. -/
def Packed (s : CState) : Prop :=
  PackerOk s ∧
  bitStream 8 s.sent ++ bitsBE s.outBits s.outByte = bitStream NBITS s.codes ∧
  8 * s.sent.length + s.outBits = NBITS * s.codes.length ∧
  ∀ x ∈ s.sent, x < 256

/-! ### The dictionary -/

/-- The byte string a code stands for, given the strings `dict` of the codes
assigned so far (`dict[k]` is the string of code `FIRST_CODE + k`). -/
def strOf (dict : List (List Nat)) (c : Nat) : List Nat :=
  if c < 256 then [c] else dict.getD (c - 257) []

/-- A literal, or one of the first `n` assigned codes. -/
def ValidCode (n c : Nat) : Prop := c < 256 ∨ (257 ≤ c ∧ c < 257 + n)

/-- The state of the dictionary of a running compressor, with the strings
`dict` of the codes assigned since the last reset: every slot in use holds a
phrase `(e, b)` made of an earlier code and a byte, with the code that was
assigned to it, and no code is in two slots. -/
structure DictOk (s : CState) (dict : List (List Nat)) : Prop where
  hashSize_eq : s.hashSize = 9001
  shift_eq : s.shift = 5
  free_eq : s.freeEntry = 257 + dict.length
  free_le : s.freeEntry ≤ 8191
  ent_valid : ValidCode dict.length s.ent
  slots : ∀ i, s.hashTable i ≠ -1 → ∃ e b k, ValidCode k e ∧ b < 256 ∧ k < dict.length ∧
    s.hashTable i = ((e * 65536 + b : Nat) : Int) ∧ s.codeTable i = 257 + k ∧
    dict[k]? = some (strOf dict e ++ [b])
  distinct : ∀ i j, s.hashTable i ≠ -1 → s.hashTable j ≠ -1 →
    s.codeTable i = s.codeTable j → i = j
  nonempty : ∀ x ∈ dict, x ≠ []

/-- What holds of every state of the compressor after `CompressInit` and any
number of `CompressByte` calls. -/
def Running (s : CState) : Prop :=
  (∃ dict, DictOk s dict) ∧ Packed s ∧ ∀ c ∈ s.codes, c < 8191

/-! ### The reference decoder -/

/-- The state of the reference decoder: the strings of the codes assigned
since the last reset, the string decoded last (if any since the reset) and the
bytes put out. -/
structure DState where
  table : List (List Nat)
  prev : Option (List Nat)
  out : List Nat

/-- The reference decoder before the first code. -/
def lzwInit : DState := { table := [], prev := none, out := [] }

/-- One code through the reference decoder, a standard LZW decoder with the
compressor's configuration, written from the words of the round-trip property
(the repository has no decoder): codes 0..255 are literals, code 256 resets the
dictionary, and codes are assigned in order from 257 on, one for each code
received after the first since the last reset, to the previous string extended
by the first byte of the current one.  A code equal to the next one to be
assigned stands for the previous string extended by its own first byte. -/
def lzwStep (d : DState) (c : Nat) : Option DState :=
  if c = 256 then
    some { d with table := [], prev := none }
  else
    let entry : Option (List Nat) :=
      if c < 256 then some [c]
      else if c < 257 + d.table.length then d.table[c - 257]?
      else if c = 257 + d.table.length then d.prev.map fun p => p ++ p.take 1
      else none
    entry.bind fun e =>
      some { table := match d.prev with
                      | some p => d.table ++ [p ++ e.take 1]
                      | none => d.table,
             prev := some e,
             out := d.out ++ e }

/-- A list of codes through the reference decoder. -/
def lzwRun : DState → List Nat → Option DState
  | d, [] => some d
  | d, c :: rest => (lzwStep d c).bind fun d1 => lzwRun d1 rest

/-- The bytes the reference decoder puts out for a list of codes. -/
def lzwDecode (cs : List Nat) : Option (List Nat) :=
  (lzwRun lzwInit cs).map fun d => d.out

/-- The reference decoder is one code behind the compressor: its table is the
compressor's dictionary without the newest string, which is the string decoded
last extended by the first byte of the compressor's pending string. -/
def Synced (dict : List (List Nat)) (ent : Nat) (d : DState) : Prop :=
  (d.prev = none → dict = [] ∧ d.table = []) ∧
  (∀ p, d.prev = some p → p ≠ [] ∧ dict = d.table ++ [p ++ (strOf dict ent).take 1])

/-- The compressor after the bytes `input` (at least one), together with the
reference decoder after the codes sent so far: what the decoder has put out,
followed by the string of the pending code, is `input`. -/
structure Sim (s : CState) (dict : List (List Nat)) (d : DState) (input : List Nat) : Prop where
  dictOk : DictOk s dict
  packed : Packed s
  first : s.firstByte = 0
  run : lzwRun lzwInit s.codes = some d
  out_eq : d.out ++ strOf dict s.ent = input
  synced : Synced dict s.ent d
  codes_lt : ∀ c ∈ s.codes, c < 8191

/-- A compressor whose code space is used up, with an empty table, used to
instantiate the theorems. -/
def exhaustedState : CState :=
  { freshState with freeEntry := 8191, firstByte := 0, ent := 65 }

/-! ## timer.c and the consumer of main.c -/

/-- The function `TIM2_IRQHandler()` for a pending update interrupt: `Irqs++`,
then `EnqueueSample(sample)` with the byte `sample` read from the input
pins. -/
def TIM2_IRQHandler (e : Env) (s : QState) (sample : Nat) : Option (Env × QState) :=
  let e1 := { e with Irqs := u32 (e.Irqs + 1) }
  (EnqueueSample e1 s sample).map fun r => (e1, r.1)

/-- The state `t` is the well-formed state `s` with `bytes` appended to the
queue and nothing else changed but the indices. -/
def Appended (s t : QState) (bytes : List Nat) : Prop :=
  QWellFormed t ∧ contents t = contents s ++ bytes ∧
  t.qCount = s.qCount + bytes.length ∧ t.qHead = s.qHead ∧ t.Overflow = s.Overflow ∧
  t.firstSample = s.firstSample ∧ t.prevSample = s.prevSample ∧
  t.stackedSample = s.stackedSample ∧ t.stackShift = s.stackShift ∧
  t.stackMask = s.stackMask

/-! ## commands.c -/

/-- The settings of `commands.c` (its file-scope variables), and the
characters that `Copyright()` and `PingResponse()` (main.c) send to the USART,
oldest first. -/
structure Settings where
  SamplingActive : Nat
  SamplingTime : Nat
  SamplingChannels : Nat
  SamplingRate : Nat
  SamplingCompression : Nat
  SamplingMode : Nat
  usart : List Char

/-- The initializers of the settings in `commands.c`. -/
def bootSettings : Settings :=
  { SamplingActive := 0, SamplingTime := 1000, SamplingChannels := 4, SamplingRate := 1000,
    SamplingCompression := 0, SamplingMode := SAMPLING_MODE_CONTINUOUS, usart := [] }

/-- The C library test `isspace` in the "C" locale: space, and the controls
from tab to carriage return. -/
def isspace (c : Char) : Bool := decide (c.toNat = 32 ∨ (9 ≤ c.toNat ∧ c.toNat ≤ 13))

/-- The C library test `isdigit`. -/
def isdigit (c : Char) : Bool := decide (48 ≤ c.toNat ∧ c.toNat ≤ 57)

/-- The digit loop of `atoi`: the decimal value of the digits the string
starts with, on top of the value `acc` of the digits already read. -/
def atoiDigits : Nat → List Char → Nat
  | acc, [] => acc
  | acc, c :: rest =>
      if isdigit c then atoiDigits (acc * 10 + (c.toNat - 48)) rest else acc

/-- The C library function `atoi` (the repository calls it and does not
define it): white space is skipped, then an optional sign and the decimal
digits that follow are converted; a string with no digits there yields `0`.
The C standard leaves the behaviour undefined when the value does not fit an
`int`, so there is no result in that case. -/
def atoi (s : List Char) : Option Int :=
  let s1 := s.dropWhile isspace
  let neg := s1.head? = some '-'
  let s2 := if s1.head? = some '-' ∨ s1.head? = some '+' then s1.drop 1 else s1
  let n : Int := (atoiDigits 0 s2 : Nat)
  let v := if neg then -n else n
  if -2147483648 ≤ v ∧ v ≤ 2147483647 then some v else none

/-- The test `strcmp(a, b) == 0` on C strings given by their characters up to
the terminating zero. -/
def strcmpEq (a b : List Char) : Bool := a == b

/-- The test `strncmp(a, b, n) == 0`. -/
def strncmpEq (a b : List Char) (n : Nat) : Bool := a.take n == b.take n

/-- The function `Copyright()` of main.c. -/
def Copyright (st : Settings) : Settings :=
  { st with usart := st.usart ++ "Logic Analyzer by Bob Foley\r\n".toList ++
      "version 0.50  (rev. 15-Mar-2014 8:00 a.m.)\r\n\r\n".toList }

/-- The function `PingResponse()` of main.c. -/
def PingResponse (st : Settings) : Settings :=
  { st with usart := st.usart ++ "pOnG\r\n".toList }

/-- The conversion of an `int` to `uint32_t`. -/
def toU32 (x : Int) : Nat := (x % 4294967296).toNat

/-- The function `ProcessCommands()`.  The argument `line` is what `UsartGets()` returns:
`none` for `NULL`, else the characters of the line received. -/
def ProcessCommands (line : Option (List Char)) (st : Settings) : Option Settings :=
  match line with
  | none => some st
  | some p =>
    if strcmpEq p "START".toList then some { st with SamplingActive := 1 }
    else if strcmpEq p "STOP".toList then some { st with SamplingActive := 0 }
    else if strcmpEq p "COPY".toList then some (Copyright st)
    else if strcmpEq p "PING".toList then some (PingResponse st)
    else if strncmpEq p "CHAN=".toList 5 then
      (atoi (p.drop 5)).map fun a =>
        let v := toU32 a
        if v ≥ 1 ∧ v ≤ 8 then { st with SamplingChannels := u8 v } else st
    else if strncmpEq p "RATE=".toList 5 then
      (atoi (p.drop 5)).map fun a =>
        let v := toU32 a
        if v > 10 ∧ v < 10000000 then { st with SamplingRate := u32 v } else st
    else if strncmpEq p "TIME=".toList 5 then
      (atoi (p.drop 5)).map fun a =>
        let v := toU32 a
        if v > 10 ∧ v < 100000 then { st with SamplingTime := u16 v } else st
    else if strncmpEq p "COMP=".toList 5 then
      some { st with SamplingCompression := if p.getD 5 (Char.ofNat 0) = 'Y' then 1 else 0 }
    else if strncmpEq p "MODE=".toList 5 then
      let mode := if p.getD 5 (Char.ofNat 0) = 'T' then SAMPLING_MODE_TRANSITIONONLY
        else SAMPLING_MODE_CONTINUOUS
      some { st with SamplingMode := mode }
    else some st

/-- The line made of a setting name with its equal sign, such as `TIME=`,
followed by the number `v` written in decimal. -/
def settingLine (name : String) (v : Nat) : Option (List Char) :=
  some (name.toList ++ Nat.toDigits 10 v)

/-- The test `SamplingActive && ((Ticks - startTicks) > SamplingTime)` of
`SampleLoop` (main.c) that ends the sampling session. -/
def sampleTimeIsUp (st : Settings) (Ticks startTicks : Nat) : Bool :=
  decide (st.SamplingActive ≠ 0 ∧ u32 (Ticks + 4294967296 - u32 startTicks) > st.SamplingTime)

/-! ## The timer interrupt during `DequeueSample` -/

/-- One statement of `DequeueSample()` on a non-empty queue, on the state and
the local `sample`: number 0 is `sample = queue[qHead++]`, 1 is
`if (qHead == QSIZE) qHead = 0`, 2 is `while (enqueueBusy);`, 3 is
`dequeueBusy = 1`, 4 is `qCount--` (on a `uint32_t`, so 0 wraps round) and 5 is
`dequeueBusy = 0`. -/
def dequeueStatement (k : Nat) (m : QState × Nat) : Option (QState × Nat) :=
  if k = 0 then
    if m.1.qHead ≥ QSIZE then none
    else some ({ m.1 with qHead := u32 (m.1.qHead + 1) }, m.1.queue m.1.qHead)
  else if k = 1 then some ({ m.1 with qHead := if m.1.qHead = QSIZE then 0 else m.1.qHead }, m.2)
  else if k = 2 then (if m.1.enqueueBusy ≠ 0 then none else some m)
  else if k = 3 then some ({ m.1 with dequeueBusy := 1 }, m.2)
  else if k = 4 then
    some ({ m.1 with qCount := if m.1.qCount = 0 then 4294967295 else m.1.qCount - 1 }, m.2)
  else if k = 5 then some ({ m.1 with dequeueBusy := 0 }, m.2)
  else some m

/-- The statements `k`, `k + 1`, ..., `k + n - 1` of `DequeueSample()`, in order. -/
def dequeueStatements : Nat → Nat → QState × Nat → Option (QState × Nat)
  | 0, _, m => some m
  | n + 1, k, m => (dequeueStatement k m).bind fun m1 => dequeueStatements n (k + 1) m1

/-- A call of `DequeueSample()` during which the timer interrupt is taken after
the first `n` of the six statements (`n = 0`: right after the test
`qCount == 0`; `n = 6`: before the `return`); the interrupt handler runs to its
end before the call goes on.  The result is the state and the byte returned. -/
def dequeueInterrupted (n : Nat) (e : Env) (s : QState) (pins : Nat) :
    Option (Env × QState × Nat) :=
  if s.qCount = 0 then
    (TIM2_IRQHandler e s pins).map fun r => (r.1, r.2, 0)
  else
    (dequeueStatements n 0 (s, 0)).bind fun m =>
    (TIM2_IRQHandler e m.1 pins).bind fun r =>
    (dequeueStatements (6 - n) n (r.2, m.2)).map fun m2 => (r.1, m2.1, m2.2)

/-! ## The search of `CompressByte`, step by step -/

/-- The value of `((b << shift) ^ ent)` in `CompressByte`, before its
conversion to the `int16_t hashIndex`. -/
def hashIndexOf (s : CState) (b : Nat) : Nat := (b <<< s.shift.toNat) ^^^ s.ent

/-- The value of `(hashIndex == 0 ? 1 : hashSize - hashIndex)` in
`CompressByte`, before its conversion to the `int16_t hashDisplacement`. -/
def hashDisplacementOf (hashSize : Nat) (hashIndex : Int) : Int :=
  if hashIndex = 0 then 1 else (hashSize : Int) - hashIndex

/-- One pass of the probe loop on `hashIndex`, in unbounded integers:
`hashIndex -= hashDisplacement; if (hashIndex < 0) hashIndex += hashSize;`. -/
def probeNext (hashSize : Nat) (hashIndex hashDisplacement : Int) : Int :=
  if hashIndex - hashDisplacement < 0 then hashIndex - hashDisplacement + hashSize
  else hashIndex - hashDisplacement

/-- The value of `hashIndex` after `k` passes of the probe loop. -/
def probeIndex (hashSize : Nat) (hashIndex hashDisplacement : Int) : Nat → Int
  | 0 => hashIndex
  | k + 1 => probeNext hashSize (probeIndex hashSize hashIndex hashDisplacement k) hashDisplacement

/-- The value fits an `int16_t`. -/
def fitsInt16 (x : Int) : Bool := decide (-32768 ≤ x ∧ x ≤ 32767)

/-- A table of size 1501 (the entry of `primes[]` for 10-bit codes) in which the
19 slots at the multiples of 79 hold the key 1 and all others are empty. -/
def sparseTable : Fin TABLE_LEN → Int :=
  fun i => if i.val < 1501 ∧ i.val % 79 = 0 then 1 else -1

/-! ## The bytes put into the queue by a sequence of calls -/

/-- The bytes a public call has added to the queue that held `s` before and
holds `t` after: what the queue holds beyond the bytes held before, for
`EnqueueSample` and `EnqueueFinalSample`; nothing for the other calls. -/
def QCall.added (s t : QState) : QCall → List Nat
  | QCall.enqueueSample _ _ => (contents t).drop s.qCount
  | QCall.enqueueFinalSample _ => (contents t).drop s.qCount
  | _ => []

/-- A sequence of public calls, one after the other, with the bytes they
added to the queue, oldest first. -/
def runCallsLog : QState → List QCall → Option (QState × List Nat)
  | s, [] => some (s, [])
  | s, c :: rest =>
      (c.run s).bind fun t => (runCallsLog t rest).map fun p => (p.1, c.added s t ++ p.2)

/-- The call is made in transition-only mode. -/
def QCall.transitionOnly : QCall → Prop
  | QCall.enqueueSample e _ => e.SamplingMode = SAMPLING_MODE_TRANSITIONONLY
  | QCall.enqueueFinalSample e => e.SamplingMode = SAMPLING_MODE_TRANSITIONONLY
  | _ => True

/-- The bytes are a sequence of records of 4 bytes, each starting with
`ROLLOVER_MARKER` or `SAMPLE_MARKER`. -/
def wholeRecords : List Nat → Bool
  | [] => true
  | m :: _ :: _ :: _ :: rest =>
      (m == ROLLOVER_MARKER || m == SAMPLE_MARKER) && wholeRecords rest
  | _ => false

/-- The bytes `EnqueueSample(x)` hands to `enqueueByte` in transition-only
mode, in order: the rollover record when the low 16 bits of `Irqs` are zero,
then the sample record unless the sample repeats the one emitted last. -/
def recordBytes (e : Env) (s : QState) (x : Nat) : List Nat :=
  (if e.Irqs &&& 0xffff = 0 then
    [ROLLOVER_MARKER, u16 (e.Irqs >>> 16) &&& 0xff, (u16 (e.Irqs >>> 16) >>> 8) &&& 0xff, 0]
  else []) ++
  (if s.firstSample = 0 ∧ s.prevSample = u8 x then []
  else [SAMPLE_MARKER, e.Irqs &&& 0xff, (e.Irqs >>> 8) &&& 0xff, u8 x])

/-- The state `t` is the well-formed state `s` after `enqueueByte` was called
on each byte of `bs` in turn: the bytes that fitted are appended, and the
overflow flag is raised when one did not fit. -/
def Attempted (s t : QState) (bs : List Nat) : Prop :=
  QWellFormed t ∧ t.qHead = s.qHead ∧
  contents t = contents s ++ bs.take (QSIZE - s.qCount) ∧
  t.qCount = s.qCount + (bs.take (QSIZE - s.qCount)).length ∧
  t.Overflow = (if QSIZE - s.qCount < bs.length then 1 else s.Overflow)

/-- The first `n` of a series of `EnqueueSample` calls in transition-only mode
with samples that alternate between 0 and 1, with `Irqs` at 1. -/
def fillCalls (n : Nat) : List QCall :=
  (List.range n).map fun i => QCall.enqueueSample ⟨8, SAMPLING_MODE_TRANSITIONONLY, 1⟩ (i % 2)

/-! ## Properties of the sample queue -/

theorem clear_wellFormed (e : Env) (s : QState) : QWellFormed (ClearSampleQueue e s) := by
  simp [QWellFormed, ClearSampleQueue, QSIZE]

theorem contents_clear (e : Env) (s : QState) : contents (ClearSampleQueue e s) = [] := by
  simp [contents, ClearSampleQueue]

/-- The function `enqueueByte` on a full queue only raises the overflow flag. -/
theorem enqueueByte_full (s : QState) (b : Nat) (hc : QSIZE ≤ s.qCount) :
    enqueueByte s b = some ({ s with Overflow := 1 }, 65535) := by
  simp [enqueueByte, hc, u16]

/-- The function `enqueueByte` with room, result spelled out. -/
theorem enqueueByte_room_eq (s : QState) (b : Nat) (hw : QWellFormed s) (hc : s.qCount < QSIZE) :
    enqueueByte s b = some ({ s with
      queue := Function.update s.queue s.qTail (u8 b),
      qTail := if s.qTail + 1 = QSIZE then 0 else s.qTail + 1,
      qCount := s.qCount + 1, enqueueBusy := 0 }, 0) := by
  obtain ⟨h1, h2, h3, h4, h5, h6⟩ := hw
  simp only [QSIZE] at h1 h2 h3 h4 hc
  have e1 : (s.qTail + 1) % 4294967296 = s.qTail + 1 := by omega
  have e2 : (s.qCount + 1) % 4294967296 = s.qCount + 1 := by omega
  simp only [enqueueByte, QSIZE, ge_iff_le, h6, ne_eq, not_true_eq_false, if_false, u32, e1, e2]
  rw [if_neg (by omega), if_neg (by omega)]

/-- The function `enqueueByte` with room in a well-formed queue appends the byte. -/
theorem enqueueByte_room (s : QState) (b : Nat) (hw : QWellFormed s) (hc : s.qCount < QSIZE) :
    ∃ s1, enqueueByte s b = some (s1, 0) ∧ QWellFormed s1 ∧
      contents s1 = contents s ++ [u8 b] ∧ s1.qCount = s.qCount + 1 ∧
      s1.qHead = s.qHead ∧ s1.Overflow = s.Overflow ∧
      s1.firstSample = s.firstSample ∧ s1.prevSample = s.prevSample ∧
      s1.stackedSample = s.stackedSample ∧ s1.stackShift = s.stackShift ∧
      s1.stackMask = s.stackMask := by
  refine ⟨_, enqueueByte_room_eq s b hw hc, ?_, ?_, rfl, rfl, rfl, rfl, rfl, rfl, rfl, rfl⟩
  · obtain ⟨h1, h2, h3, h4, h5, h6⟩ := hw
    simp only [QSIZE] at h1 h2 h3 h4 hc
    simp only [QWellFormed, QSIZE]
    refine ⟨by omega, h2, ?_, ?_, trivial, h6⟩
    · split <;> omega
    · split <;> omega
  · obtain ⟨h1, h2, h3, h4, h5, h6⟩ := hw
    simp only [QSIZE] at h1 h2 h3 h4 hc
    simp only [contents, QSIZE]
    rw [List.range_succ, List.map_append]
    congr 1
    · apply List.map_congr_left
      intro i hi
      rw [List.mem_range] at hi
      rw [Function.update_noteq]
      omega
    · simp only [List.map_cons, List.map_nil, List.cons.injEq, and_true]
      rw [← h4, Function.update_same]

/-- The function `DequeueSample` on a non-empty queue, result spelled out. -/
theorem dequeueSample_nonempty_eq (s : QState) (hw : QWellFormed s) (hc : 0 < s.qCount) :
    DequeueSample s = some ({ s with
      qHead := if s.qHead + 1 = QSIZE then 0 else s.qHead + 1,
      qCount := s.qCount - 1, dequeueBusy := 0 }, s.queue s.qHead) := by
  obtain ⟨h1, h2, h3, h4, h5, h6⟩ := hw
  simp only [QSIZE] at h1 h2 h3 h4
  have e1 : (s.qHead + 1) % 4294967296 = s.qHead + 1 := by omega
  simp only [DequeueSample, QSIZE, ge_iff_le, h5, ne_eq, not_true_eq_false, if_false, u32, e1]
  rw [if_neg (by omega), if_neg (by omega)]

/-- The function `DequeueSample` on a non-empty well-formed queue removes the oldest byte. -/
theorem dequeueSample_nonempty (s : QState) (hw : QWellFormed s) (hc : 0 < s.qCount) :
    ∃ s1, DequeueSample s = some (s1, s.queue s.qHead) ∧ QWellFormed s1 ∧
      contents s = s.queue s.qHead :: contents s1 ∧ s1.qCount + 1 = s.qCount ∧
      s1.Overflow = s.Overflow ∧ s1.qTail = s.qTail ∧ s1.queue = s.queue := by
  refine ⟨_, dequeueSample_nonempty_eq s hw hc, ?_, ?_, ?_, rfl, rfl, rfl⟩
  · obtain ⟨h1, h2, h3, h4, h5, h6⟩ := hw
    simp only [QSIZE] at h1 h2 h3 h4
    simp only [QWellFormed, QSIZE]
    refine ⟨by omega, ?_, h3, ?_, h5, trivial⟩
    · split <;> omega
    · split <;> omega
  · obtain ⟨h1, h2, h3, h4, h5, h6⟩ := hw
    simp only [QSIZE] at h1 h2 h3 h4
    simp only [contents, QSIZE]
    obtain ⟨n, hn⟩ : ∃ n, s.qCount = n + 1 := ⟨s.qCount - 1, by omega⟩
    rw [hn, List.range_succ_eq_map, List.map_cons, List.map_map]
    simp only [Nat.add_zero, Nat.add_sub_cancel]
    rw [Nat.mod_eq_of_lt h2]
    congr 1
    apply List.map_congr_left
    intro i _
    simp only [Function.comp]
    congr 1
    split <;> omega
  · simp only
    omega

/-- Along a run that respects the occupancy condition every call returns, the
occupancy `qCount` follows the count of the bytes put in and taken out, what
was held at the start followed by what was enqueued is what was dequeued
followed by what is held at the end, and `qHead` has advanced by one modulo
`QSIZE` for each byte taken out. -/
theorem runOps_conservation (ops : List QOp) :
    ∀ s : QState, QWellFormed s → withinCapacity s.qCount ops = true →
      ∃ sf out, runOps s ops = some (sf, out) ∧ QWellFormed sf ∧
        out.length = dequeueCount ops ∧
        contents s ++ enqueuedBytes ops = out ++ contents sf ∧
        sf.qHead = (s.qHead + dequeueCount ops) % QSIZE := by
  induction ops with
  | nil =>
    intro s hw _
    refine ⟨s, [], rfl, hw, rfl, by simp [enqueuedBytes], ?_⟩
    have := hw.2.1
    simp only [dequeueCount, Nat.add_zero]
    exact (Nat.mod_eq_of_lt this).symm
  | cons op rest ih =>
    intro s hw hcap
    cases op with
    | enq b =>
      simp only [withinCapacity, Bool.and_eq_true, decide_eq_true_eq] at hcap
      obtain ⟨s1, h1, hw1, hc1, hq1, hh1, -⟩ := enqueueByte_room s b hw hcap.1
      obtain ⟨sf, out, hr, hwf, hlen, hcons, hhead⟩ := ih s1 hw1 (by rw [hq1]; exact hcap.2)
      refine ⟨sf, out, ?_, hwf, ?_, ?_, ?_⟩
      · simp [runOps, h1, hr]
      · simpa [dequeueCount] using hlen
      · rw [← hcons, hc1]
        simp [enqueuedBytes]
      · rw [hhead, hh1]
        rfl
    | deq =>
      simp only [withinCapacity, Bool.and_eq_true, decide_eq_true_eq] at hcap
      obtain ⟨s1, h1, hw1, hc1, hq1, -⟩ := dequeueSample_nonempty s hw hcap.1
      have hh1 : s1.qHead = if s.qHead + 1 = QSIZE then 0 else s.qHead + 1 := by
        have h2 := dequeueSample_nonempty_eq s hw hcap.1
        rw [h1] at h2
        have := (Prod.mk.inj (Option.some.inj h2)).1
        rw [this]
      obtain ⟨sf, out, hr, hwf, hlen, hcons, hhead⟩ := ih s1 hw1
        (by rw [show s1.qCount = s.qCount - 1 by omega]; exact hcap.2)
      refine ⟨sf, s.queue s.qHead :: out, ?_, hwf, ?_, ?_, ?_⟩
      · simp [runOps, h1, hr]
      · simp [dequeueCount, hlen]
      · rw [hc1]
        simp only [enqueuedBytes, List.cons_append, List.cons.injEq, true_and]
        exact hcons
      · rw [hhead, hh1]
        have := hw.2.1
        simp only [QSIZE, dequeueCount] at this ⊢
        split <;> omega

/-- Claim C1: for every sequence of `enqueueByte` and `DequeueSample` calls
after `ClearSampleQueue` in which no enqueue is attempted at occupancy 4096
and no dequeue at occupancy 0 (a condition on the sequence of calls alone),
every call returns, each `DequeueSample` yields a byte, and the `k`-th byte
dequeued is the `k`-th byte enqueued.  The sequence may be of any length:
`qHead` ends at the number of bytes dequeued modulo 4096 and `qTail` at the
number of bytes enqueued modulo 4096, so both go round the array, and
`qCount` is the difference of the two numbers. -/
theorem fifo_order (e : Env) (s0 : QState) (ops : List QOp)
    (hcap : withinCapacity 0 ops = true) :
    ∃ sf out, runOps (ClearSampleQueue e s0) ops = some (sf, out) ∧
      out.length = dequeueCount ops ∧
      out = (enqueuedBytes ops).take (dequeueCount ops) ∧
      (∀ k, k < dequeueCount ops → out[k]? = (enqueuedBytes ops)[k]?) ∧
      sf.qHead = dequeueCount ops % 4096 ∧
      sf.qTail = (enqueuedBytes ops).length % 4096 ∧
      sf.qCount + dequeueCount ops = (enqueuedBytes ops).length := by
  obtain ⟨sf, out, hr, hw, hlen, hcons, hhead⟩ :=
    runOps_conservation ops _ (clear_wellFormed e s0) hcap
  rw [contents_clear, List.nil_append] at hcons
  have hcount : sf.qCount + dequeueCount ops = (enqueuedBytes ops).length := by
    have := congrArg List.length hcons
    rw [List.length_append, hlen] at this
    simp only [contents, List.length_map, List.length_range] at this
    omega
  have hh : sf.qHead = dequeueCount ops % 4096 := by
    rw [hhead]
    simp [ClearSampleQueue, QSIZE]
  refine ⟨sf, out, hr, hlen, ?_, ?_, hh, ?_, hcount⟩
  · rw [hcons, ← hlen]; simp
  · intro k hk
    rw [hcons, List.getElem?_append_left (by omega)]
  · have := hw.2.2.2.1
    simp only [QSIZE] at this
    omega

theorem withinCapacity_wrapOps (n : Nat) :
    ∀ c, c < QSIZE → withinCapacity c (wrapOps n) = true := by
  induction n with
  | zero => intro c _; rfl
  | succ n ih =>
    intro c hc
    simp only [wrapOps, withinCapacity, Bool.and_eq_true, decide_eq_true_eq]
    exact ⟨hc, by omega, by simpa using ih c hc⟩

theorem counts_wrapOps (n : Nat) :
    dequeueCount (wrapOps n) = n ∧ (enqueuedBytes (wrapOps n)).length = n := by
  induction n with
  | zero => exact ⟨rfl, rfl⟩
  | succ n ih =>
    simp only [wrapOps, dequeueCount, enqueuedBytes, List.length_cons, ih.1, ih.2, and_self]

theorem withinCapacity_two (a b : Nat) (l : List QOp) (h : withinCapacity 2 l = true) :
    withinCapacity 0 (QOp.enq a :: QOp.enq b :: l) = true := by
  simp only [withinCapacity, h, Bool.and_true, Bool.and_eq_true, decide_eq_true_eq]
  exact ⟨by decide, by decide⟩

theorem counts_two (a b : Nat) (l : List QOp) :
    dequeueCount (QOp.enq a :: QOp.enq b :: l) = dequeueCount l ∧
    (enqueuedBytes (QOp.enq a :: QOp.enq b :: l)).length = (enqueuedBytes l).length + 2 :=
  ⟨rfl, rfl⟩

theorem fifo_order_witness :
    withinCapacity 0 (QOp.enq 17 :: QOp.enq 34 :: wrapOps 5000) = true ∧
    dequeueCount (QOp.enq 17 :: QOp.enq 34 :: wrapOps 5000) = 5000 ∧
    (enqueuedBytes (QOp.enq 17 :: QOp.enq 34 :: wrapOps 5000)).length = 5002 ∧
    ∃ sf out, runOps (ClearSampleQueue ⟨8, 0, 0⟩ sampleState)
        (QOp.enq 17 :: QOp.enq 34 :: wrapOps 5000) = some (sf, out) ∧
      out.length = dequeueCount (QOp.enq 17 :: QOp.enq 34 :: wrapOps 5000) ∧
      out = (enqueuedBytes (QOp.enq 17 :: QOp.enq 34 :: wrapOps 5000)).take
        (dequeueCount (QOp.enq 17 :: QOp.enq 34 :: wrapOps 5000)) ∧
      (∀ k, k < dequeueCount (QOp.enq 17 :: QOp.enq 34 :: wrapOps 5000) →
        out[k]? = (enqueuedBytes (QOp.enq 17 :: QOp.enq 34 :: wrapOps 5000))[k]?) ∧
      sf.qHead = dequeueCount (QOp.enq 17 :: QOp.enq 34 :: wrapOps 5000) % 4096 ∧
      sf.qTail = (enqueuedBytes (QOp.enq 17 :: QOp.enq 34 :: wrapOps 5000)).length % 4096 ∧
      sf.qCount + dequeueCount (QOp.enq 17 :: QOp.enq 34 :: wrapOps 5000) =
        (enqueuedBytes (QOp.enq 17 :: QOp.enq 34 :: wrapOps 5000)).length :=
  ⟨withinCapacity_two 17 34 _ (withinCapacity_wrapOps 5000 2 (by decide)),
    (counts_two 17 34 _).1.trans (counts_wrapOps 5000).1,
    (counts_two 17 34 _).2.trans (congrArg (· + 2) (counts_wrapOps 5000).2),
    fifo_order ⟨8, 0, 0⟩ sampleState _
      (withinCapacity_two 17 34 _ (withinCapacity_wrapOps 5000 2 (by decide)))⟩

/-- As long as there is room, `enqueueByte` returns `0` for every byte of a
list and leaves the overflow flag as it was. -/
theorem enqueueAll_room (bs : List Nat) :
    ∀ s : QState, QWellFormed s → s.qCount + bs.length ≤ QSIZE →
      ∃ s1, enqueueAll s bs = some (s1, List.replicate bs.length 0) ∧ QWellFormed s1 ∧
        s1.qCount = s.qCount + bs.length ∧ s1.Overflow = s.Overflow := by
  induction bs with
  | nil => intro s hw _; exact ⟨s, rfl, hw, rfl, rfl⟩
  | cons b rest ih =>
    intro s hw hc
    simp only [List.length_cons] at hc
    obtain ⟨s1, h1, hw1, -, hq1, -, ho1, -⟩ := enqueueByte_room s b hw (by omega)
    obtain ⟨s2, h2, hw2, hq2, ho2⟩ := ih s1 hw1 (by omega)
    refine ⟨s2, ?_, hw2, ?_, by rw [ho2, ho1]⟩
    · simp [enqueueAll, h1, h2, List.replicate_succ]
    · simp only [List.length_cons]; omega

theorem toInt16_failure : toInt16 65535 = -1 := by decide

/-- The function `EnqueueSample` on a full queue: nothing is stored, and the result is `-1`
unless the call returns before its last `enqueueByte` (a sample that is
stacked, or one that is suppressed in transition-only mode). -/
theorem enqueueSample_full (e : Env) (s : QState) (x : Nat) (hfull : s.qCount = QSIZE) :
    ∃ s1 r, EnqueueSample e s x = some (s1, r) ∧
      s1.queue = s.queue ∧ s1.qHead = s.qHead ∧ s1.qTail = s.qTail ∧ s1.qCount = s.qCount ∧
      (((e.SamplingMode ≠ SAMPLING_MODE_TRANSITIONONLY ∧ e.SamplingChannels ≤ 4 ∧
            u8 (s.stackShift + e.SamplingChannels) < 8) ∨
          (e.SamplingMode = SAMPLING_MODE_TRANSITIONONLY ∧ s.firstSample = 0 ∧
            s.prevSample = u8 x)) → r = 0) ∧
      (¬ ((e.SamplingMode ≠ SAMPLING_MODE_TRANSITIONONLY ∧ e.SamplingChannels ≤ 4 ∧
            u8 (s.stackShift + e.SamplingChannels) < 8) ∨
          (e.SamplingMode = SAMPLING_MODE_TRANSITIONONLY ∧ s.firstSample = 0 ∧
            s.prevSample = u8 x)) → r = -1 ∧ s1.Overflow = 1) := by
  have hf : ∀ (t : QState) (b : Nat), t.qCount = s.qCount →
      enqueueByte t b = some ({ t with Overflow := 1 }, 65535) :=
    fun t b ht => enqueueByte_full t b (by rw [ht, hfull])
  by_cases hm : e.SamplingMode = SAMPLING_MODE_TRANSITIONONLY
  · by_cases hsup : s.firstSample = 0 ∧ s.prevSample = u8 x
    · by_cases hr : e.Irqs &&& 0xffff = 0
      · refine ⟨{ s with Overflow := 1 }, 0, ?_, rfl, rfl, rfl, rfl, fun _ => rfl, ?_⟩
        · simp [EnqueueSample, enqueueRecord, hm, hr, hf, hsup]
        · intro hn; exact absurd (Or.inr ⟨hm, hsup⟩) hn
      · refine ⟨s, 0, ?_, rfl, rfl, rfl, rfl, fun _ => rfl, ?_⟩
        · simp [EnqueueSample, enqueueRecord, hm, hr, hsup]
        · intro hn; exact absurd (Or.inr ⟨hm, hsup⟩) hn
    · by_cases hr : e.Irqs &&& 0xffff = 0
      · refine ⟨{ s with firstSample := 0, prevSample := u8 x, Overflow := 1 }, -1, ?_,
          rfl, rfl, rfl, rfl, ?_, fun _ => ⟨rfl, rfl⟩⟩
        · simp [EnqueueSample, enqueueRecord, hm, hr, hf, hsup, toInt16_failure]
        · rintro (h | h)
          · exact absurd hm h.1
          · exact absurd h.2 hsup
      · refine ⟨{ s with firstSample := 0, prevSample := u8 x, Overflow := 1 }, -1, ?_,
          rfl, rfl, rfl, rfl, ?_, fun _ => ⟨rfl, rfl⟩⟩
        · simp [EnqueueSample, enqueueRecord, hm, hr, hf, hsup, toInt16_failure]
        · rintro (h | h)
          · exact absurd hm h.1
          · exact absurd h.2 hsup
  · by_cases hch : e.SamplingChannels ≤ 4
    · by_cases hst : u8 (s.stackShift + e.SamplingChannels) < 8
      · refine ⟨{ s with
            stackedSample := u8 (s.stackedSample ||| ((u8 x &&& s.stackMask) <<< s.stackShift)),
            stackShift := u8 (s.stackShift + e.SamplingChannels) }, 0, ?_,
          rfl, rfl, rfl, rfl, fun _ => rfl, ?_⟩
        · simp only [EnqueueSample, hm, if_false, hch, if_true, hst]
        · intro hn; exact absurd (Or.inl ⟨hm, hch, hst⟩) hn
      · refine ⟨{ s with stackedSample := 0, stackShift := 0, Overflow := 1 }, -1, ?_,
          rfl, rfl, rfl, rfl, ?_, fun _ => ⟨rfl, rfl⟩⟩
        · simp [EnqueueSample, enqueueRecord, hm, hch, hst, hf, toInt16_failure]
        · rintro (h | h)
          · exact absurd h.2.2 hst
          · exact absurd h.1 hm
    · refine ⟨{ s with Overflow := 1 }, -1, ?_, rfl, rfl, rfl, rfl, ?_, fun _ => ⟨rfl, rfl⟩⟩
      · simp [EnqueueSample, enqueueRecord, hm, hch, hf, toInt16_failure]
      · rintro (h | h)
        · exact absurd h.2.1 hch
        · exact absurd h.1 hm

/-- Claim C2: on a full queue (`qCount == 4096`) `enqueueByte` returns `-1`
(`65535` as `uint16_t`) and changes nothing but `Overflow`, which it sets to
`1`; `EnqueueSample` on a full queue stores nothing and returns `-1` whenever
it reaches its last `enqueueByte`; and after `ClearSampleQueue` the first 4096
enqueues return `0` with `Overflow` still `0`, while the 4097th is dropped in
this way. -/
theorem enqueue_on_full (s : QState) (b : Nat) (hfull : s.qCount = QSIZE) :
    enqueueByte s b = some ({ s with Overflow := 1 }, 65535) ∧
    (∀ (e : Env) (x : Nat), ∃ s1 r, EnqueueSample e s x = some (s1, r) ∧
      s1.queue = s.queue ∧ s1.qHead = s.qHead ∧ s1.qTail = s.qTail ∧ s1.qCount = s.qCount ∧
      (((e.SamplingMode ≠ SAMPLING_MODE_TRANSITIONONLY ∧ e.SamplingChannels ≤ 4 ∧
            u8 (s.stackShift + e.SamplingChannels) < 8) ∨
          (e.SamplingMode = SAMPLING_MODE_TRANSITIONONLY ∧ s.firstSample = 0 ∧
            s.prevSample = u8 x)) → r = 0) ∧
      (¬ ((e.SamplingMode ≠ SAMPLING_MODE_TRANSITIONONLY ∧ e.SamplingChannels ≤ 4 ∧
            u8 (s.stackShift + e.SamplingChannels) < 8) ∨
          (e.SamplingMode = SAMPLING_MODE_TRANSITIONONLY ∧ s.firstSample = 0 ∧
            s.prevSample = u8 x)) → r = -1 ∧ s1.Overflow = 1)) ∧
    (∀ (e : Env) (s0 : QState) (bs : List Nat), bs.length = QSIZE →
      ∃ s1, enqueueAll (ClearSampleQueue e s0) bs = some (s1, List.replicate QSIZE 0) ∧
        s1.Overflow = 0 ∧ s1.qCount = QSIZE ∧
        enqueueByte s1 b = some ({ s1 with Overflow := 1 }, 65535)) := by
  refine ⟨enqueueByte_full s b (by omega), fun e x => enqueueSample_full e s x hfull, ?_⟩
  intro e s0 bs hlen
  obtain ⟨s1, h1, -, hq, ho⟩ := enqueueAll_room bs (ClearSampleQueue e s0)
    (clear_wellFormed e s0) (by simp [ClearSampleQueue, hlen])
  refine ⟨s1, by rw [h1, hlen], by rw [ho]; rfl, ?_, ?_⟩
  · rw [hq, hlen]; simp [ClearSampleQueue]
  · exact enqueueByte_full s1 b (by rw [hq, hlen]; simp [ClearSampleQueue])

theorem enqueue_on_full_witness :
    fullState.qCount = QSIZE ∧
    enqueueByte fullState 0x5a = some ({ fullState with Overflow := 1 }, 65535) :=
  ⟨rfl, (enqueue_on_full fullState 0x5a rfl).1⟩

theorem qKeeps_enqueueByte (k : Bool) (s : QState) (b : Nat) (h : QKeeps k s) :
    ∃ s1 r, enqueueByte s b = some (s1, r) ∧ QKeeps k s1 := by
  by_cases hc : s.qCount < QSIZE
  · obtain ⟨s1, h1, hw1, -, -, -, ho, -⟩ := enqueueByte_room s b h.1 hc
    exact ⟨s1, 0, h1, hw1, fun hk => by rw [ho]; exact h.2 hk⟩
  · refine ⟨_, _, enqueueByte_full s b (by omega), ?_, fun _ => rfl⟩
    exact h.1

theorem qKeeps_dequeueSample (k : Bool) (s : QState) (h : QKeeps k s) :
    ∃ s1 r, DequeueSample s = some (s1, r) ∧ QKeeps k s1 := by
  by_cases hc : 0 < s.qCount
  · obtain ⟨s1, h1, hw1, -, -, ho, -⟩ := dequeueSample_nonempty s h.1 hc
    exact ⟨s1, _, h1, hw1, fun hk => by rw [ho]; exact h.2 hk⟩
  · refine ⟨s, 0, ?_, h⟩
    simp [DequeueSample, show s.qCount = 0 by omega]

theorem qKeeps_encoder (k : Bool) (s : QState) (a b c d : Nat) (h : QKeeps k s) :
    QKeeps k { s with firstSample := a, prevSample := b, stackedSample := c, stackShift := d } :=
  h

theorem qKeeps_enqueueRecord (k : Bool) (e : Env) (s : QState) (x : Nat) (h : QKeeps k s) :
    ∃ s1 r, enqueueRecord e s x = some (s1, r) ∧ QKeeps k s1 := by
  unfold enqueueRecord
  split
  · split
    · exact ⟨s, 0, rfl, h⟩
    · obtain ⟨s1, r1, e1, h1⟩ := qKeeps_enqueueByte k _ SAMPLE_MARKER
        (qKeeps_encoder k s 0 x s.stackedSample s.stackShift h)
      obtain ⟨s2, r2, e2, h2⟩ := qKeeps_enqueueByte k s1 (e.Irqs &&& 0xff) h1
      obtain ⟨s3, r3, e3, h3⟩ := qKeeps_enqueueByte k s2 ((e.Irqs >>> 8) &&& 0xff) h2
      obtain ⟨s4, r4, e4, h4⟩ := qKeeps_enqueueByte k s3 x h3
      refine ⟨s4, toInt16 r4, ?_, h4⟩
      simp [e1, e2, e3, e4]
  · obtain ⟨s4, r4, e4, h4⟩ := qKeeps_enqueueByte k s x h
    exact ⟨s4, toInt16 r4, by simp [e4], h4⟩

theorem qKeeps_enqueueSample (k : Bool) (e : Env) (s : QState) (x : Nat) (h : QKeeps k s) :
    ∃ s1 r, EnqueueSample e s x = some (s1, r) ∧ QKeeps k s1 := by
  unfold EnqueueSample
  simp only
  split
  · split
    · obtain ⟨s1, r1, e1, h1⟩ := qKeeps_enqueueByte k s ROLLOVER_MARKER h
      obtain ⟨s2, r2, e2, h2⟩ := qKeeps_enqueueByte k s1 (u16 (e.Irqs >>> 16) &&& 0xff) h1
      obtain ⟨s3, r3, e3, h3⟩ := qKeeps_enqueueByte k s2 ((u16 (e.Irqs >>> 16) >>> 8) &&& 0xff) h2
      obtain ⟨s4, r4, e4, h4⟩ := qKeeps_enqueueByte k s3 0 h3
      obtain ⟨s5, r5, e5, h5⟩ := qKeeps_enqueueRecord k e s4 (u8 x) h4
      exact ⟨s5, r5, by simp [e1, e2, e3, e4, e5], h5⟩
    · exact qKeeps_enqueueRecord k e s (u8 x) h
  · split
    · split
      · exact ⟨_, 0, rfl, qKeeps_encoder k s s.firstSample s.prevSample _ _ h⟩
      · exact qKeeps_enqueueRecord k e _ _ (qKeeps_encoder k s s.firstSample s.prevSample 0 0 h)
    · exact qKeeps_enqueueRecord k e s (u8 x) h

theorem qKeeps_call (k : Bool) (s : QState) (c : QCall) (h : QKeeps k s) :
    ∃ s1, c.run s = some s1 ∧ QKeeps k s1 := by
  cases c with
  | enqueueSample e x =>
    obtain ⟨s1, r, e1, h1⟩ := qKeeps_enqueueSample k e s x h
    exact ⟨s1, by simp [QCall.run, e1], h1⟩
  | enqueueFinalSample e =>
    obtain ⟨s1, r, e1, h1⟩ := qKeeps_enqueueSample k e s (if s.prevSample = 0 then 0xff else 0) h
    exact ⟨s1, by simp [QCall.run, EnqueueFinalSample, e1], h1⟩
  | dequeueSample =>
    obtain ⟨s1, r, e1, h1⟩ := qKeeps_dequeueSample k s h
    exact ⟨s1, by simp [QCall.run, e1], h1⟩
  | sampleQueueIsEmpty => exact ⟨s, rfl, h⟩
  | sampleQueueIsFull => exact ⟨s, rfl, h⟩

/-- Every sequence of public calls from a well-formed state returns, in a
well-formed state, with a raised overflow flag still raised. -/
theorem qKeeps_runCalls (k : Bool) (cs : List QCall) :
    ∀ s : QState, QKeeps k s → ∃ s1, runCalls s cs = some s1 ∧ QKeeps k s1 := by
  induction cs with
  | nil => intro s h; exact ⟨s, rfl, h⟩
  | cons c rest ih =>
    intro s h
    obtain ⟨s1, e1, h1⟩ := qKeeps_call k s c h
    obtain ⟨s2, e2, h2⟩ := ih s1 h1
    exact ⟨s2, by simp [runCalls, e1, e2], h2⟩

/-- Claim C3: every sequence of `EnqueueSample`, `EnqueueFinalSample` and
`DequeueSample` calls (and of the two occupancy predicates) after
`ClearSampleQueue` returns, and in the state it reaches
`0 <= qCount <= 4096`, `qHead < 4096`, `qTail < 4096` and
`qTail == (qHead + qCount) mod 4096`. -/
theorem queue_invariant (e : Env) (s0 : QState) (cs : List QCall) :
    ∃ s, runCalls (ClearSampleQueue e s0) cs = some s ∧
      0 ≤ s.qCount ∧ s.qCount ≤ 4096 ∧ s.qHead < 4096 ∧ s.qTail < 4096 ∧
      s.qTail = (s.qHead + s.qCount) % 4096 := by
  obtain ⟨s, hs, hw, -⟩ := qKeeps_runCalls false cs _ ⟨clear_wellFormed e s0, by simp⟩
  exact ⟨s, hs, Nat.zero_le _, hw.1, hw.2.1, hw.2.2.1, hw.2.2.2.1⟩

/-- Claim C4: from a well-formed state (every state reached from
`ClearSampleQueue` is one, by `qKeeps_runCalls`) in which `Overflow == 1`, any
sequence of `EnqueueSample`, `EnqueueFinalSample`, `DequeueSample`,
`SampleQueueIsEmpty` and `SampleQueueIsFull` calls returns with `Overflow`
still `1`, whatever the occupancy it ends with; `ClearSampleQueue` sets it to
`0`. -/
theorem overflow_sticky (s : QState) (cs : List QCall)
    (hw : QWellFormed s) (ho : s.Overflow = 1) :
    (∃ s1, runCalls s cs = some s1 ∧ s1.Overflow = 1) ∧
    ∀ e : Env, (ClearSampleQueue e s).Overflow = 0 := by
  refine ⟨?_, fun e => rfl⟩
  obtain ⟨s1, hs, -, h1⟩ := qKeeps_runCalls true cs s ⟨hw, fun _ => ho⟩
  exact ⟨s1, hs, h1 rfl⟩

theorem overflow_sticky_witness :
    QWellFormed sampleState ∧ sampleState.Overflow = 1 ∧
    (∃ s1, runCalls sampleState
        [QCall.dequeueSample, QCall.sampleQueueIsEmpty, QCall.dequeueSample,
         QCall.enqueueSample ⟨8, 0, 3⟩ 0x41, QCall.sampleQueueIsFull,
         QCall.enqueueFinalSample ⟨8, 1, 4⟩, QCall.dequeueSample] = some s1 ∧
      s1.Overflow = 1) ∧
    ∀ e : Env, (ClearSampleQueue e sampleState).Overflow = 0 :=
  ⟨by simp [QWellFormed, sampleState, QSIZE], rfl,
   overflow_sticky sampleState _ (by simp [QWellFormed, sampleState, QSIZE]) rfl⟩

/-! ## Properties of the bit packer -/

theorem bitsBE_length (w n : Nat) : (bitsBE w n).length = w := by
  induction w with
  | zero => rfl
  | succ w ih => simp [bitsBE, ih]

theorem bitStream_length (w : Nat) (l : List Nat) : (bitStream w l).length = w * l.length := by
  induction l with
  | nil => rfl
  | cons c rest ih => simp [bitStream, bitsBE_length, ih]; ring

theorem bitStream_append (w : Nat) (l1 l2 : List Nat) :
    bitStream w (l1 ++ l2) = bitStream w l1 ++ bitStream w l2 := by
  induction l1 with
  | nil => rfl
  | cons c rest ih => simp [bitStream, ih]

theorem bitStream_singleton (w c : Nat) : bitStream w [c] = bitsBE w c := by
  simp [bitStream]

/-- Two numbers with the same low `w` bits have the same `bitsBE w`. -/
theorem bitsBE_congr (w a b : Nat) (h : ∀ i, i < w → a.testBit i = b.testBit i) :
    bitsBE w a = bitsBE w b := by
  induction w with
  | zero => rfl
  | succ w ih =>
    simp only [bitsBE]
    rw [h w (Nat.lt_succ_self w), ih (fun i hi => h i (Nat.lt_succ_of_lt hi))]

theorem bitsBE_mod (w a : Nat) : bitsBE w (a % 2 ^ w) = bitsBE w a := by
  apply bitsBE_congr
  intro i hi
  simp [Nat.testBit_mod_two_pow, hi]

/-- Splitting a field of `p + q` bits into its high `p` and low `q` bits. -/
theorem bitsBE_split (p q z : Nat) :
    bitsBE (p + q) z = bitsBE p (z >>> q) ++ bitsBE q z := by
  induction p with
  | zero => simp [bitsBE]
  | succ p ih =>
    have : p + 1 + q = (p + q) + 1 := by omega
    rw [this]
    simp only [bitsBE, List.cons_append, ih, Nat.testBit_shiftRight]
    rw [Nat.add_comm q p]

/-- Appending `q` bits `y` below `x`. -/
theorem bitsBE_shift_or (p q x y : Nat) (hy : y < 2 ^ q) :
    bitsBE (p + q) ((x <<< q) ||| y) = bitsBE p x ++ bitsBE q y := by
  rw [bitsBE_split]
  congr 1
  · apply bitsBE_congr
    intro i _
    rw [Nat.testBit_shiftRight, Nat.testBit_or, Nat.testBit_shiftLeft]
    have hy' : y.testBit (q + i) = false :=
      Nat.testBit_lt_two_pow (lt_of_lt_of_le hy (Nat.pow_le_pow_right (by norm_num) (by omega)))
    simp [hy']
  · apply bitsBE_congr
    intro i hi
    rw [Nat.testBit_or, Nat.testBit_shiftLeft]
    simp [hi]

theorem mask_getD (k : Nat) (hk : k ≤ 16) : mask.getD k 0 = 2 ^ k - 1 := by
  interval_cases k <;> rfl


theorem shiftLeft_lt_two_pow (x p q : Nat) (hx : x < 2 ^ p) : x <<< q < 2 ^ (p + q) := by
  rw [Nat.shiftLeft_eq, Nat.pow_add]
  exact Nat.mul_lt_mul_of_pos_right hx (Nat.two_pow_pos q)

theorem shiftRight_lt_two_pow (x p q : Nat) (hx : x < 2 ^ (p + q)) : x >>> q < 2 ^ p := by
  rw [Nat.shiftRight_eq_div_pow, Nat.div_lt_iff_lt_mul (Nat.two_pow_pos q), ← Nat.pow_add]
  exact hx

/-- The loop of `sendOutputCode`: the `b` low bits of `ch` are appended to the
bit stream, whole bytes go to the callback and fewer than 8 bits stay
pending. -/
theorem sendLoop_spec : ∀ (fuel b : Nat) (s : CState) (ch : Nat),
    PackerOk s → 1 ≤ b → b ≤ 16 → ch < 2 ^ b → b < fuel →
    ∃ bits byte extra,
      sendLoop fuel s ch b =
        some { s with outBits := bits, outByte := byte, sent := s.sent ++ extra } ∧
      bits < 8 ∧ byte < 2 ^ bits ∧ (∀ x ∈ extra, x < 256) ∧
      bitStream 8 extra ++ bitsBE bits byte = bitsBE s.outBits s.outByte ++ bitsBE b ch ∧
      8 * extra.length + bits = s.outBits + b := by
  intro fuel
  induction fuel with
  | zero => intro b s ch _ _ _ _ hf; omega
  | succ fuel ih =>
    intro b s ch hp hb1 hb16 hch hf
    obtain ⟨hbits, hbyte⟩ := hp
    have hnot : ¬ 8 < s.outBits := by omega
    by_cases hfit : b ≤ 8 - s.outBits
    · -- the remaining bits fit into the pending byte
      have hlt : (s.outByte <<< b) ||| ch < 2 ^ (s.outBits + b) :=
        Nat.or_lt_two_pow (shiftLeft_lt_two_pow _ _ _ hbyte)
          (lt_of_lt_of_le hch (Nat.pow_le_pow_right (by norm_num) (by omega)))
      have hle : 2 ^ (s.outBits + b) ≤ 2 ^ 8 := Nat.pow_le_pow_right (by norm_num) (by omega)
      have hu8 : u8 ((s.outByte <<< b) ||| ch) = (s.outByte <<< b) ||| ch :=
        Nat.mod_eq_of_lt (lt_of_lt_of_le hlt hle)
      have hu16 : u16 (s.outBits + b) = s.outBits + b := by simp only [u16]; omega
      have hb := bitsBE_shift_or s.outBits b s.outByte ch hch
      by_cases hfull : s.outBits + b = 8
      · refine ⟨0, 0, [(s.outByte <<< b) ||| ch], ?_, by norm_num, by norm_num, ?_, ?_, ?_⟩
        · rw [hfull] at hu16
          simp [sendLoop, hnot, hfit, hu8, hu16, checkIfOutbitsFull, hfull]
        · intro x hx
          simp only [List.mem_singleton] at hx
          rw [hx]; rw [hfull] at hlt; exact hlt
        · rw [bitStream_singleton, ← hb, hfull]; simp [bitsBE]
        · simp; omega
      · refine ⟨s.outBits + b, (s.outByte <<< b) ||| ch, [], ?_, by omega, hlt, by simp, ?_, ?_⟩
        · simp [sendLoop, hnot, hfit, hu8, hu16, checkIfOutbitsFull, hfull]
        · simp [bitStream, hb]
        · simp
    · -- the pending byte is completed with the top bits and sent
      have hn8 : u8 (8 - s.outBits) = 8 - s.outBits := by simp only [u8]; omega
      obtain ⟨b1, hb1def⟩ : ∃ b1, b = (8 - s.outBits) + b1 := ⟨b - (8 - s.outBits), by omega⟩
      have hb1pos : 1 ≤ b1 := by omega
      have hsub : b - (8 - s.outBits) = b1 := by omega
      have hhi : ch >>> b1 < 2 ^ (8 - s.outBits) :=
        shiftRight_lt_two_pow _ _ _ (by rw [← hb1def]; exact hch)
      have hlo : s.outByte <<< (8 - s.outBits) < 2 ^ 8 := by
        have := shiftLeft_lt_two_pow s.outByte s.outBits (8 - s.outBits) hbyte
        rwa [show s.outBits + (8 - s.outBits) = 8 by omega] at this
      have hhi8 : ch >>> b1 < 2 ^ 8 :=
        lt_of_lt_of_le hhi (Nat.pow_le_pow_right (by norm_num) (by omega))
      have hu1 : u8 (s.outByte <<< (8 - s.outBits)) = s.outByte <<< (8 - s.outBits) :=
        Nat.mod_eq_of_lt hlo
      have hu2 : u8 (ch >>> b1) = ch >>> b1 := Nat.mod_eq_of_lt hhi8
      have hbyte2 : (s.outByte <<< (8 - s.outBits)) ||| (ch >>> b1) < 256 :=
        Nat.or_lt_two_pow hlo hhi8
      have hmask : ch &&& mask.getD b1 0 = ch % 2 ^ b1 := by
        rw [mask_getD b1 (by omega), Nat.and_pow_two_sub_one_eq_mod]
      obtain ⟨bits, byte, extra, hrun, h1, h2, h3, h4, h5⟩ :=
        ih b1 { s with sent := s.sent ++ [(s.outByte <<< (8 - s.outBits)) ||| (ch >>> b1)],
                       outBits := 0, outByte := 0 } (ch % 2 ^ b1)
          ⟨by norm_num, by norm_num⟩ hb1pos (by omega) (Nat.mod_lt _ (Nat.two_pow_pos b1))
          (by omega)
      refine ⟨bits, byte, ((s.outByte <<< (8 - s.outBits)) ||| (ch >>> b1)) :: extra,
        ?_, h1, h2, ?_, ?_, ?_⟩
      · simp only [sendLoop, hnot, if_false, hfit, hn8, hsub, hu1, hu2, hmask,
          checkIfOutbitsFull, if_true]
        rw [hrun]
        simp
      · intro x hx
        rcases List.mem_cons.1 hx with hx | hx
        · rw [hx]; exact hbyte2
        · exact h3 x hx
      · have h4' : bitStream 8 extra ++ bitsBE bits byte = bitsBE b1 ch := by
          rw [h4, bitsBE_mod]; rfl
        show (bitsBE 8 _ ++ bitStream 8 extra) ++ bitsBE bits byte = _
        rw [List.append_assoc, h4', hb1def, bitsBE_split (8 - s.outBits) b1 ch,
          ← List.append_assoc,
          ← bitsBE_shift_or s.outBits (8 - s.outBits) s.outByte (ch >>> b1) hhi,
          show s.outBits + (8 - s.outBits) = 8 by omega]
      · simp only [List.length_cons]
        simp only at h5
        omega


theorem compressInit_eq (s0 : CState) : CompressInit s0 = some freshState := by
  have h1 : primes.getD (NBITS - MINBITS) 0 = 9001 := by decide
  have hl : shiftLoop 32 ((9001 : Nat) : Int) 0 = some 3 := by decide
  have h2 : toInt16 (8 - 3) = 5 := by decide
  have ht : (fun i : Fin TABLE_LEN => if i.val < 9001 then (-1 : Int) else s0.hashTable i)
      = fun _ => -1 := by
    funext i; simp [show i.val < 9001 from i.isLt]
  have hc : (fun i : Fin TABLE_LEN => if i.val < 9001 then (0 : Nat) else s0.codeTable i)
      = fun _ => 0 := by
    funext i; simp [show i.val < 9001 from i.isLt]
  simp only [CompressInit, h1, hl, clearHash, ht, hc, FIRST_CODE, freshState]
  show some _ = some _
  rw [h2]

/-- One call of `sendOutputCode` with a code of at most `NBITS` bits. -/
theorem sendOutputCode_spec (s : CState) (ch : Nat) (hp : PackerOk s) (hch : ch < 2 ^ NBITS) :
    ∃ bits byte extra,
      sendOutputCode s ch =
        some { s with outBits := bits, outByte := byte, sent := s.sent ++ extra,
                      codes := s.codes ++ [ch] } ∧
      bits < 8 ∧ byte < 2 ^ bits ∧ (∀ x ∈ extra, x < 256) ∧
      bitStream 8 extra ++ bitsBE bits byte = bitsBE s.outBits s.outByte ++ bitsBE NBITS ch ∧
      8 * extra.length + bits = s.outBits + NBITS := by
  have hu : u16 ch = ch := by
    simp only [NBITS] at hch
    simp only [u16]; omega
  obtain ⟨bits, byte, extra, hrun, h⟩ :=
    sendLoop_spec (NBITS + 2) NBITS { s with codes := s.codes ++ [ch] } ch hp
      (by decide) (by decide) hch (by decide)
  exact ⟨bits, byte, extra, by rw [sendOutputCode, hu, hrun], h⟩

theorem packed_sendOutputCode (s : CState) (ch : Nat) (hp : Packed s) (hch : ch < 2 ^ NBITS) :
    ∃ bits byte extra,
      sendOutputCode s ch =
        some { s with outBits := bits, outByte := byte, sent := s.sent ++ extra,
                      codes := s.codes ++ [ch] } ∧
      Packed { s with outBits := bits, outByte := byte, sent := s.sent ++ extra,
                      codes := s.codes ++ [ch] } := by
  obtain ⟨hok, hstream, hcount, hbytes⟩ := hp
  obtain ⟨bits, byte, extra, hrun, h1, h2, h3, h4, h5⟩ := sendOutputCode_spec s ch hok hch
  refine ⟨bits, byte, extra, hrun, ⟨h1, h2⟩, ?_, ?_, ?_⟩
  · simp only [bitStream_append, bitStream_singleton, List.append_assoc, h4]
    rw [← List.append_assoc, hstream]
  · simp only [List.length_append, List.length_singleton]
    simp only [NBITS] at *
    omega
  · intro x hx
    rcases List.mem_append.1 hx with hx | hx
    · exact hbytes x hx
    · exact h3 x hx

theorem packed_fresh : Packed freshState := by
  refine ⟨⟨by decide, by decide⟩, rfl, rfl, ?_⟩
  intro x hx; simp [freshState] at hx

theorem packed_sendAll (cs : List Nat) :
    ∀ s : CState, Packed s → (∀ c ∈ cs, c < 2 ^ NBITS) →
      ∃ s1, sendAll s cs = some s1 ∧ Packed s1 ∧ s1.codes = s.codes ++ cs := by
  induction cs with
  | nil => intro s hp _; exact ⟨s, rfl, hp, by simp⟩
  | cons c rest ih =>
    intro s hp hcs
    obtain ⟨bits, byte, extra, hrun, hp1⟩ :=
      packed_sendOutputCode s c hp (hcs c (List.mem_cons_self _ _))
    obtain ⟨s2, hrun2, hp2, hc2⟩ := ih _ hp1 (fun x hx => hcs x (List.mem_cons_of_mem _ hx))
    refine ⟨s2, by simp [sendAll, hrun, hrun2], hp2, ?_⟩
    rw [hc2]; simp

/-- What `Packed` says in terms of the code stream alone. -/
theorem packed_layout (s : CState) (hp : Packed s) :
    bitStream 8 s.sent = (bitStream NBITS s.codes).take (8 * (NBITS * s.codes.length / 8)) ∧
    bitsBE s.outBits s.outByte =
      (bitStream NBITS s.codes).drop (8 * (NBITS * s.codes.length / 8)) ∧
    s.outBits = NBITS * s.codes.length % 8 ∧
    s.sent.length = NBITS * s.codes.length / 8 := by
  obtain ⟨⟨hb, -⟩, hstream, hcount, -⟩ := hp
  have hlen : s.sent.length = NBITS * s.codes.length / 8 := by omega
  have hl8 : (bitStream 8 s.sent).length = 8 * (NBITS * s.codes.length / 8) := by
    rw [bitStream_length, hlen]
  refine ⟨?_, ?_, by omega, hlen⟩
  · rw [← hstream, ← hl8, List.take_left']
    rfl
  · rw [← hstream, ← hl8, List.drop_left']
    rfl


/-! ## The search of `CompressByte` -/

theorem prime_9001 : Nat.Prime 9001 := by norm_num

/-- With a step that is not a multiple of the prime table size, the probe
sequence reaches every slot within `9001` steps. -/
theorem probe_reaches (i d m : Int) (hd : 1 ≤ d ∧ d ≤ 9000) :
    ∃ j : Nat, 1 ≤ j ∧ j ≤ 9001 ∧ (i - j * d) % 9001 = m % 9001 := by
  haveI : Fact (Nat.Prime 9001) := ⟨prime_9001⟩
  have hd0 : ((d : Int) : ZMod 9001) ≠ 0 := by
    rw [Ne, ZMod.intCast_zmod_eq_zero_iff_dvd]
    intro h
    have := Int.le_of_dvd (by omega) h
    omega
  obtain ⟨j, hj1, hj2, hj⟩ : ∃ j : Nat, 1 ≤ j ∧ j ≤ 9001 ∧
      ((j : Nat) : ZMod 9001) = ((i : ZMod 9001) - (m : ZMod 9001)) * ((d : Int) : ZMod 9001)⁻¹ := by
    set x : ZMod 9001 := ((i : ZMod 9001) - (m : ZMod 9001)) * ((d : Int) : ZMod 9001)⁻¹
    by_cases h0 : x.val = 0
    · refine ⟨9001, by norm_num, le_refl _, ?_⟩
      rw [(ZMod.val_eq_zero x).1 h0]
      exact ZMod.natCast_self 9001
    · exact ⟨x.val, Nat.one_le_iff_ne_zero.2 h0, le_of_lt (ZMod.val_lt x), ZMod.natCast_zmod_val x⟩
  refine ⟨j, hj1, hj2, ?_⟩
  have := (ZMod.intCast_eq_intCast_iff' (i - j * d) m 9001).1 (by
    push_cast
    rw [hj, mul_assoc, inv_mul_cancel₀ hd0]
    ring)
  exact_mod_cast this


theorem probe_index (i d : Int) (hi : 0 ≤ i ∧ i < 9001) (hd : 1 ≤ d ∧ d ≤ 9000) :
    (if toInt16 (i - d) < 0 then toInt16 (toInt16 (i - d) + ((9001 : Nat) : Int))
      else toInt16 (i - d)) = (i - d) % 9001 := by
  have h1 : toInt16 (i - d) = i - d := by simp only [toInt16]; omega
  rw [h1]
  split
  · simp only [toInt16]; push_cast; omega
  · omega

theorem slotOf_inRange (i : Int) (hi : 0 ≤ i ∧ i < 9001) :
    ∃ slot : Fin TABLE_LEN, slotOf i = some slot ∧ (slot.val : Int) = i := by
  have h : 0 ≤ i ∧ i < (TABLE_LEN : Int) := by simp only [TABLE_LEN]; push_cast; omega
  refine ⟨⟨i.toNat, by simp only [TABLE_LEN]; omega⟩, ?_, ?_⟩
  · simp only [slotOf, h, and_self, dite_true]
  · simp only; omega

/-- The probe stops as soon as one of the slots it visits within its fuel
holds the key or is not positive. -/
theorem probe_stops (tbl : Fin TABLE_LEN → Int) (hc d : Int) (hd : 1 ≤ d ∧ d ≤ 9000) :
    ∀ (fuel : Nat) (i : Int), (0 ≤ i ∧ i < 9001) →
      (∃ j : Nat, 1 ≤ j ∧ j ≤ fuel ∧ ∃ slot : Fin TABLE_LEN,
          (slot.val : Int) = (i - j * d) % 9001 ∧ (tbl slot = hc ∨ tbl slot ≤ 0)) →
      ∃ r, probe 9001 tbl hc fuel i d = some r ∧
        (∀ slot, r = Lookup.hit slot → tbl slot = hc) := by
  intro fuel
  induction fuel with
  | zero => rintro i _ ⟨j, h1, h2, -⟩; omega
  | succ fuel ih =>
    rintro i hi ⟨j, hj1, hj2, slotj, hslotj, hstop⟩
    have hnext : 0 ≤ (i - d) % 9001 ∧ (i - d) % 9001 < 9001 := by omega
    obtain ⟨slot, hslot, hval⟩ := slotOf_inRange _ hnext
    simp only [probe, probe_index i d hi hd, hslot, Option.some_bind]
    by_cases hhit : tbl slot = hc
    · refine ⟨Lookup.hit slot, by simp [hhit], ?_⟩
      intro slot' h; cases h; exact hhit
    · by_cases hemp : tbl slot ≤ 0
      · refine ⟨Lookup.miss slot, by simp [hhit, hemp], ?_⟩
        intro slot' h; cases h
      · simp only [hhit, hemp, if_false]
        apply ih _ hnext
        have hj : j ≠ 1 := by
          rintro rfl
          have : slotj = slot := by
            apply Fin.ext
            have : (slotj.val : Int) = (slot.val : Int) := by
              rw [hslotj, hval]; simp
            exact_mod_cast this
          rw [this] at hstop
          rcases hstop with h | h
          · exact hhit h
          · exact hemp h
        refine ⟨j - 1, by omega, by omega, slotj, ?_, hstop⟩
        rw [hslotj]
        have : ((j - 1 : Nat) : Int) = (j : Int) - 1 := by omega
        rw [this, Int.sub_emod ((i - d) % 9001), Int.emod_emod_of_dvd _ (dvd_refl _),
          ← Int.sub_emod]
        congr 1
        ring

/-- Fewer codes can be assigned than the table has slots, so a slot is free. -/
theorem dictOk_free_slot (s : CState) (dict : List (List Nat)) (h : DictOk s dict) :
    ∃ m, s.hashTable m = -1 := by
  by_contra hall
  push_neg at hall
  have hlen : dict.length ≤ 7934 := by have := h.free_eq; have := h.free_le; omega
  have hcode : ∀ i, 257 ≤ s.codeTable i ∧ s.codeTable i - 257 < 7934 := by
    intro i
    obtain ⟨e, b, k, -, -, hk, -, hc, -⟩ := h.slots i (hall i)
    omega
  have hmaps : ∀ i ∈ (Finset.univ : Finset (Fin TABLE_LEN)),
      s.codeTable i - 257 ∈ Finset.range 7934 := by
    intro i _
    exact Finset.mem_range.2 (hcode i).2
  have hinj : Set.InjOn (fun i => s.codeTable i - 257)
      ((Finset.univ : Finset (Fin TABLE_LEN)) : Set (Fin TABLE_LEN)) := by
    intro i _ j _ hij
    apply h.distinct i j (hall i) (hall j)
    have := (hcode i).1; have := (hcode j).1
    simp only at hij
    omega
  have hcard := Finset.card_le_card_of_injOn _ hmaps hinj
  rw [Finset.card_univ, Fintype.card_fin, Finset.card_range] at hcard
  exact absurd hcard (by decide)

theorem hashCodeOf_eq (ent b : Nat) (he : ent < 8192) (hb : b < 256) :
    hashCodeOf ent b = ((ent * 65536 + b : Nat) : Int) := by
  have h1 : (ent <<< 16) ||| b = ent * 65536 + b := by
    rw [Nat.shiftLeft_eq, Nat.mul_comm, ← Nat.mul_add_lt_is_or (by omega)]
  simp only [hashCodeOf, h1, toInt32]
  omega

theorem dictOk_ent_lt (s : CState) (dict : List (List Nat)) (h : DictOk s dict) :
    s.ent < 8191 := by
  have := h.free_eq; have := h.free_le
  rcases h.ent_valid with h1 | h1 <;> omega

/-- In a running compressor the search of `CompressByte` always ends, and
where it reports a hit the slot holds the phrase `(ent, b)`. -/
theorem lookup_total (s : CState) (dict : List (List Nat)) (b : Nat)
    (h : DictOk s dict) (hb : b < 256) :
    ∃ r, lookup s b = some r ∧
      (∀ slot, r = Lookup.hit slot → s.hashTable slot = hashCodeOf s.ent b) := by
  have hent := dictOk_ent_lt s dict h
  have hx : (b <<< 5) ^^^ s.ent < 2 ^ 13 :=
    Nat.xor_lt_two_pow (shiftLeft_lt_two_pow b 8 5 (by norm_num; omega)) (by norm_num; omega)
  have hx' : (b <<< 5) ^^^ s.ent < 8192 := by simpa using hx
  have hidx : toInt16 (((b <<< 5) ^^^ s.ent : Nat) : Int) = (((b <<< 5) ^^^ s.ent : Nat) : Int) := by
    simp only [toInt16]; omega
  have hrange : 0 ≤ (((b <<< 5) ^^^ s.ent : Nat) : Int) ∧ (((b <<< 5) ^^^ s.ent : Nat) : Int) < 9001 := by
    omega
  obtain ⟨slot, hslot, hval⟩ := slotOf_inRange _ hrange
  have hsh : ¬ s.shift < 0 := by rw [h.shift_eq]; norm_num
  have hsh' : s.shift.toNat = 5 := by rw [h.shift_eq]; rfl
  simp only [lookup, hsh, if_false, hsh', hidx, hslot, Option.some_bind, h.hashSize_eq]
  by_cases hhit : s.hashTable slot = hashCodeOf s.ent b
  · refine ⟨Lookup.hit slot, by simp [hhit], ?_⟩
    intro slot' hs; cases hs; exact hhit
  · by_cases hocc : s.hashTable slot ≥ 0
    · simp only [hhit, hocc, if_false, if_true]
      obtain ⟨m, hm⟩ := dictOk_free_slot s dict h
      generalize hd : (if toInt16 (if (((b <<< 5) ^^^ s.ent : Nat) : Int) = 0 then 1
          else ((9001 : Nat) : Int) - (((b <<< 5) ^^^ s.ent : Nat) : Int)) < 0
        then toInt16 (-toInt16 (if (((b <<< 5) ^^^ s.ent : Nat) : Int) = 0 then 1
          else ((9001 : Nat) : Int) - (((b <<< 5) ^^^ s.ent : Nat) : Int)))
        else toInt16 (if (((b <<< 5) ^^^ s.ent : Nat) : Int) = 0 then 1
          else ((9001 : Nat) : Int) - (((b <<< 5) ^^^ s.ent : Nat) : Int))) = d
      have hdr : 1 ≤ d ∧ d ≤ 9000 := by
        rw [← hd]
        simp only [toInt16]
        split <;> split <;> omega
      obtain ⟨j, hj1, hj2, hj⟩ := probe_reaches (((b <<< 5) ^^^ s.ent : Nat) : Int) d (m.val : Int) hdr
      apply probe_stops s.hashTable _ d hdr 9001 _ hrange
      refine ⟨j, hj1, hj2, m, ?_, Or.inr (by rw [hm]; norm_num)⟩
      rw [hj]
      have := m.isLt
      simp only [TABLE_LEN] at this
      omega
    · refine ⟨Lookup.miss slot, by simp [hhit, hocc], ?_⟩
      intro slot' hs; cases hs

/-! ## The dictionary of the compressor -/

theorem strOf_append (dict : List (List Nat)) (x : List Nat) (c n : Nat)
    (hc : ValidCode n c) (hn : n ≤ dict.length) :
    strOf (dict ++ [x]) c = strOf dict c := by
  simp only [strOf]
  split
  · rfl
  · rcases hc with h | ⟨h1, h2⟩
    · omega
    · simp only [List.getD_eq_getElem?_getD]
      rw [List.getElem?_append_left (by omega)]

theorem dictOk_fresh : DictOk freshState [] where
  hashSize_eq := rfl
  shift_eq := rfl
  free_eq := rfl
  free_le := by decide
  ent_valid := Or.inl (by decide)
  slots := by intro i hi; exact absurd rfl hi
  distinct := by intro i j hi; exact absurd rfl hi
  nonempty := by intro x hx; simp at hx

/-- The first byte of a stream only becomes the pending code. -/
theorem compressByte_first (s : CState) (b : Nat) (hf : s.firstByte ≠ 0) :
    CompressByte s b =
      some { s with crc := u32 (s.crc + u8 b), firstByte := 0, ent := u8 b } := by
  simp [CompressByte, hf]

/-- A later byte whose phrase is found extends the pending code. -/
theorem compressByte_hit (s : CState) (b : Nat) (slot : Fin TABLE_LEN) (hf : s.firstByte = 0)
    (hl : lookup s (u8 b) = some (Lookup.hit slot)) :
    CompressByte s b =
      some { s with crc := u32 (s.crc + u8 b), ent := s.codeTable slot } := by
  have hl' : lookup { s with crc := u32 (s.crc + u8 b) } (u8 b) = some (Lookup.hit slot) := hl
  simp only [CompressByte]
  rw [if_neg (by rw [hf]; simp), hl']
  rfl

/-- A miss with codes left, for any state whose packer is between calls. -/
theorem compressByte_insert_eq (s : CState) (b : Nat) (slot : Fin TABLE_LEN)
    (hf : s.firstByte = 0) (hl : lookup s (u8 b) = some (Lookup.miss slot)) (hp : PackerOk s)
    (hent : s.ent < 2 ^ NBITS) (hfree : s.freeEntry < MAX_CODE) :
    ∃ bits byte extra,
      CompressByte s b =
        some { s with
          crc := u32 (s.crc + u8 b), ent := u8 b,
          outBits := bits, outByte := byte, sent := s.sent ++ extra,
          codes := s.codes ++ [s.ent],
          codeTable := Function.update s.codeTable slot s.freeEntry,
          freeEntry := u16 (s.freeEntry + 1),
          hashTable := Function.update s.hashTable slot (hashCodeOf s.ent (u8 b)) } := by
  have hl' : lookup { s with crc := u32 (s.crc + u8 b) } (u8 b) = some (Lookup.miss slot) := hl
  obtain ⟨bits, byte, extra, hrun, -⟩ :=
    sendOutputCode_spec { s with crc := u32 (s.crc + u8 b) } s.ent hp hent
  refine ⟨bits, byte, extra, ?_⟩
  simp only [CompressByte]
  rw [if_neg (by rw [hf]; simp), hl']
  simp only [Option.some_bind, hrun, hfree, if_true]

/-- A miss with the code space used up, for any state whose packer is between
calls. -/
theorem compressByte_clear_eq (s : CState) (b : Nat) (slot : Fin TABLE_LEN)
    (hf : s.firstByte = 0) (hl : lookup s (u8 b) = some (Lookup.miss slot)) (hp : PackerOk s)
    (hent : s.ent < 2 ^ NBITS) (hfree : ¬ s.freeEntry < MAX_CODE) :
    ∃ bits byte extra,
      CompressByte s b =
        some (clearHash { s with
          crc := u32 (s.crc + u8 b), ent := u8 b,
          outBits := bits, outByte := byte, sent := s.sent ++ extra,
          codes := s.codes ++ [s.ent, CLEAR_CODE] }) := by
  have hl' : lookup { s with crc := u32 (s.crc + u8 b) } (u8 b) = some (Lookup.miss slot) := hl
  obtain ⟨bits1, byte1, extra1, hrun1, hb1, hy1, -⟩ :=
    sendOutputCode_spec { s with crc := u32 (s.crc + u8 b) } s.ent hp hent
  obtain ⟨bits, byte, extra2, hrun2, -⟩ :=
    sendOutputCode_spec
      { s with
        crc := u32 (s.crc + u8 b), ent := u8 b, outBits := bits1, outByte := byte1,
        sent := s.sent ++ extra1, codes := s.codes ++ [s.ent] }
      CLEAR_CODE ⟨hb1, hy1⟩ (by decide)
  refine ⟨bits, byte, extra1 ++ extra2, ?_⟩
  simp only [CompressByte]
  rw [if_neg (by rw [hf]; simp), hl']
  simp only [Option.some_bind, hrun1, hfree, if_false, hrun2, Option.map_some',
    List.append_assoc, List.singleton_append]

/-- A miss with codes left: the pending code is sent and the phrase gets the
next code, in the slot where the search ended. -/
theorem compressByte_insert (s : CState) (b : Nat) (slot : Fin TABLE_LEN) (hf : s.firstByte = 0)
    (hl : lookup s (u8 b) = some (Lookup.miss slot)) (hp : Packed s) (hent : s.ent < 2 ^ NBITS)
    (hfree : s.freeEntry < MAX_CODE) :
    ∃ bits byte extra,
      CompressByte s b =
        some { s with
          crc := u32 (s.crc + u8 b), ent := u8 b,
          outBits := bits, outByte := byte, sent := s.sent ++ extra,
          codes := s.codes ++ [s.ent],
          codeTable := Function.update s.codeTable slot s.freeEntry,
          freeEntry := u16 (s.freeEntry + 1),
          hashTable := Function.update s.hashTable slot (hashCodeOf s.ent (u8 b)) } ∧
      Packed { s with outBits := bits, outByte := byte, sent := s.sent ++ extra,
                      codes := s.codes ++ [s.ent] } := by
  have hl' : lookup { s with crc := u32 (s.crc + u8 b) } (u8 b) = some (Lookup.miss slot) := hl
  obtain ⟨bits, byte, extra, hrun, hp1⟩ :=
    packed_sendOutputCode { s with crc := u32 (s.crc + u8 b) } s.ent hp hent
  refine ⟨bits, byte, extra, ?_, hp1⟩
  simp only [CompressByte]
  rw [if_neg (by rw [hf]; simp), hl']
  simp only [Option.some_bind, hrun, hfree, if_true]

/-- A miss with the code space used up: the pending code and the clear code
are sent and the tables are reset. -/
theorem compressByte_clear (s : CState) (b : Nat) (slot : Fin TABLE_LEN) (hf : s.firstByte = 0)
    (hl : lookup s (u8 b) = some (Lookup.miss slot)) (hp : Packed s) (hent : s.ent < 2 ^ NBITS)
    (hfree : ¬ s.freeEntry < MAX_CODE) :
    ∃ bits byte extra,
      CompressByte s b =
        some (clearHash { s with
          crc := u32 (s.crc + u8 b), ent := u8 b,
          outBits := bits, outByte := byte, sent := s.sent ++ extra,
          codes := s.codes ++ [s.ent, CLEAR_CODE] }) ∧
      Packed { s with outBits := bits, outByte := byte, sent := s.sent ++ extra,
                      codes := s.codes ++ [s.ent, CLEAR_CODE] } := by
  have hl' : lookup { s with crc := u32 (s.crc + u8 b) } (u8 b) = some (Lookup.miss slot) := hl
  obtain ⟨bits1, byte1, extra1, hrun1, hp1⟩ :=
    packed_sendOutputCode { s with crc := u32 (s.crc + u8 b) } s.ent hp hent
  obtain ⟨bits, byte, extra2, hrun2, hp2⟩ :=
    packed_sendOutputCode
      { s with
        crc := u32 (s.crc + u8 b), ent := u8 b, outBits := bits1, outByte := byte1,
        sent := s.sent ++ extra1, codes := s.codes ++ [s.ent] }
      CLEAR_CODE hp1 (by decide)
  refine ⟨bits, byte, extra1 ++ extra2, ?_, ?_⟩
  · simp only [CompressByte]
    rw [if_neg (by rw [hf]; simp), hl']
    simp only [Option.some_bind, hrun1, hfree, if_false, hrun2, Option.map_some',
      List.append_assoc, List.singleton_append]
  · simpa only [List.append_assoc, List.singleton_append] using hp2


theorem dictOk_hit (s : CState) (dict : List (List Nat)) (b : Nat) (slot : Fin TABLE_LEN)
    (h : DictOk s dict) (hb : b < 256) (hkey : s.hashTable slot = hashCodeOf s.ent b) (crc : Nat) :
    DictOk { s with crc := crc, ent := s.codeTable slot } dict ∧
    strOf dict (s.codeTable slot) = strOf dict s.ent ++ [b] := by
  have hent := dictOk_ent_lt s dict h
  rw [hashCodeOf_eq s.ent b (by omega) hb] at hkey
  have hocc : s.hashTable slot ≠ -1 := by rw [hkey]; omega
  obtain ⟨e, b', k, hv, hb', hk, hkey', hcode, hstr⟩ := h.slots slot hocc
  have he : e < 8192 := by
    have := h.free_eq; have := h.free_le
    rcases hv with h1 | h1 <;> omega
  have heq : e = s.ent ∧ b' = b := by
    rw [hkey] at hkey'
    have : s.ent * 65536 + b = e * 65536 + b' := by exact_mod_cast hkey'
    omega
  obtain ⟨rfl, rfl⟩ := heq
  constructor
  · exact { hashSize_eq := h.hashSize_eq, shift_eq := h.shift_eq, free_eq := h.free_eq,
            free_le := h.free_le,
            ent_valid := Or.inr ⟨by show 257 ≤ s.codeTable slot; omega,
                                 by show s.codeTable slot < 257 + dict.length; omega⟩,
            slots := h.slots, distinct := h.distinct, nonempty := h.nonempty }
  · rw [hcode]
    simp only [strOf, show ¬ (257 + k < 256) by omega, if_false, Nat.add_sub_cancel_left,
      List.getD_eq_getElem?_getD, hstr, Option.getD_some]

theorem dictOk_insert (s : CState) (dict : List (List Nat)) (b : Nat) (slot : Fin TABLE_LEN)
    (h : DictOk s dict) (hb : b < 256) (hfree : s.freeEntry < MAX_CODE)
    (crc bits byte : Nat) (sent codes : List Nat) :
    DictOk { s with
        crc := crc, ent := b, outBits := bits, outByte := byte, sent := sent, codes := codes,
        codeTable := Function.update s.codeTable slot s.freeEntry,
        freeEntry := u16 (s.freeEntry + 1),
        hashTable := Function.update s.hashTable slot (hashCodeOf s.ent b) }
      (dict ++ [strOf dict s.ent ++ [b]]) := by
  have hent := dictOk_ent_lt s dict h
  have hfe := h.free_eq
  have hfree' : s.freeEntry < 8191 := hfree
  have hkey := hashCodeOf_eq s.ent b (by omega) hb
  refine { hashSize_eq := h.hashSize_eq, shift_eq := h.shift_eq, free_eq := ?_, free_le := ?_,
           ent_valid := Or.inl hb, slots := ?_, distinct := ?_, nonempty := ?_ }
  · show u16 (s.freeEntry + 1) = 257 + (dict ++ [strOf dict s.ent ++ [b]]).length
    simp only [u16, List.length_append, List.length_singleton]; omega
  · show u16 (s.freeEntry + 1) ≤ 8191
    simp only [u16]; omega
  · intro i hi
    by_cases hslot : i = slot
    · subst hslot
      refine ⟨s.ent, b, dict.length, h.ent_valid, hb, by simp, ?_, ?_, ?_⟩
      · show Function.update s.hashTable i (hashCodeOf s.ent b) i = _
        rw [Function.update_same, hkey]
      · show Function.update s.codeTable i s.freeEntry i = _
        rw [Function.update_same, hfe]
      · rw [strOf_append dict _ s.ent dict.length h.ent_valid (le_refl _)]
        simp
    · have hi' : s.hashTable i ≠ -1 := by
        have : Function.update s.hashTable slot (hashCodeOf s.ent b) i = s.hashTable i :=
          Function.update_noteq hslot _ _
        rw [← this]; exact hi
      obtain ⟨e, b', k, hv, hb', hk, hkey', hcode, hstr⟩ := h.slots i hi'
      refine ⟨e, b', k, hv, hb', by simp; omega, ?_, ?_, ?_⟩
      · show Function.update s.hashTable slot (hashCodeOf s.ent b) i = _
        rw [Function.update_noteq hslot, hkey']
      · show Function.update s.codeTable slot s.freeEntry i = _
        rw [Function.update_noteq hslot, hcode]
      · rw [strOf_append dict _ e k hv (le_of_lt hk), List.getElem?_append_left hk, hstr]
  · intro i j hi hj hij
    have code_lt : ∀ x, x ≠ slot → Function.update s.hashTable slot (hashCodeOf s.ent b) x ≠ -1 →
        s.hashTable x ≠ -1 ∧ Function.update s.codeTable slot s.freeEntry x = s.codeTable x ∧
        s.codeTable x < s.freeEntry := by
      intro x hx hocc
      rw [Function.update_noteq hx] at hocc
      obtain ⟨e, b', k, -, -, hk, -, hcode, -⟩ := h.slots x hocc
      exact ⟨hocc, Function.update_noteq hx _ _, by omega⟩
    have hij' : Function.update s.codeTable slot s.freeEntry i =
        Function.update s.codeTable slot s.freeEntry j := hij
    by_cases h1 : i = slot <;> by_cases h2 : j = slot
    · rw [h1, h2]
    · obtain ⟨-, e2, l2⟩ := code_lt j h2 hj
      rw [h1, Function.update_same, e2] at hij'
      omega
    · obtain ⟨-, e1, l1⟩ := code_lt i h1 hi
      rw [h2, Function.update_same, e1] at hij'
      omega
    · obtain ⟨o1, e1, -⟩ := code_lt i h1 hi
      obtain ⟨o2, e2, -⟩ := code_lt j h2 hj
      rw [e1, e2] at hij'
      exact h.distinct i j o1 o2 hij'
  · intro x hx
    rcases List.mem_append.1 hx with hx | hx
    · exact h.nonempty x hx
    · simp only [List.mem_singleton] at hx
      rw [hx]; simp

theorem dictOk_clear (s : CState) (dict : List (List Nat)) (b : Nat)
    (h : DictOk s dict) (hb : b < 256) (crc bits byte : Nat) (sent codes : List Nat) :
    DictOk (clearHash { s with
        crc := crc, ent := b, outBits := bits, outByte := byte, sent := sent, codes := codes })
      [] := by
  have hs := h.hashSize_eq
  have hall : ∀ i : Fin TABLE_LEN,
      (clearHash { s with crc := crc, ent := b, outBits := bits, outByte := byte,
                          sent := sent, codes := codes }).hashTable i = -1 := by
    intro i
    have := i.isLt
    simp only [TABLE_LEN] at this
    simp [clearHash, hs, this]
  exact { hashSize_eq := h.hashSize_eq, shift_eq := h.shift_eq, free_eq := rfl,
          free_le := show FIRST_CODE ≤ 8191 by decide, ent_valid := Or.inl hb,
          slots := fun i hi => absurd (hall i) hi,
          distinct := fun i j hi => absurd (hall i) hi,
          nonempty := by intro x hx; simp at hx }


theorem u8_lt (b : Nat) : u8 b < 256 := Nat.mod_lt _ (by norm_num)

/-- One `CompressByte` call after the first byte, seen from outside the hash
table: the call returns, and either the phrase was known and the pending code
now stands for the longer string, or the pending code was sent and the phrase
got the next code, or the pending code and the clear code were sent and the
dictionary is empty again. -/
theorem compressByte_step (s : CState) (dict : List (List Nat)) (b : Nat)
    (hd : DictOk s dict) (hp : Packed s) (hf : s.firstByte = 0) :
    ∃ s1, CompressByte s b = some s1 ∧ s1.firstByte = 0 ∧ Packed s1 ∧
      ((s1.codes = s.codes ∧ DictOk s1 dict ∧
          strOf dict s1.ent = strOf dict s.ent ++ [u8 b]) ∨
       (s1.codes = s.codes ++ [s.ent] ∧ s1.ent = u8 b ∧ s.freeEntry < MAX_CODE ∧
          DictOk s1 (dict ++ [strOf dict s.ent ++ [u8 b]])) ∨
       (s1.codes = s.codes ++ [s.ent, CLEAR_CODE] ∧ s1.ent = u8 b ∧ s.freeEntry = MAX_CODE ∧
          DictOk s1 [])) := by
  have hb := u8_lt b
  have hent : s.ent < 2 ^ NBITS := by
    have := dictOk_ent_lt s dict hd
    simp only [NBITS]; omega
  obtain ⟨r, hl, hhit⟩ := lookup_total s dict (u8 b) hd hb
  cases r with
  | hit slot =>
    obtain ⟨h1, h2⟩ := dictOk_hit s dict (u8 b) slot hd hb (hhit slot rfl) (u32 (s.crc + u8 b))
    exact ⟨_, compressByte_hit s b slot hf hl, hf, hp, Or.inl ⟨rfl, h1, h2⟩⟩
  | miss slot =>
    by_cases hfree : s.freeEntry < MAX_CODE
    · obtain ⟨bits, byte, extra, hrun, hp1⟩ := compressByte_insert s b slot hf hl hp hent hfree
      exact ⟨_, hrun, hf, hp1, Or.inr (Or.inl ⟨rfl, rfl, hfree,
        dictOk_insert s dict (u8 b) slot hd hb hfree _ _ _ _ _⟩)⟩
    · obtain ⟨bits, byte, extra, hrun, hp1⟩ := compressByte_clear s b slot hf hl hp hent hfree
      have hmax : s.freeEntry = MAX_CODE := by
        have := hd.free_le
        have h8 : MAX_CODE = 8191 := by decide
        omega
      exact ⟨_, hrun, hf, hp1, Or.inr (Or.inr ⟨rfl, rfl, hmax,
        dictOk_clear s dict (u8 b) hd hb _ _ _ _ _⟩)⟩

theorem running_fresh : Running freshState :=
  ⟨⟨[], dictOk_fresh⟩, packed_fresh, by intro c hc; simp [freshState] at hc⟩

/-- Every `CompressByte` call of a running compressor returns, in a running
compressor that has seen its first byte. -/
theorem running_compressByte (s : CState) (b : Nat) (h : Running s) :
    ∃ s1, CompressByte s b = some s1 ∧ Running s1 ∧ s1.firstByte = 0 := by
  obtain ⟨⟨dict, hd⟩, hp, hcodes⟩ := h
  by_cases hf : s.firstByte = 0
  · have hent := dictOk_ent_lt s dict hd
    obtain ⟨s1, hrun, hf1, hp1, hcase⟩ := compressByte_step s dict b hd hp hf
    refine ⟨s1, hrun, ⟨?_, hp1, ?_⟩, hf1⟩
    · rcases hcase with ⟨-, h1, -⟩ | ⟨-, -, -, h1⟩ | ⟨-, -, -, h1⟩
      · exact ⟨_, h1⟩
      · exact ⟨_, h1⟩
      · exact ⟨_, h1⟩
    · intro c hc
      rcases hcase with ⟨h1, -⟩ | ⟨h1, -⟩ | ⟨h1, -⟩
      · rw [h1] at hc; exact hcodes c hc
      · rw [h1] at hc
        rcases List.mem_append.1 hc with hc | hc
        · exact hcodes c hc
        · simp only [List.mem_singleton] at hc; omega
      · rw [h1] at hc
        rcases List.mem_append.1 hc with hc | hc
        · exact hcodes c hc
        · simp only [List.mem_cons, List.mem_singleton, CLEAR_CODE, List.not_mem_nil,
            or_false] at hc
          omega
  · refine ⟨_, compressByte_first s b hf, ⟨⟨dict, ?_⟩, hp, hcodes⟩, rfl⟩
    exact { hashSize_eq := hd.hashSize_eq, shift_eq := hd.shift_eq, free_eq := hd.free_eq,
            free_le := hd.free_le, ent_valid := Or.inl (u8_lt b), slots := hd.slots,
            distinct := hd.distinct, nonempty := hd.nonempty }

theorem running_compressBytes (input : List Nat) :
    ∀ s : CState, Running s → ∃ s1, compressBytes s input = some s1 ∧ Running s1 := by
  induction input with
  | nil => intro s h; exact ⟨s, rfl, h⟩
  | cons b rest ih =>
    intro s h
    obtain ⟨s1, h1, hr1, -⟩ := running_compressByte s b h
    obtain ⟨s2, h2, hr2⟩ := ih s1 hr1
    exact ⟨s2, by simp [compressBytes, h1, h2], hr2⟩

/-- The function `CompressFlush` of a running compressor sends the pending code and the
end-of-stream code. -/
theorem running_flush (s : CState) (h : Running s) :
    ∃ bits byte extra,
      CompressFlush s =
        some { s with
          outBits := bits, outByte := byte, sent := s.sent ++ extra,
          codes := s.codes ++ [s.ent, 8191] } ∧
      Packed { s with
        outBits := bits, outByte := byte, sent := s.sent ++ extra,
        codes := s.codes ++ [s.ent, 8191] } := by
  obtain ⟨⟨dict, hd⟩, hp, -⟩ := h
  have hent : s.ent < 2 ^ NBITS := by
    have := dictOk_ent_lt s dict hd
    simp only [NBITS]; omega
  obtain ⟨bits1, byte1, extra1, hrun1, hp1⟩ := packed_sendOutputCode s s.ent hp hent
  have heos : u16 (0xffff &&& mask.getD NBITS 0) = 8191 := by decide
  obtain ⟨bits, byte, extra2, hrun2, hp2⟩ :=
    packed_sendOutputCode
      { s with
        outBits := bits1, outByte := byte1, sent := s.sent ++ extra1,
        codes := s.codes ++ [s.ent] }
      8191 hp1 (by decide)
  refine ⟨bits, byte, extra1 ++ extra2, ?_, ?_⟩
  · simp only [CompressFlush, hrun1, Option.some_bind, heos, hrun2, List.append_assoc,
      List.singleton_append]
  · simpa only [List.append_assoc, List.singleton_append] using hp2

/-! ## The compressor and the reference decoder -/


theorem lzwRun_append (l1 l2 : List Nat) :
    ∀ d : DState, lzwRun d (l1 ++ l2) = (lzwRun d l1).bind fun d1 => lzwRun d1 l2 := by
  induction l1 with
  | nil => intro d; rfl
  | cons c rest ih =>
    intro d
    simp only [List.cons_append, lzwRun]
    cases lzwStep d c with
    | none => rfl
    | some d1 => simp [ih]

theorem strOf_ne_nil (dict : List (List Nat)) (c : Nat) (hv : ValidCode dict.length c)
    (hne : ∀ x ∈ dict, x ≠ []) : strOf dict c ≠ [] := by
  simp only [strOf]
  split
  · simp
  · rcases hv with h | ⟨h1, h2⟩
    · omega
    · have hk : c - 257 < dict.length := by omega
      rw [List.getD_eq_getElem?_getD, List.getElem?_eq_getElem hk, Option.getD_some]
      exact hne _ (List.getElem_mem hk)

theorem take_one_append (p q : List Nat) (hp : p ≠ []) : (p ++ q).take 1 = p.take 1 := by
  cases p with
  | nil => exact absurd rfl hp
  | cons a r => rfl

/-- The reference decoder decodes the pending code of the compressor to the
string it stands for, and catches up with the compressor's dictionary. -/
theorem lzwStep_pending (dict : List (List Nat)) (ent : Nat) (d : DState)
    (hv : ValidCode dict.length ent) (hs : Synced dict ent d) :
    lzwStep d ent =
      some { table := dict, prev := some (strOf dict ent), out := d.out ++ strOf dict ent } := by
  have h256 : ent ≠ 256 := by rcases hv with h | ⟨h1, h2⟩ <;> omega
  obtain ⟨hnone, hsome⟩ := hs
  have hXdef : strOf dict ent = if ent < 256 then [ent] else dict.getD (ent - 257) [] := rfl
  generalize strOf dict ent = X at hXdef hsome ⊢
  unfold lzwStep
  rw [if_neg h256]
  cases hprev : d.prev with
  | none =>
    obtain ⟨hd, ht⟩ := hnone hprev
    have hlit : ent < 256 := by
      rcases hv with h | ⟨h1, h2⟩
      · exact h
      · rw [hd] at h2; simp at h2; omega
    rw [if_pos hlit] at hXdef
    simp only [if_pos hlit, Option.some_bind, hXdef, ht, hd]
  | some p =>
    obtain ⟨hp, hdict⟩ := hsome p hprev
    have hlen : dict.length = d.table.length + 1 := by
      rw [hdict]; simp
    by_cases hlit : ent < 256
    · rw [if_pos hlit] at hXdef
      simp only [if_pos hlit, Option.some_bind, hXdef]
      rw [hXdef] at hdict
      rw [← hdict]
    · rw [if_neg hlit] at hXdef
      have h257 : 257 ≤ ent ∧ ent < 257 + dict.length := by
        rcases hv with h | h
        · omega
        · exact h
      by_cases hold : ent < 257 + d.table.length
      · have hk : ent - 257 < d.table.length := by omega
        have hget : d.table[ent - 257]? = some X := by
          rw [hXdef, List.getD_eq_getElem?_getD]
          conv_rhs => rw [hdict, List.getElem?_append_left hk]
          rw [List.getElem?_eq_getElem hk, Option.getD_some]
        simp only [if_neg hlit, if_pos hold, hget, Option.some_bind]
        rw [← hdict]
      · have hnew : ent = 257 + d.table.length := by omega
        have hget : dict[d.table.length]? = some (p ++ X.take 1) := by
          conv_lhs => rw [hdict]
          rw [List.getElem?_append_right (le_refl _)]
          simp
        have hX : X = p ++ X.take 1 := by
          conv_lhs => rw [hXdef, List.getD_eq_getElem?_getD, hnew, Nat.add_sub_cancel_left, hget]
          rfl
        have htake : X.take 1 = p.take 1 := by
          conv_lhs => rw [hX]
          exact take_one_append p _ hp
        rw [htake] at hX hdict
        simp only [if_neg hlit, if_neg hold, if_pos hnew, Option.map_some', Option.some_bind]
        rw [take_one_append p _ hp, ← hdict, ← hX]


/-- One more byte keeps the compressor and the reference decoder in step. -/
theorem sim_compressByte (s : CState) (dict : List (List Nat)) (d : DState)
    (input : List Nat) (b : Nat) (h : Sim s dict d input) :
    ∃ s1 dict1 d1, CompressByte s b = some s1 ∧ Sim s1 dict1 d1 (input ++ [u8 b]) := by
  have hb := u8_lt b
  have hent := dictOk_ent_lt s dict h.dictOk
  have hne := strOf_ne_nil dict s.ent h.dictOk.ent_valid h.dictOk.nonempty
  obtain ⟨s1, hrun, hf1, hp1, hcase⟩ := compressByte_step s dict b h.dictOk h.packed h.first
  have hstep := lzwStep_pending dict s.ent d h.dictOk.ent_valid h.synced
  rcases hcase with ⟨hc, hd1, hstr⟩ | ⟨hc, hent1, -, hd1⟩ | ⟨hc, hent1, -, hd1⟩
  · -- the phrase was known
    refine ⟨s1, dict, d, hrun, ?_⟩
    refine { dictOk := hd1, packed := hp1, first := hf1, run := by rw [hc]; exact h.run,
             out_eq := ?_, synced := ?_, codes_lt := by rw [hc]; exact h.codes_lt }
    · rw [hstr, ← List.append_assoc, h.out_eq]
    · refine ⟨h.synced.1, fun p hp => ?_⟩
      obtain ⟨h1, h2⟩ := h.synced.2 p hp
      refine ⟨h1, ?_⟩
      rw [hstr, take_one_append _ _ hne]
      exact h2
  · -- the pending code was sent and the phrase got a code
    refine ⟨s1, dict ++ [strOf dict s.ent ++ [u8 b]],
      { table := dict, prev := some (strOf dict s.ent), out := d.out ++ strOf dict s.ent },
      hrun, ?_⟩
    have hlit : strOf (dict ++ [strOf dict s.ent ++ [u8 b]]) s1.ent = [u8 b] := by
      rw [hent1]; simp [strOf, hb]
    refine { dictOk := hd1, packed := hp1, first := hf1, run := ?_, out_eq := ?_,
             synced := ?_, codes_lt := ?_ }
    · rw [hc, lzwRun_append, h.run]
      simp [lzwRun, hstep]
    · rw [hlit]
      show (d.out ++ strOf dict s.ent) ++ [u8 b] = input ++ [u8 b]
      rw [h.out_eq]
    · refine And.intro (fun hp => ?_) (fun p hp => ?_)
      · cases hp
      · have : strOf dict s.ent = p := by
          have : some (strOf dict s.ent) = some p := hp
          exact Option.some.inj this
        subst this
        refine ⟨hne, ?_⟩
        rw [hlit]
        rfl
    · intro c hcm
      rw [hc] at hcm
      rcases List.mem_append.1 hcm with hcm | hcm
      · exact h.codes_lt c hcm
      · simp only [List.mem_singleton] at hcm; omega
  · -- the code space was used up
    refine ⟨s1, [], { table := [], prev := none, out := d.out ++ strOf dict s.ent }, hrun, ?_⟩
    have hlit : strOf [] s1.ent = [u8 b] := by
      rw [hent1]; simp [strOf, hb]
    refine { dictOk := hd1, packed := hp1, first := hf1, run := ?_, out_eq := ?_,
             synced := ?_, codes_lt := ?_ }
    · rw [hc, lzwRun_append, h.run]
      simp only [Option.some_bind, lzwRun, hstep]
      simp [lzwStep, CLEAR_CODE]
    · rw [hlit]
      show (d.out ++ strOf dict s.ent) ++ [u8 b] = input ++ [u8 b]
      rw [h.out_eq]
    · refine And.intro (fun _ => ⟨rfl, rfl⟩) (fun p hp => ?_)
      cases hp
    · intro c hcm
      rw [hc] at hcm
      rcases List.mem_append.1 hcm with hcm | hcm
      · exact h.codes_lt c hcm
      · simp only [List.mem_cons, List.mem_singleton, CLEAR_CODE, List.not_mem_nil,
          or_false] at hcm
        omega

theorem sim_compressBytes (rest : List Nat) :
    ∀ (s : CState) (dict : List (List Nat)) (d : DState) (input : List Nat),
      Sim s dict d input →
      ∃ s1 dict1 d1, compressBytes s rest = some s1 ∧ Sim s1 dict1 d1 (input ++ rest.map u8) := by
  induction rest with
  | nil =>
    intro s dict d input h
    exact ⟨s, dict, d, rfl, by simpa using h⟩
  | cons b rest ih =>
    intro s dict d input h
    obtain ⟨s1, dict1, d1, h1, hs1⟩ := sim_compressByte s dict d input b h
    obtain ⟨s2, dict2, d2, h2, hs2⟩ := ih s1 dict1 d1 _ hs1
    refine ⟨s2, dict2, d2, by simp [compressBytes, h1, h2], ?_⟩
    simpa using hs2

/-- After the first byte of a stream nothing has been sent and the byte is
the pending code. -/
theorem sim_first (b : Nat) :
    Sim { freshState with crc := u32 (freshState.crc + u8 b), firstByte := 0, ent := u8 b }
      [] lzwInit [u8 b] := by
  have hb := u8_lt b
  exact { dictOk := { hashSize_eq := rfl, shift_eq := rfl, free_eq := rfl,
                      free_le := show (257 : Nat) ≤ 8191 by decide,
                      ent_valid := Or.inl hb,
                      slots := fun i hi => absurd rfl hi,
                      distinct := fun i j hi => absurd rfl hi,
                      nonempty := by intro x hx; simp at hx },
          packed := packed_fresh, first := rfl, run := rfl,
          out_eq := by simp [lzwInit, strOf, hb],
          synced := And.intro (fun _ => ⟨rfl, rfl⟩) (fun p hp => by cases hp),
          codes_lt := by intro c hc; simp [freshState] at hc }


/-! ## The claims about the compressor -/

theorem map_u8_of_bytes (input : List Nat) (hb : ∀ x ∈ input, x < 256) :
    input.map u8 = input := by
  induction input with
  | nil => rfl
  | cons a r ih =>
    simp only [List.map_cons, List.cons.injEq]
    exact ⟨Nat.mod_eq_of_lt (hb a (List.mem_cons_self _ _)),
      ih (fun x hx => hb x (List.mem_cons_of_mem _ hx))⟩

theorem compressStream_eq (s0 : CState) (input : List Nat) :
    compressStream s0 input = (compressBytes freshState input).bind CompressFlush := by
  simp only [compressStream, compressInit_eq, Option.some_bind]

/-- Claim C5: for every non-empty input, `CompressInit`, `CompressByte` on each
byte and `CompressFlush` all return; the codes handed to the bit packer are
some codes `pre` without the code 8191, followed by the end-of-stream code
8191; and the reference LZW decoder (literals 0..255, clear code 256, codes
assigned in order from 257) turns `pre` back into the input bytes. -/
theorem compress_roundtrip (s0 : CState) (input : List Nat) (hne : input ≠ []) :
    ∃ s pre, compressStream s0 input = some s ∧ s.codes = pre ++ [8191] ∧ 8191 ∉ pre ∧
      lzwDecode pre = some (input.map u8) ∧
      ((∀ x ∈ input, x < 256) → lzwDecode pre = some input) := by
  obtain ⟨b, rest, rfl⟩ : ∃ b rest, input = b :: rest := by
    cases input with
    | nil => exact absurd rfl hne
    | cons b rest => exact ⟨b, rest, rfl⟩
  obtain ⟨s1, dict1, d1, h1, hs1⟩ := sim_compressBytes rest _ [] lzwInit [u8 b] (sim_first b)
  obtain ⟨bits, byte, extra, hflush, -⟩ :=
    running_flush s1 ⟨⟨dict1, hs1.dictOk⟩, hs1.packed, hs1.codes_lt⟩
  have hent := dictOk_ent_lt s1 dict1 hs1.dictOk
  have hdec : lzwDecode (s1.codes ++ [s1.ent]) = some ((b :: rest).map u8) := by
    have hstep := lzwStep_pending dict1 s1.ent d1 hs1.dictOk.ent_valid hs1.synced
    simp only [lzwDecode, lzwRun_append, hs1.run, Option.some_bind, lzwRun, hstep,
      Option.map_some']
    rw [hs1.out_eq]
    rfl
  refine ⟨{ s1 with
      outBits := bits, outByte := byte, sent := s1.sent ++ extra,
      codes := s1.codes ++ [s1.ent, 8191] }, s1.codes ++ [s1.ent], ?_, ?_, ?_, hdec, ?_⟩
  · simp only [compressStream, compressInit_eq, Option.some_bind, compressBytes,
      compressByte_first freshState b (by decide), h1]
    exact hflush
  · simp
  · intro hmem
    rcases List.mem_append.1 hmem with hm | hm
    · exact absurd (hs1.codes_lt _ hm) (by omega)
    · simp only [List.mem_singleton] at hm; omega
  · intro hbytes
    rw [hdec, map_u8_of_bytes _ hbytes]

theorem compress_roundtrip_witness :
    List.replicate 1000 0x41 ≠ [] ∧
    ∃ s pre, compressStream bootState (List.replicate 1000 0x41) = some s ∧
      s.codes = pre ++ [8191] ∧ 8191 ∉ pre ∧
      lzwDecode pre = some ((List.replicate 1000 0x41).map u8) ∧
      ((∀ x ∈ List.replicate 1000 0x41, x < 256) →
        lzwDecode pre = some (List.replicate 1000 0x41)) :=
  ⟨by decide, compress_roundtrip bootState (List.replicate 1000 0x41) (by decide)⟩

/-- Claim C7: for codes `c1..ck` below `2^13` sent one after the other from
the state that `CompressInit` sets, every call returns; the bytes handed to the
callback, read most significant bit first, are the first `8 * floor(13k/8)`
bits of the concatenated 13-bit big-endian codes; the other `13k mod 8` bits
are the low bits of `outByte`; `outBits == 13k mod 8 < 8`; and `floor(13k/8)`
bytes have been handed over, each one when 8 bits had accumulated. -/
theorem output_bit_packing (s0 : CState) (cs : List Nat) (hcs : ∀ c ∈ cs, c < 2 ^ 13) :
    ∃ si s, CompressInit s0 = some si ∧ sendAll si cs = some s ∧
      bitStream 8 s.sent = (bitStream 13 cs).take (8 * (13 * cs.length / 8)) ∧
      bitsBE s.outBits s.outByte = (bitStream 13 cs).drop (8 * (13 * cs.length / 8)) ∧
      s.outBits = 13 * cs.length % 8 ∧ s.outBits < 8 ∧ s.outByte < 2 ^ s.outBits ∧
      s.sent.length = 13 * cs.length / 8 ∧ (∀ x ∈ s.sent, x < 256) := by
  obtain ⟨s, hrun, hp, hc⟩ := packed_sendAll cs freshState packed_fresh hcs
  have hc' : s.codes = cs := by rw [hc]; rfl
  obtain ⟨h1, h2, h3, h4⟩ := packed_layout s hp
  rw [hc'] at h1 h2 h3 h4
  exact ⟨freshState, s, compressInit_eq s0, hrun, h1, h2, h3, hp.1.1, hp.1.2, h4, hp.2.2.2⟩

theorem output_bit_packing_witness :
    (∀ c ∈ [65, 8191], c < 2 ^ 13) ∧
    ∃ si s, CompressInit bootState = some si ∧ sendAll si [65, 8191] = some s ∧
      bitStream 8 s.sent = (bitStream 13 [65, 8191]).take (8 * (13 * [65, 8191].length / 8)) ∧
      bitsBE s.outBits s.outByte =
        (bitStream 13 [65, 8191]).drop (8 * (13 * [65, 8191].length / 8)) ∧
      s.outBits = 13 * [65, 8191].length % 8 ∧ s.outBits < 8 ∧ s.outByte < 2 ^ s.outBits ∧
      s.sent.length = 13 * [65, 8191].length / 8 ∧ (∀ x ∈ s.sent, x < 256) :=
  ⟨by decide, output_bit_packing bootState [65, 8191] (by decide)⟩


/-- Claim C8, as the code behaves: `CompressInit` immediately followed by
`CompressFlush` hands two codes to the bit packer, the code 0 (the initial
value of `ent`, as if a byte 0 had been compressed) and then the
end-of-stream code 8191; the claim says only 8191 is sent. -/
theorem empty_stream_codes (s0 : CState) :
    ∃ s, compressStream s0 [] = some s ∧ s.codes = [0, 8191] := by
  obtain ⟨bits, byte, extra, hflush, -⟩ := running_flush freshState running_fresh
  exact ⟨_, by rw [compressStream_eq]; exact hflush, rfl⟩

/-- Claim C6, as the code behaves: after `CompressInit`, any `CompressByte`
calls and `CompressFlush`, with `k` codes sent in all, the callback has
received `floor(13k/8)` bytes, which are the leading bits of the code stream,
and the last `13k mod 8` bits (the end of the end-of-stream code) are still in
`outByte`, never padded and never delivered.  For the one-byte stream `0x41`
the codes are 65 and 8191 and the callback receives 3 bytes, one fewer than
`ceil(26/8) = 4`. -/
theorem flush_keeps_pending_bits (s0 : CState) :
    (∀ input : List Nat, ∃ s, compressStream s0 input = some s ∧
      s.sent.length = 13 * s.codes.length / 8 ∧
      s.outBits = 13 * s.codes.length % 8 ∧
      bitStream 8 s.sent = (bitStream 13 s.codes).take (8 * (13 * s.codes.length / 8)) ∧
      bitsBE s.outBits s.outByte = (bitStream 13 s.codes).drop (8 * (13 * s.codes.length / 8))) ∧
    (∃ s, compressStream s0 [0x41] = some s ∧ s.codes = [65, 8191] ∧
      s.sent = [0x02, 0x0f, 0xff] ∧ s.outBits = 2 ∧ s.outByte = 3 ∧
      s.sent.length < (13 * s.codes.length + 7) / 8) := by
  constructor
  · intro input
    obtain ⟨s1, h1, hr1⟩ := running_compressBytes input freshState running_fresh
    obtain ⟨bits, byte, extra, hflush, hp⟩ := running_flush s1 hr1
    obtain ⟨e1, e2, e3, e4⟩ := packed_layout _ hp
    refine ⟨_, by rw [compressStream_eq, h1]; exact hflush, e4, e3, e1, e2⟩
  · have h : ((compressBytes freshState [0x41]).bind CompressFlush).map
        (fun s => (s.codes, s.sent, s.outBits, s.outByte)) =
        some ([65, 8191], [0x02, 0x0f, 0xff], 2, 3) := by decide
    rw [compressStream_eq]
    cases hs : (compressBytes freshState [0x41]).bind CompressFlush with
    | none => rw [hs] at h; cases h
    | some s =>
      rw [hs] at h
      simp only [Option.map_some', Option.some.injEq, Prod.mk.injEq] at h
      obtain ⟨h1, h2, h3, h4⟩ := h
      refine ⟨s, rfl, h1, h2, h3, h4, ?_⟩
      rw [h1, h2]; decide

/-- Claim C9: when `CompressByte(b)` misses (after the first byte, in a state
whose packer holds fewer than 8 bits and whose pending code has at most 13
bits, as in every state reached from `CompressInit`) with
`freeEntry == MAX_CODE`, it sends the pending code and then `CLEAR_CODE`, sets
every `hashTable` slot to `-1`, `freeEntry` to `FIRST_CODE` and `ent` to `b`,
and `hashTable`, `codeTable`, `freeEntry` and `ent` are those of a compressor
that was just initialised and given the byte `b`.  With `freeEntry < 8191` it
sends the pending code only, writes the phrase with code `freeEntry` into the
slot where the search ended and increments `freeEntry`. -/
theorem table_eviction (s : CState) (b : Nat) (slot : Fin TABLE_LEN)
    (hf : s.firstByte = 0) (hl : lookup s (u8 b) = some (Lookup.miss slot))
    (hp : PackerOk s) (hent : s.ent < 2 ^ 13) (hsize : s.hashSize = 9001) :
    (s.freeEntry = MAX_CODE →
      ∃ s1, CompressByte s b = some s1 ∧
        s1.codes = s.codes ++ [s.ent, CLEAR_CODE] ∧
        (∀ i, s1.hashTable i = -1) ∧ s1.freeEntry = FIRST_CODE ∧ s1.ent = u8 b ∧
        ∀ s0 : CState, ∃ si sb, CompressInit s0 = some si ∧ CompressByte si b = some sb ∧
          s1.hashTable = sb.hashTable ∧ s1.codeTable = sb.codeTable ∧
          s1.freeEntry = sb.freeEntry ∧ s1.ent = sb.ent) ∧
    (s.freeEntry < MAX_CODE → s.freeEntry < 8191 ∧
      ∃ s1, CompressByte s b = some s1 ∧
        s1.codes = s.codes ++ [s.ent] ∧
        s1.hashTable = Function.update s.hashTable slot (hashCodeOf s.ent (u8 b)) ∧
        s1.codeTable = Function.update s.codeTable slot s.freeEntry ∧
        s1.freeEntry = s.freeEntry + 1 ∧ s1.ent = u8 b) := by
  constructor
  · intro hfull
    have hfree : ¬ s.freeEntry < MAX_CODE := by omega
    obtain ⟨bits, byte, extra, hrun⟩ := compressByte_clear_eq s b slot hf hl hp hent hfree
    have hht : ∀ i : Fin TABLE_LEN, (if i.val < s.hashSize then (-1 : Int) else s.hashTable i) = -1 := by
      intro i
      have := i.isLt
      simp only [TABLE_LEN] at this
      simp [hsize, this]
    have hct : ∀ i : Fin TABLE_LEN, (if i.val < s.hashSize then (0 : Nat) else s.codeTable i) = 0 := by
      intro i
      have := i.isLt
      simp only [TABLE_LEN] at this
      simp [hsize, this]
    refine ⟨_, hrun, rfl, hht, rfl, rfl, fun s0 => ?_⟩
    refine ⟨freshState, _, compressInit_eq s0, compressByte_first freshState b (by decide),
      ?_, ?_, rfl, rfl⟩
    · funext i; exact hht i
    · funext i; exact hct i
  · intro hfree
    have h8 : s.freeEntry < 8191 := hfree
    obtain ⟨bits, byte, extra, hrun⟩ := compressByte_insert_eq s b slot hf hl hp hent hfree
    refine ⟨h8, _, hrun, rfl, rfl, rfl, ?_, rfl⟩
    show u16 (s.freeEntry + 1) = s.freeEntry + 1
    simp only [u16]; omega

/-- Claim C10: `CompressInit` followed by any `CompressByte` calls returns,
and in the state reached `257 <= freeEntry <= 8191`, every slot of `hashTable`
that is not the empty sentinel has a `codeTable` value in `[257, 8190]`, two
such slots have different codes, `ent` is in `[0, 255]` or `[257, 8190]`, and
every code handed to `sendOutputCode`, also by a `CompressFlush` that follows,
is at most `2^13 - 1`. -/
theorem code_space_invariant (s0 : CState) (input : List Nat) :
    ∃ si s, CompressInit s0 = some si ∧ compressBytes si input = some s ∧
      257 ≤ s.freeEntry ∧ s.freeEntry ≤ 8191 ∧
      (∀ i, s.hashTable i ≠ -1 → 257 ≤ s.codeTable i ∧ s.codeTable i ≤ 8190) ∧
      (∀ i j, s.hashTable i ≠ -1 → s.hashTable j ≠ -1 → i ≠ j →
        s.codeTable i ≠ s.codeTable j) ∧
      (s.ent ≤ 255 ∨ (257 ≤ s.ent ∧ s.ent ≤ 8190)) ∧
      (∀ c ∈ s.codes, c ≤ 2 ^ 13 - 1) ∧
      ∃ sf, CompressFlush s = some sf ∧ ∀ c ∈ sf.codes, c ≤ 2 ^ 13 - 1 := by
  obtain ⟨s, hrun, hr⟩ := running_compressBytes input freshState running_fresh
  obtain ⟨bits, byte, extra, hflush, -⟩ := running_flush s hr
  obtain ⟨⟨dict, hd⟩, -, hcodes⟩ := hr
  have hfe := hd.free_eq
  have hfl := hd.free_le
  have hent := dictOk_ent_lt s dict hd
  refine ⟨freshState, s, compressInit_eq s0, hrun, by omega, hfl, ?_, ?_, ?_, ?_, _, hflush, ?_⟩
  · intro i hi
    obtain ⟨e, b, k, -, -, hk, -, hc, -⟩ := hd.slots i hi
    omega
  · intro i j hi hj hij hc
    exact hij (hd.distinct i j hi hj hc)
  · rcases hd.ent_valid with h | ⟨h1, h2⟩
    · exact Or.inl (by omega)
    · exact Or.inr ⟨h1, by omega⟩
  · intro c hc
    have := hcodes c hc
    norm_num; omega
  · intro c hc
    rcases List.mem_append.1 hc with hc | hc
    · have := hcodes c hc
      norm_num; omega
    · simp only [List.mem_cons, List.mem_singleton, List.not_mem_nil, or_false] at hc
      norm_num; omega

theorem table_eviction_witness :
    exhaustedState.firstByte = 0 ∧
    lookup exhaustedState (u8 66) = some (Lookup.miss ⟨2049, by decide⟩) ∧
    PackerOk exhaustedState ∧ exhaustedState.ent < 2 ^ 13 ∧ exhaustedState.hashSize = 9001 ∧
    exhaustedState.freeEntry = MAX_CODE ∧
    ∃ s1, CompressByte exhaustedState 66 = some s1 ∧
      s1.codes = exhaustedState.codes ++ [exhaustedState.ent, CLEAR_CODE] ∧
      (∀ i, s1.hashTable i = -1) ∧ s1.freeEntry = FIRST_CODE ∧ s1.ent = u8 66 ∧
      ∀ s0 : CState, ∃ si sb, CompressInit s0 = some si ∧ CompressByte si 66 = some sb ∧
        s1.hashTable = sb.hashTable ∧ s1.codeTable = sb.codeTable ∧
        s1.freeEntry = sb.freeEntry ∧ s1.ent = sb.ent :=
  ⟨rfl, by decide, ⟨by decide, by decide⟩, by decide, rfl, rfl,
   (table_eviction exhaustedState 66 ⟨2049, by decide⟩ rfl (by decide)
      ⟨by decide, by decide⟩ (by decide) rfl).1 rfl⟩

/-! ## Properties of the sample encoder -/

theorem appended_refl (s : QState) (hw : QWellFormed s) : Appended s s [] :=
  ⟨hw, by simp, rfl, rfl, rfl, rfl, rfl, rfl, rfl, rfl⟩

theorem appended_trans (s t u : QState) (l1 l2 : List Nat)
    (h1 : Appended s t l1) (h2 : Appended t u l2) : Appended s u (l1 ++ l2) := by
  obtain ⟨-, a2, a3, a4, a5, a6, a7, a8, a9, a10⟩ := h1
  obtain ⟨b1, b2, b3, b4, b5, b6, b7, b8, b9, b10⟩ := h2
  refine ⟨b1, by rw [b2, a2, List.append_assoc], ?_, by rw [b4, a4], by rw [b5, a5],
    by rw [b6, a6], by rw [b7, a7], by rw [b8, a8], by rw [b9, a9], by rw [b10, a10]⟩
  rw [b3, a3, List.length_append]; omega

/-- One byte appended by `enqueueByte` when there is room. -/
theorem enqueueByte_appended (s : QState) (b : Nat) (hw : QWellFormed s)
    (hc : s.qCount < QSIZE) :
    ∃ t, enqueueByte s b = some (t, 0) ∧ Appended s t [u8 b] := by
  obtain ⟨t, h1, h2, h3, h4, h5, h6, h7, h8, h9, h10, h11⟩ := enqueueByte_room s b hw hc
  exact ⟨t, h1, h2, h3, by simpa using h4, h5, h6, h7, h8, h9, h10, h11⟩

/-- Four calls of `enqueueByte` in a row when there is room for four bytes. -/
theorem enqueue4_room {α : Type} (s : QState) (a b c d : Nat) (k : QState × Nat → Option α)
    (hw : QWellFormed s) (hroom : s.qCount + 4 ≤ QSIZE) :
    ∃ t, Appended s t [u8 a, u8 b, u8 c, u8 d] ∧
      ((enqueueByte s a).bind fun r1 =>
        (enqueueByte r1.1 b).bind fun r2 =>
        (enqueueByte r2.1 c).bind fun r3 =>
        (enqueueByte r3.1 d).bind k) = k (t, 0) := by
  obtain ⟨t1, e1, h1⟩ := enqueueByte_appended s a hw (by omega)
  have q1 := h1.2.2.1
  obtain ⟨t2, e2, h2⟩ := enqueueByte_appended t1 b h1.1 (by simp at q1; omega)
  have q2 := h2.2.2.1
  obtain ⟨t3, e3, h3⟩ := enqueueByte_appended t2 c h2.1 (by simp at q1 q2; omega)
  have q3 := h3.2.2.1
  obtain ⟨t4, e4, h4⟩ := enqueueByte_appended t3 d h3.1 (by simp at q1 q2 q3; omega)
  refine ⟨t4, ?_, by simp [e1, e2, e3, e4]⟩
  have := appended_trans _ _ _ _ _ (appended_trans _ _ _ _ _ (appended_trans _ _ _ _ _ h1 h2) h3) h4
  simpa using this

theorem u8_and_ff (x : Nat) : u8 (x &&& 0xff) = x &&& 0xff :=
  Nat.mod_eq_of_lt (lt_of_le_of_lt Nat.and_le_right (by norm_num))

theorem u8_u8 (x : Nat) : u8 (u8 x) = u8 x := Nat.mod_mod _ _

theorem toInt16_zero : toInt16 0 = 0 := by decide

/-- The sample record of transition-only mode: nothing for a sample equal to
the one emitted last, else the marker, the two low bytes of `Irqs` and the
sample. -/
theorem enqueueRecord_transition (e : Env) (s : QState) (x : Nat)
    (hm : e.SamplingMode = SAMPLING_MODE_TRANSITIONONLY) (hw : QWellFormed s) :
    ((s.firstSample = 0 ∧ s.prevSample = u8 x) →
      enqueueRecord e s (u8 x) = some (s, 0)) ∧
    (¬ (s.firstSample = 0 ∧ s.prevSample = u8 x) → s.qCount + 4 ≤ QSIZE →
      ∃ t, enqueueRecord e s (u8 x) = some (t, 0) ∧
        Appended { s with firstSample := 0, prevSample := u8 x } t
          [0xbf, e.Irqs &&& 0xff, (e.Irqs >>> 8) &&& 0xff, u8 x]) := by
  constructor
  · intro hsup
    simp [enqueueRecord, hm, hsup]
  · intro hsup hroom
    obtain ⟨t, ht, hrun⟩ := enqueue4_room { s with firstSample := 0, prevSample := u8 x }
      SAMPLE_MARKER (e.Irqs &&& 0xff) ((e.Irqs >>> 8) &&& 0xff) (u8 x)
      (fun r4 => some (r4.1, toInt16 r4.2)) hw hroom
    refine ⟨t, ?_, ?_⟩
    · simp only [enqueueRecord, hm, if_true, hsup, if_false]
      rw [hrun]
      simp [toInt16_zero]
    · have hmk : u8 SAMPLE_MARKER = 0xbf := by decide
      rw [hmk, u8_and_ff, u8_and_ff, u8_u8] at ht
      exact ht


theorem appended_encoder (s t : QState) (l : List Nat) (a b : Nat) (h : Appended s t l) :
    Appended { s with firstSample := a, prevSample := b }
      { t with firstSample := a, prevSample := b } l := by
  obtain ⟨h1, h2, h3, h4, h5, h6, h7, h8, h9, h10⟩ := h
  exact ⟨h1, h2, h3, h4, h5, rfl, rfl, h8, h9, h10⟩

/-- A call of `EnqueueSample` in transition-only mode with room for what it
emits: first the rollover record when the low 16 bits of `Irqs` are zero, then
the sample record unless the sample repeats the one emitted last; the call
returns `0`. -/
theorem enqueueSample_transition (e : Env) (s : QState) (x : Nat)
    (hm : e.SamplingMode = SAMPLING_MODE_TRANSITIONONLY) (hw : QWellFormed s)
    (hroom : s.qCount + (if e.Irqs &&& 0xffff = 0 then 4 else 0) +
      (if s.firstSample = 0 ∧ s.prevSample = u8 x then 0 else 4) ≤ QSIZE) :
    ∃ t, EnqueueSample e s x = some (t, 0) ∧
      Appended
        (if s.firstSample = 0 ∧ s.prevSample = u8 x then s
          else { s with firstSample := 0, prevSample := u8 x })
        t
        ((if e.Irqs &&& 0xffff = 0 then
            [0xbe, u16 (e.Irqs >>> 16) &&& 0xff, (u16 (e.Irqs >>> 16) >>> 8) &&& 0xff, 0]
          else []) ++
         (if s.firstSample = 0 ∧ s.prevSample = u8 x then []
          else [0xbf, e.Irqs &&& 0xff, (e.Irqs >>> 8) &&& 0xff, u8 x])) := by
  by_cases hr : e.Irqs &&& 0xffff = 0
  · simp only [hr, if_true] at hroom ⊢
    obtain ⟨t4, ht4, hrun⟩ := enqueue4_room s ROLLOVER_MARKER (u16 (e.Irqs >>> 16) &&& 0xff)
      ((u16 (e.Irqs >>> 16) >>> 8) &&& 0xff) 0 (fun r4 => enqueueRecord e r4.1 (u8 x)) hw
      (by split at hroom <;> omega)
    have hmk : u8 ROLLOVER_MARKER = 0xbe := by decide
    have hz : u8 0 = 0 := by decide
    rw [hmk, u8_and_ff, u8_and_ff, hz] at ht4
    have hrun' : EnqueueSample e s x = enqueueRecord e t4 (u8 x) := by
      simp only [EnqueueSample, hm, if_true, hr]
      exact hrun
    obtain ⟨hsupp, hemit⟩ := enqueueRecord_transition e t4 x hm ht4.1
    have hf : t4.firstSample = s.firstSample := ht4.2.2.2.2.2.1
    have hp : t4.prevSample = s.prevSample := ht4.2.2.2.2.2.2.1
    by_cases hsup : s.firstSample = 0 ∧ s.prevSample = u8 x
    · simp only [hsup, and_self, if_true, List.append_nil] at hroom ⊢
      exact ⟨t4, by rw [hrun', hsupp (by rw [hf, hp]; exact hsup)], ht4⟩
    · simp only [hsup, if_false] at hroom ⊢
      have hq : t4.qCount = s.qCount + 4 := by simpa using ht4.2.2.1
      obtain ⟨t, hrun2, ht⟩ := hemit (by rw [hf, hp]; exact hsup) (by omega)
      exact ⟨t, by rw [hrun', hrun2],
        appended_trans _ _ _ _ _ (appended_encoder s t4 _ 0 (u8 x) ht4) ht⟩
  · simp only [hr, if_false, List.nil_append, Nat.add_zero] at hroom ⊢
    have hrun' : EnqueueSample e s x = enqueueRecord e s (u8 x) := by
      simp only [EnqueueSample, hm, if_true, hr, if_false]
    obtain ⟨hsupp, hemit⟩ := enqueueRecord_transition e s x hm hw
    by_cases hsup : s.firstSample = 0 ∧ s.prevSample = u8 x
    · simp only [hsup, and_self, if_true] at hroom ⊢
      exact ⟨s, by rw [hrun', hsupp hsup], appended_refl s hw⟩
    · simp only [hsup, if_false] at hroom ⊢
      obtain ⟨t, hrun2, ht⟩ := hemit hsup hroom
      exact ⟨t, by rw [hrun', hrun2], ht⟩


/-- In continuous mode with at most 4 channels, a sample that does not
complete a byte is only accumulated. -/
theorem enqueueSample_stack_hold (e : Env) (s : QState) (x : Nat)
    (hm : e.SamplingMode ≠ SAMPLING_MODE_TRANSITIONONLY) (hc : e.SamplingChannels ≤ 4)
    (hlt : u8 (s.stackShift + e.SamplingChannels) < 8) :
    EnqueueSample e s x =
      some ({ s with
        stackedSample := u8 (s.stackedSample ||| ((u8 x &&& s.stackMask) <<< s.stackShift)),
        stackShift := u8 (s.stackShift + e.SamplingChannels) }, 0) := by
  simp only [EnqueueSample, hm, if_false, hc, if_true, hlt]

/-- In continuous mode with at most 4 channels, the sample that brings the
fill offset to 8 or more sends the accumulator to the queue and resets it. -/
theorem enqueueSample_stack_emit (e : Env) (s : QState) (x : Nat)
    (hm : e.SamplingMode ≠ SAMPLING_MODE_TRANSITIONONLY) (hc : e.SamplingChannels ≤ 4)
    (hge : ¬ u8 (s.stackShift + e.SamplingChannels) < 8)
    (hw : QWellFormed s) (hroom : s.qCount < QSIZE) :
    ∃ t, EnqueueSample e s x = some (t, 0) ∧
      Appended { s with stackShift := 0, stackedSample := 0 } t
        [u8 (s.stackedSample ||| ((u8 x &&& s.stackMask) <<< s.stackShift))] := by
  obtain ⟨t, hrun, ht⟩ := enqueueByte_appended { s with stackShift := 0, stackedSample := 0 }
    (u8 (s.stackedSample ||| ((u8 x &&& s.stackMask) <<< s.stackShift))) hw hroom
  rw [u8_u8] at ht
  refine ⟨t, ?_, ht⟩
  simp only [EnqueueSample, hm, if_false, hc, if_true, hge, enqueueRecord]
  rw [hrun]
  simp [toInt16_zero]

theorem u8_and_low (a k : Nat) (hk : k ≤ 8) : u8 a &&& (2 ^ k - 1) = a &&& (2 ^ k - 1) := by
  rw [Nat.and_pow_two_sub_one_eq_mod, Nat.and_pow_two_sub_one_eq_mod]
  simp only [u8]
  have h : 2 ^ k ∣ 256 := by
    have : (256 : Nat) = 2 ^ 8 := by norm_num
    rw [this]
    exact Nat.pow_dvd_pow 2 hk
  exact Nat.mod_mod_of_dvd a h

theorem continuous_ne : SAMPLING_MODE_CONTINUOUS ≠ SAMPLING_MODE_TRANSITIONONLY := by decide

/-- Two samples of 4 channels from a queue state whose accumulator is empty. -/
theorem stack_two_of_four (e1 e2 : Env) (c : QState) (a b : Nat)
    (h1 : e1.SamplingChannels = 4 ∧ e1.SamplingMode ≠ SAMPLING_MODE_TRANSITIONONLY)
    (h2 : e2.SamplingChannels = 4 ∧ e2.SamplingMode ≠ SAMPLING_MODE_TRANSITIONONLY)
    (hw : QWellFormed c) (hq : c.qCount = 0) (hmask : c.stackMask = 15)
    (hshift : c.stackShift = 0) (hacc : c.stackedSample = 0) :
    ∃ t1 t2,
      EnqueueSample e1 c a = some (t1, 0) ∧ t1.qCount = 0 ∧ contents t1 = [] ∧
      EnqueueSample e2 t1 b = some (t2, 0) ∧
      t2.qCount = 1 ∧ contents t2 = [(a &&& 0x0F) ||| ((b &&& 0x0F) <<< 4)] ∧
      t2.stackedSample = 0 ∧ t2.stackShift = 0 := by
  have ha : u8 a &&& 15 = a &&& 15 := u8_and_low a 4 (by norm_num)
  have hb : u8 b &&& 15 = b &&& 15 := u8_and_low b 4 (by norm_num)
  have ha16 : a &&& 15 < 2 ^ 4 := lt_of_le_of_lt Nat.and_le_right (by norm_num)
  have hb16 : b &&& 15 < 2 ^ 4 := lt_of_le_of_lt Nat.and_le_right (by norm_num)
  have hacc1 : u8 (0 ||| ((u8 a &&& 15) <<< 0)) = a &&& 15 := by
    rw [ha]
    simp only [Nat.shiftLeft_zero, Nat.zero_or, u8]
    exact Nat.mod_eq_of_lt (by omega)
  have hbyte : u8 ((a &&& 15) ||| ((u8 b &&& 15) <<< 4)) = (a &&& 15) ||| ((b &&& 15) <<< 4) := by
    rw [hb]
    have h8 : (a &&& 15) ||| ((b &&& 15) <<< 4) < 2 ^ 8 :=
      Nat.or_lt_two_pow (lt_of_lt_of_le ha16 (by norm_num))
        (shiftLeft_lt_two_pow _ 4 4 hb16)
    exact Nat.mod_eq_of_lt h8
  have hc0 : contents c = [] := by simp [contents, hq]
  have hold := enqueueSample_stack_hold e1 c a h1.2 (by rw [h1.1])
    (by rw [hshift, h1.1]; decide)
  rw [hshift, hacc, hmask, h1.1, hacc1] at hold
  obtain ⟨t2, hrun2, ht2⟩ := enqueueSample_stack_emit e2
    { c with stackedSample := a &&& 15, stackShift := u8 (0 + 4), stackMask := 15 } b h2.2
    (by rw [h2.1])
    (by rw [h2.1]; show ¬ u8 (u8 (0 + 4) + 4) < 8; decide) hw (by rw [hq]; decide)
  refine ⟨_, t2, hold, hq, hc0, hrun2, ?_, ?_, ht2.2.2.2.2.2.2.2.1, ht2.2.2.2.2.2.2.2.2.1⟩
  · rw [ht2.2.2.1]
    show c.qCount + 1 = 1
    rw [hq]
  · rw [ht2.2.1]
    show contents c ++ [u8 ((a &&& 15) ||| ((u8 b &&& 15) <<< u8 (0 + 4)))] = _
    have h4 : u8 (0 + 4) = 4 := by decide
    rw [hc0, h4, hbyte]
    rfl



/-- Three samples of 3 channels from a queue state whose accumulator is
empty: the third call sends the accumulator, cut to 8 bits. -/
theorem stack_three_of_three (e1 e2 e3 : Env) (c : QState) (x y z : Nat)
    (h1 : e1.SamplingChannels = 3 ∧ e1.SamplingMode ≠ SAMPLING_MODE_TRANSITIONONLY)
    (h2 : e2.SamplingChannels = 3 ∧ e2.SamplingMode ≠ SAMPLING_MODE_TRANSITIONONLY)
    (h3 : e3.SamplingChannels = 3 ∧ e3.SamplingMode ≠ SAMPLING_MODE_TRANSITIONONLY)
    (hw : QWellFormed c) (hq : c.qCount = 0) (hmask : c.stackMask = 7)
    (hshift : c.stackShift = 0) (hacc : c.stackedSample = 0) :
    ∃ t1 t2 t3,
      EnqueueSample e1 c x = some (t1, 0) ∧ contents t1 = [] ∧
      EnqueueSample e2 t1 y = some (t2, 0) ∧ contents t2 = [] ∧
      EnqueueSample e3 t2 z = some (t3, 0) ∧
      contents t3 =
        [u8 (u8 (u8 (0 ||| ((u8 x &&& 7) <<< 0)) ||| ((u8 y &&& 7) <<< 3)) |||
          ((u8 z &&& 7) <<< 6))] ∧
      t3.stackedSample = 0 ∧ t3.stackShift = 0 := by
  have hc0 : contents c = [] := by simp [contents, hq]
  have hold1 := enqueueSample_stack_hold e1 c x h1.2 (by rw [h1.1]; decide)
    (by rw [hshift, h1.1]; decide)
  rw [hshift, hacc, hmask, h1.1] at hold1
  have hold2 := enqueueSample_stack_hold e2
    { c with
      stackedSample := u8 (0 ||| ((u8 x &&& 7) <<< 0)), stackShift := u8 (0 + 3),
      stackMask := 7 }
    y h2.2 (by rw [h2.1]; decide) (by rw [h2.1]; show u8 (u8 (0 + 3) + 3) < 8; decide)
  rw [h2.1] at hold2
  obtain ⟨t3, hrun3, ht3⟩ := enqueueSample_stack_emit e3
    { c with
      stackedSample := u8 (u8 (0 ||| ((u8 x &&& 7) <<< 0)) ||| ((u8 y &&& 7) <<< u8 (0 + 3))),
      stackShift := u8 (u8 (0 + 3) + 3), stackMask := 7 }
    z h3.2 (by rw [h3.1]; decide)
    (by rw [h3.1]; show ¬ u8 (u8 (u8 (0 + 3) + 3) + 3) < 8; decide) hw (by rw [hq]; decide)
  refine ⟨_, _, t3, hold1, hc0, hold2, hc0, hrun3, ?_, ht3.2.2.2.2.2.2.2.1,
    ht3.2.2.2.2.2.2.2.2.1⟩
  rw [ht3.2.1]
  show contents c ++ _ = _
  rw [hc0]
  rfl



/-- Claim C11: in transition-only mode, with room for a record and no rollover
due (`Irqs & 0xffff != 0`), `EnqueueSample(s)` returns `0` and changes nothing
when a sample has been emitted since `ClearSampleQueue` (`firstSample == 0`)
and `s` equals `prevSample`; otherwise it appends exactly one sample record.
The first sample after `ClearSampleQueue` is always emitted; `0xAA, 0xAA`
leaves one record in the queue and `0xAA, 0xBB` two. -/
theorem transition_suppression (e : Env) (s : QState) (x : Nat)
    (hm : e.SamplingMode = SAMPLING_MODE_TRANSITIONONLY) (hnr : e.Irqs &&& 0xffff ≠ 0)
    (hw : QWellFormed s) (hroom : s.qCount + 4 ≤ QSIZE) :
    ((s.firstSample = 0 ∧ s.prevSample = u8 x) → EnqueueSample e s x = some (s, 0)) ∧
    (¬ (s.firstSample = 0 ∧ s.prevSample = u8 x) →
      ∃ t, EnqueueSample e s x = some (t, 0) ∧
        contents t = contents s ++ [0xbf, e.Irqs &&& 0xff, (e.Irqs >>> 8) &&& 0xff, u8 x] ∧
        t.firstSample = 0 ∧ t.prevSample = u8 x) ∧
    (∀ (e0 : Env) (s0 : QState),
      ∃ t, EnqueueSample e (ClearSampleQueue e0 s0) x = some (t, 0) ∧
        contents t = [0xbf, e.Irqs &&& 0xff, (e.Irqs >>> 8) &&& 0xff, u8 x]) ∧
    (∀ (e0 : Env) (s0 : QState),
      (∃ t, runCalls (ClearSampleQueue e0 s0)
          [QCall.enqueueSample e 0xAA, QCall.enqueueSample e 0xAA] = some t ∧
        contents t = [0xbf, e.Irqs &&& 0xff, (e.Irqs >>> 8) &&& 0xff, 0xAA]) ∧
      (∃ t, runCalls (ClearSampleQueue e0 s0)
          [QCall.enqueueSample e 0xAA, QCall.enqueueSample e 0xBB] = some t ∧
        contents t = [0xbf, e.Irqs &&& 0xff, (e.Irqs >>> 8) &&& 0xff, 0xAA,
                      0xbf, e.Irqs &&& 0xff, (e.Irqs >>> 8) &&& 0xff, 0xBB])) := by
  have emit : ∀ (s' : QState) (y : Nat), QWellFormed s' → s'.qCount + 4 ≤ QSIZE →
      ¬ (s'.firstSample = 0 ∧ s'.prevSample = u8 y) →
      ∃ t, EnqueueSample e s' y = some (t, 0) ∧
        Appended { s' with firstSample := 0, prevSample := u8 y } t
          [0xbf, e.Irqs &&& 0xff, (e.Irqs >>> 8) &&& 0xff, u8 y] := by
    intro s' y hw' hroom' hsup
    obtain ⟨t, hrun, ht⟩ := enqueueSample_transition e s' y hm hw'
      (by simp only [hnr, if_false, hsup]; omega)
    simp only [hnr, if_false, hsup, List.nil_append] at ht
    exact ⟨t, hrun, ht⟩
  have first : ∀ (e0 : Env) (s0 : QState) (y : Nat),
      ∃ t, EnqueueSample e (ClearSampleQueue e0 s0) y = some (t, 0) ∧
        Appended { ClearSampleQueue e0 s0 with firstSample := 0, prevSample := u8 y } t
          [0xbf, e.Irqs &&& 0xff, (e.Irqs >>> 8) &&& 0xff, u8 y] :=
    fun e0 s0 y => emit _ y (clear_wellFormed e0 s0) (by simp [ClearSampleQueue, QSIZE])
      (by simp [ClearSampleQueue])
  refine ⟨?_, ?_, ?_, ?_⟩
  · intro hsup
    obtain ⟨t, hrun, -⟩ := enqueueSample_transition e s x hm hw
      (by simp only [hnr, if_false, hsup, and_self, if_true]; omega)
    have h := (enqueueRecord_transition e s x hm hw).1 hsup
    simp only [EnqueueSample, hm, if_true, hnr, if_false]
    exact h
  · intro hsup
    obtain ⟨t, hrun, ht⟩ := emit s x hw hroom hsup
    exact ⟨t, hrun, ht.2.1, ht.2.2.2.2.2.1, ht.2.2.2.2.2.2.1⟩
  · intro e0 s0
    obtain ⟨t, hrun, ht⟩ := first e0 s0 x
    refine ⟨t, hrun, ?_⟩
    rw [ht.2.1]
    simp [contents, ClearSampleQueue]
  · intro e0 s0
    obtain ⟨t, hrun, ht⟩ := first e0 s0 0xAA
    have hc : contents t = [0xbf, e.Irqs &&& 0xff, (e.Irqs >>> 8) &&& 0xff, 0xAA] := by
      rw [ht.2.1]
      simp [contents, ClearSampleQueue, u8]
    have hq : t.qCount = 4 := by
      rw [ht.2.2.1]; simp [ClearSampleQueue]
    have hf : t.firstSample = 0 := ht.2.2.2.2.2.1
    have hp : t.prevSample = 0xAA := ht.2.2.2.2.2.2.1
    constructor
    · have hsame := (enqueueRecord_transition e t 0xAA hm ht.1).1 ⟨hf, by rw [hp]; rfl⟩
      have hrun2 : EnqueueSample e t 0xAA = some (t, 0) := by
        simp only [EnqueueSample, hm, if_true, hnr, if_false]
        exact hsame
      exact ⟨t, by simp [runCalls, QCall.run, hrun, hrun2], hc⟩
    · obtain ⟨t2, hrun2, ht2⟩ := emit t 0xBB ht.1 (by rw [hq]; decide)
        (by rw [hp]; simp [u8])
      refine ⟨t2, by simp [runCalls, QCall.run, hrun, hrun2], ?_⟩
      rw [ht2.2.1]
      show contents t ++ _ = _
      rw [hc]
      simp [u8]


/-- Claim C12: in transition-only mode, when `EnqueueSample(s)` emits the sample
and the queue has room, the bytes it appends for the sample, after the rollover
record if one is due, are `SAMPLE_MARKER`, `Irqs & 0xff`, `(Irqs >> 8) & 0xff`
and the sample byte `s` itself; the stacking accumulator and fill offset are
not touched. -/
theorem sample_record_contents (e : Env) (s : QState) (x : Nat)
    (hm : e.SamplingMode = SAMPLING_MODE_TRANSITIONONLY) (hw : QWellFormed s)
    (hemit : ¬ (s.firstSample = 0 ∧ s.prevSample = u8 x))
    (hroom : s.qCount + 8 ≤ QSIZE) :
    ∃ t, EnqueueSample e s x = some (t, 0) ∧
      contents t = contents s ++
        (if e.Irqs &&& 0xffff = 0 then
          [0xbe, u16 (e.Irqs >>> 16) &&& 0xff, (u16 (e.Irqs >>> 16) >>> 8) &&& 0xff, 0]
        else []) ++
        [SAMPLE_MARKER, e.Irqs &&& 0xff, (e.Irqs >>> 8) &&& 0xff, u8 x] ∧
      t.stackedSample = s.stackedSample ∧ t.stackShift = s.stackShift := by
  obtain ⟨t, hrun, ht⟩ := enqueueSample_transition e s x hm hw
    (by simp only [hemit, if_false]; split <;> omega)
  simp only [hemit, if_false] at ht
  refine ⟨t, hrun, ?_, ht.2.2.2.2.2.2.2.1, ht.2.2.2.2.2.2.2.2.1⟩
  rw [ht.2.1, List.append_assoc]
  rfl

theorem sample_record_contents_witness :
    (⟨8, 1, 0x1234⟩ : Env).SamplingMode = SAMPLING_MODE_TRANSITIONONLY ∧
    QWellFormed sampleState ∧
    ¬ (sampleState.firstSample = 0 ∧ sampleState.prevSample = u8 0x5a) ∧
    sampleState.qCount + 8 ≤ QSIZE ∧
    ∃ t, EnqueueSample ⟨8, 1, 0x1234⟩ sampleState 0x5a = some (t, 0) ∧
      contents t = contents sampleState ++
        (if (0x1234 : Nat) &&& 0xffff = 0 then
          [0xbe, u16 (0x1234 >>> 16) &&& 0xff, (u16 (0x1234 >>> 16) >>> 8) &&& 0xff, 0]
        else []) ++
        [SAMPLE_MARKER, 0x1234 &&& 0xff, (0x1234 >>> 8) &&& 0xff, u8 0x5a] ∧
      t.stackedSample = sampleState.stackedSample ∧ t.stackShift = sampleState.stackShift :=
  ⟨rfl, by simp [QWellFormed, sampleState, QSIZE], by decide, by decide,
   sample_record_contents ⟨8, 1, 0x1234⟩ sampleState 0x5a rfl
     (by simp [QWellFormed, sampleState, QSIZE]) (by decide) (by decide)⟩

theorem sample_record_length_counterexample :
    ¬ ((runCalls (ClearSampleQueue ⟨8, 1, 1⟩ sampleState)
          [QCall.enqueueSample ⟨8, 1, 1⟩ 0xAA, QCall.enqueueSample ⟨8, 1, 1⟩ 0xAA]).map
        (fun t => t.qCount) = some 3) := by
  decide

/-- Claim C17: `EnqueueFinalSample` is `EnqueueSample` of `0xFF` when
`prevSample` is 0 and of `0x00` otherwise; that value differs from
`prevSample`, so in transition-only mode with room in the queue the call
appends (after the rollover record if one is due) one sample record with the
current `Irqs` timestamp and that value. -/
theorem final_sample (e : Env) (s : QState)
    (hm : e.SamplingMode = SAMPLING_MODE_TRANSITIONONLY) (hw : QWellFormed s)
    (hroom : s.qCount + 8 ≤ QSIZE) :
    EnqueueFinalSample e s =
      (EnqueueSample e s (if s.prevSample = 0 then 0xff else 0)).map Prod.fst ∧
    (if s.prevSample = 0 then 0xff else 0) ≠ s.prevSample ∧
    ∃ t, EnqueueFinalSample e s = some t ∧
      contents t = contents s ++
        (if e.Irqs &&& 0xffff = 0 then
          [0xbe, u16 (e.Irqs >>> 16) &&& 0xff, (u16 (e.Irqs >>> 16) >>> 8) &&& 0xff, 0]
        else []) ++
        [0xbf, e.Irqs &&& 0xff, (e.Irqs >>> 8) &&& 0xff,
         if s.prevSample = 0 then 0xff else 0] ∧
      t.prevSample = (if s.prevSample = 0 then 0xff else 0) := by
  have hne : (if s.prevSample = 0 then 0xff else 0) ≠ s.prevSample := by
    split <;> omega
  have hu : u8 (if s.prevSample = 0 then 0xff else 0) = (if s.prevSample = 0 then 0xff else 0) := by
    split <;> rfl
  have hemit : ¬ (s.firstSample = 0 ∧
      s.prevSample = u8 (if s.prevSample = 0 then 0xff else 0)) := by
    rw [hu]
    exact fun h => hne h.2.symm
  obtain ⟨t, hrun, ht⟩ := enqueueSample_transition e s (if s.prevSample = 0 then 0xff else 0)
    hm hw (by simp only [hemit, if_false]; split <;> omega)
  have hemit' : ¬ (s.firstSample = 0 ∧
      s.prevSample = (if s.prevSample = 0 then 0xff else 0)) := fun h => hne h.2.symm
  simp only [hu, hemit', if_false] at ht
  refine ⟨rfl, hne, t, by simp [EnqueueFinalSample, hrun], ?_, ht.2.2.2.2.2.2.1⟩
  rw [ht.2.1, List.append_assoc]
  rfl

theorem final_sample_witness :
    (⟨8, 1, 0x1234⟩ : Env).SamplingMode = SAMPLING_MODE_TRANSITIONONLY ∧
    QWellFormed sampleState ∧ sampleState.qCount + 8 ≤ QSIZE ∧
    ∃ t, EnqueueFinalSample ⟨8, 1, 0x1234⟩ sampleState = some t ∧
      contents t = contents sampleState ++
        (if (0x1234 : Nat) &&& 0xffff = 0 then
          [0xbe, u16 (0x1234 >>> 16) &&& 0xff, (u16 (0x1234 >>> 16) >>> 8) &&& 0xff, 0]
        else []) ++
        [0xbf, 0x1234 &&& 0xff, (0x1234 >>> 8) &&& 0xff,
         if sampleState.prevSample = 0 then 0xff else 0] ∧
      t.prevSample = (if sampleState.prevSample = 0 then 0xff else 0) :=
  ⟨rfl, by simp [QWellFormed, sampleState, QSIZE], by decide,
   (final_sample ⟨8, 1, 0x1234⟩ sampleState rfl
     (by simp [QWellFormed, sampleState, QSIZE]) (by decide)).2.2⟩

/-- Claim C19: with `qCount == 0`, `DequeueSample` returns 0 and leaves the
state as it is; with `qCount > 0` (and `qHead` within the array and the
producer flag released, as in every well-formed state) it returns
`queue[qHead]`, advances `qHead` by one modulo 4096, decrements `qCount` by
one and leaves `qTail`, every stored byte and `Overflow` unchanged. -/
theorem dequeue_sample (s : QState) :
    (s.qCount = 0 → DequeueSample s = some (s, 0)) ∧
    (0 < s.qCount → s.qHead < QSIZE → s.enqueueBusy = 0 →
      ∃ t, DequeueSample s = some (t, s.queue s.qHead) ∧
        t.qHead = (s.qHead + 1) % 4096 ∧ t.qCount + 1 = s.qCount ∧
        t.qTail = s.qTail ∧ t.queue = s.queue ∧ t.Overflow = s.Overflow) := by
  constructor
  · intro h0
    simp [DequeueSample, h0]
  · intro hc hh hb
    simp only [QSIZE] at hh
    have e1 : (s.qHead + 1) % 4294967296 = s.qHead + 1 := by omega
    refine ⟨{ s with
        qHead := if s.qHead + 1 = QSIZE then 0 else s.qHead + 1,
        qCount := s.qCount - 1, dequeueBusy := 0 }, ?_, ?_, ?_, rfl, rfl, rfl⟩
    · simp only [DequeueSample, QSIZE, ge_iff_le, hb, ne_eq, not_true_eq_false, if_false, u32, e1]
      rw [if_neg (by omega), if_neg (by omega)]
    · simp only [QSIZE]
      split <;> omega
    · simp only
      omega

theorem dequeue_sample_witness :
    0 < sampleState.qCount ∧ sampleState.qHead < QSIZE ∧ sampleState.enqueueBusy = 0 ∧
    ∃ t, DequeueSample sampleState = some (t, sampleState.queue sampleState.qHead) ∧
      t.qHead = (sampleState.qHead + 1) % 4096 ∧ t.qCount + 1 = sampleState.qCount ∧
      t.qTail = sampleState.qTail ∧ t.queue = sampleState.queue ∧
      t.Overflow = sampleState.Overflow :=
  ⟨by decide, by decide, rfl, (dequeue_sample sampleState).2 (by decide) (by decide) rfl⟩

/-- Claim C20: after `ClearSampleQueue`, `qHead`, `qTail`, `qCount`,
`Overflow`, the stacking accumulator and the fill offset are 0, `firstSample`
is 1, `SampleQueueIsEmpty()` is true and `SampleQueueIsFull()` false, the
stacking mask is `(1 << channel_count) - 1` for 1..4 channels and `0xFF` for
5..8, and the next sample in transition-only mode is emitted whatever
`prevSample` holds. -/
theorem session_reset (e : Env) (s0 : QState) :
    (ClearSampleQueue e s0).qHead = 0 ∧ (ClearSampleQueue e s0).qTail = 0 ∧
    (ClearSampleQueue e s0).qCount = 0 ∧ (ClearSampleQueue e s0).Overflow = 0 ∧
    (ClearSampleQueue e s0).stackedSample = 0 ∧ (ClearSampleQueue e s0).stackShift = 0 ∧
    (ClearSampleQueue e s0).firstSample = 1 ∧
    SampleQueueIsEmpty (ClearSampleQueue e s0) = 1 ∧
    SampleQueueIsFull (ClearSampleQueue e s0) = 0 ∧
    (1 ≤ e.SamplingChannels ∧ e.SamplingChannels ≤ 4 →
      (ClearSampleQueue e s0).stackMask = (1 <<< e.SamplingChannels) - 1) ∧
    (5 ≤ e.SamplingChannels ∧ e.SamplingChannels ≤ 8 →
      (ClearSampleQueue e s0).stackMask = 0xff) ∧
    (∀ (e1 : Env) (x : Nat), e1.SamplingMode = SAMPLING_MODE_TRANSITIONONLY →
      ∃ t, EnqueueSample e1 (ClearSampleQueue e s0) x = some (t, 0) ∧
        contents t =
          (if e1.Irqs &&& 0xffff = 0 then
            [0xbe, u16 (e1.Irqs >>> 16) &&& 0xff, (u16 (e1.Irqs >>> 16) >>> 8) &&& 0xff, 0]
          else []) ++
          [0xbf, e1.Irqs &&& 0xff, (e1.Irqs >>> 8) &&& 0xff, u8 x]) := by
  refine ⟨rfl, rfl, rfl, rfl, rfl, rfl, rfl, rfl, ?_, ?_, ?_, ?_⟩
  · simp [SampleQueueIsFull, ClearSampleQueue, QSIZE]
  · rintro ⟨h1, h4⟩
    have : e.SamplingChannels = 1 ∨ e.SamplingChannels = 2 ∨ e.SamplingChannels = 3 ∨
        e.SamplingChannels = 4 := by omega
    rcases this with h | h | h | h <;> simp [ClearSampleQueue, h]
  · rintro ⟨h5, h8⟩
    simp only [ClearSampleQueue]
    rw [if_neg (by omega), if_neg (by omega), if_neg (by omega), if_neg (by omega)]
  · intro e1 x hm
    have hsup : ¬ ((ClearSampleQueue e s0).firstSample = 0 ∧
        (ClearSampleQueue e s0).prevSample = u8 x) := by
      simp [ClearSampleQueue]
    obtain ⟨t, hrun, ht⟩ := enqueueSample_transition e1 (ClearSampleQueue e s0) x hm
      (clear_wellFormed e s0) (by simp only [hsup, if_false]; simp [ClearSampleQueue, QSIZE]; split <;> omega)
    simp only [hsup, if_false] at ht
    refine ⟨t, hrun, ?_⟩
    rw [ht.2.1]
    simp [contents, ClearSampleQueue]

/-- Claim C16: in continuous mode with 4 channels, from `ClearSampleQueue`,
for all samples `a` and `b`: `EnqueueSample(a)` returns 0 and leaves the queue
empty, and the following `EnqueueSample(b)` returns 0 and leaves exactly the
byte `(a & 0x0F) | ((b & 0x0F) << 4)` in the queue, with the accumulator and
fill offset back at 0; for `(0x3, 0x5)` that byte is `0x53`. -/
theorem four_channel_stacking (i0 i1 i2 : Nat) (s0 : QState) (a b : Nat) :
    ∃ t1 t2,
      EnqueueSample ⟨4, SAMPLING_MODE_CONTINUOUS, i1⟩
        (ClearSampleQueue ⟨4, SAMPLING_MODE_CONTINUOUS, i0⟩ s0) a = some (t1, 0) ∧
      t1.qCount = 0 ∧ contents t1 = [] ∧
      EnqueueSample ⟨4, SAMPLING_MODE_CONTINUOUS, i2⟩ t1 b = some (t2, 0) ∧
      t2.qCount = 1 ∧ contents t2 = [(a &&& 0x0F) ||| ((b &&& 0x0F) <<< 4)] ∧
      t2.stackedSample = 0 ∧ t2.stackShift = 0 ∧
      ((0x3 : Nat) &&& 0x0F) ||| ((0x5 &&& 0x0F) <<< 4) = 0x53 := by
  obtain ⟨t1, t2, h⟩ := stack_two_of_four ⟨4, SAMPLING_MODE_CONTINUOUS, i1⟩
    ⟨4, SAMPLING_MODE_CONTINUOUS, i2⟩ (ClearSampleQueue ⟨4, SAMPLING_MODE_CONTINUOUS, i0⟩ s0) a b
    ⟨rfl, continuous_ne⟩ ⟨rfl, continuous_ne⟩ (clear_wellFormed _ s0) rfl rfl rfl rfl
  obtain ⟨h1, h2, h3, h4, h5, h6, h7, h8⟩ := h
  exact ⟨t1, t2, h1, h2, h3, h4, h5, h6, h7, h8, by decide⟩

/-- Claim C15, as the code behaves for 3 channels: in continuous mode, from
`ClearSampleQueue`, the samples 0, 0, 4 put one byte into the queue on the
third call, and that byte is 0: bit 2 of the third sample would be bit 8 of the
accumulator and is cut off by the `uint8_t`, so `(B >> 6) & 7` is 0 and not
the third sample's `4 & 7`. -/
theorem three_channel_stacking_drops_bit (i0 i1 i2 i3 : Nat) (s0 : QState) :
    ∃ t1 t2 t3,
      EnqueueSample ⟨3, SAMPLING_MODE_CONTINUOUS, i1⟩
        (ClearSampleQueue ⟨3, SAMPLING_MODE_CONTINUOUS, i0⟩ s0) 0 = some (t1, 0) ∧
      contents t1 = [] ∧
      EnqueueSample ⟨3, SAMPLING_MODE_CONTINUOUS, i2⟩ t1 0 = some (t2, 0) ∧
      contents t2 = [] ∧
      EnqueueSample ⟨3, SAMPLING_MODE_CONTINUOUS, i3⟩ t2 4 = some (t3, 0) ∧
      contents t3 = [0] ∧
      ((0 : Nat) >>> (2 * 3)) &&& (2 ^ 3 - 1) ≠ 4 &&& (2 ^ 3 - 1) := by
  obtain ⟨t1, t2, t3, h1, h2, h3, h4, h5, h6, -⟩ :=
    stack_three_of_three ⟨3, SAMPLING_MODE_CONTINUOUS, i1⟩ ⟨3, SAMPLING_MODE_CONTINUOUS, i2⟩
      ⟨3, SAMPLING_MODE_CONTINUOUS, i3⟩ (ClearSampleQueue ⟨3, SAMPLING_MODE_CONTINUOUS, i0⟩ s0)
      0 0 4 ⟨rfl, continuous_ne⟩ ⟨rfl, continuous_ne⟩ ⟨rfl, continuous_ne⟩
      (clear_wellFormed _ s0) rfl rfl rfl rfl
  refine ⟨t1, t2, t3, h1, h2, h3, h4, h5, ?_, by decide⟩
  rw [h6]
  decide


theorem transition_suppression_witness :
    (⟨8, 1, 0x1234⟩ : Env).SamplingMode = SAMPLING_MODE_TRANSITIONONLY ∧
    (⟨8, 1, 0x1234⟩ : Env).Irqs &&& 0xffff ≠ 0 ∧
    QWellFormed sampleState ∧ sampleState.qCount + 4 ≤ QSIZE ∧
    sampleState.firstSample = 0 ∧ sampleState.prevSample = u8 0 ∧
    EnqueueSample ⟨8, 1, 0x1234⟩ sampleState 0 = some (sampleState, 0) :=
  ⟨rfl, by decide, by simp [QWellFormed, sampleState, QSIZE], by decide, rfl, rfl,
   (transition_suppression ⟨8, 1, 0x1234⟩ sampleState 0 rfl (by decide)
     (by simp [QWellFormed, sampleState, QSIZE]) (by decide)).1 ⟨rfl, rfl⟩⟩

theorem digitChar_isdigit (k : Nat) (hk : k < 10) :
    isdigit (Nat.digitChar k) = true ∧ (Nat.digitChar k).toNat - 48 = k := by
  interval_cases k <;> exact ⟨by decide, by decide⟩

/-- The digit loop of `atoi` reads back the number that `Nat.toDigitsCore` wrote. -/
theorem atoiDigits_toDigitsCore (f : Nat) :
    ∀ (n : Nat) (acc : List Char), n < f →
      atoiDigits 0 (Nat.toDigitsCore 10 f n acc) = atoiDigits n acc := by
  induction f with
  | zero => intro n acc h; omega
  | succ f ih =>
    intro n acc h
    obtain ⟨hd, hv⟩ := digitChar_isdigit (n % 10) (Nat.mod_lt _ (by norm_num))
    simp only [Nat.toDigitsCore]
    split
    · rename_i h0
      simp only [atoiDigits, hd, if_true, hv]
      congr 1
      omega
    · rename_i h0
      rw [ih (n / 10) _ (by omega)]
      simp only [atoiDigits, hd, if_true, hv]
      congr 1
      omega

theorem toDigitsCore_head (f : Nat) :
    ∀ (n : Nat) (c : Char) (acc : List Char), isdigit c = true →
      ∃ c1 r, Nat.toDigitsCore 10 f n (c :: acc) = c1 :: r ∧ isdigit c1 = true := by
  induction f with
  | zero => intro n c acc h; exact ⟨c, acc, rfl, h⟩
  | succ f ih =>
    intro n c acc h
    obtain ⟨hd, -⟩ := digitChar_isdigit (n % 10) (Nat.mod_lt _ (by norm_num))
    simp only [Nat.toDigitsCore]
    split
    · exact ⟨_, _, rfl, hd⟩
    · exact ih _ _ _ hd

theorem toDigits_head (v : Nat) :
    ∃ c r, Nat.toDigits 10 v = c :: r ∧ isdigit c = true := by
  obtain ⟨hd, -⟩ := digitChar_isdigit (v % 10) (Nat.mod_lt _ (by norm_num))
  simp only [Nat.toDigits, Nat.toDigitsCore]
  split
  · exact ⟨_, _, rfl, hd⟩
  · exact toDigitsCore_head _ _ _ _ hd

/-- The function `atoi` on a number written in decimal. -/
theorem atoi_toDigits (v : Nat) (hv : v ≤ 2147483647) :
    atoi (Nat.toDigits 10 v) = some (v : Int) := by
  obtain ⟨c, r, hcr, hc⟩ := toDigits_head v
  have hval : atoiDigits 0 (Nat.toDigits 10 v) = v := by
    simp only [Nat.toDigits]
    rw [atoiDigits_toDigitsCore (v + 1) v [] (by omega)]
    rfl
  have hsp : isspace c = false := by
    simp only [isdigit, decide_eq_true_eq] at hc
    simp only [isspace, decide_eq_false_iff_not]
    omega
  have hm : c ≠ '-' := by
    rintro rfl
    exact absurd hc (by decide)
  have hp : c ≠ '+' := by
    rintro rfl
    exact absurd hc (by decide)
  have hdrop : (Nat.toDigits 10 v).dropWhile isspace = Nat.toDigits 10 v := by
    rw [hcr, List.dropWhile_cons, hsp]
    rfl
  simp only [atoi, hdrop]
  have h1 : (Nat.toDigits 10 v).head? = some c := by rw [hcr]; rfl
  simp only [h1, Option.some.injEq, hm, hp, or_self, if_false, hval, decide_False]
  rw [if_pos (by omega)]

theorem toU32_natCast (v : Nat) (hv : v ≤ 2147483647) : toU32 (v : Int) = v := by
  simp only [toU32]
  omega

theorem names_toList :
    "START".toList = ['S', 'T', 'A', 'R', 'T'] ∧ "STOP".toList = ['S', 'T', 'O', 'P'] ∧
    "COPY".toList = ['C', 'O', 'P', 'Y'] ∧ "PING".toList = ['P', 'I', 'N', 'G'] ∧
    "CHAN=".toList = ['C', 'H', 'A', 'N', '='] ∧ "RATE=".toList = ['R', 'A', 'T', 'E', '='] ∧
    "TIME=".toList = ['T', 'I', 'M', 'E', '='] :=
  ⟨rfl, rfl, rfl, rfl, rfl, rfl, rfl⟩

/-- The line `CHAN=v`. -/
theorem settingLine_chan (v : Nat) (hv : v ≤ 2147483647) (st : Settings) :
    ProcessCommands (settingLine "CHAN=" v) st =
      some (if 1 ≤ v ∧ v ≤ 8 then { st with SamplingChannels := v } else st) := by
  obtain ⟨h1, h2, h3, h4, h5, h6, h7⟩ := names_toList
  simp only [ProcessCommands, settingLine, strcmpEq, strncmpEq, h1, h2, h3, h4, h5, h6, h7]
  simp [atoi_toDigits v hv, toU32_natCast v hv]
  split
  · rename_i h
    have : u8 v = v := by simp only [u8]; omega
    rw [this]
  · rfl

/-- The line `RATE=v`. -/
theorem settingLine_rate (v : Nat) (hv : v ≤ 2147483647) (st : Settings) :
    ProcessCommands (settingLine "RATE=" v) st =
      some (if 10 < v ∧ v < 10000000 then { st with SamplingRate := v } else st) := by
  obtain ⟨h1, h2, h3, h4, h5, h6, h7⟩ := names_toList
  simp only [ProcessCommands, settingLine, strcmpEq, strncmpEq, h1, h2, h3, h4, h5, h6, h7]
  simp [atoi_toDigits v hv, toU32_natCast v hv]
  split
  · rename_i h
    have : u32 v = v := by simp only [u32]; omega
    rw [this]
  · rfl

/-- The line `TIME=v`: the value is stored in the `uint16_t SamplingTime`. -/
theorem settingLine_time (v : Nat) (hv : v ≤ 2147483647) (st : Settings) :
    ProcessCommands (settingLine "TIME=" v) st =
      some (if 10 < v ∧ v < 100000 then { st with SamplingTime := v % 65536 } else st) := by
  obtain ⟨h1, h2, h3, h4, h5, h6, h7⟩ := names_toList
  simp only [ProcessCommands, settingLine, strcmpEq, strncmpEq, h1, h2, h3, h4, h5, h6, h7]
  simp [atoi_toDigits v hv, toU32_natCast v hv, u16]

/-- Claim C21, as the code behaves: `ProcessCommands` commits `CHAN=v` exactly
for `1 <= v <= 8`, but `RATE=v` exactly for `10 < v < 10,000,000` and `TIME=v`
exactly for `10 < v < 100,000` (stored modulo 65536), and leaves the settings
as they are otherwise; the bounds 10 and 10,000,000 of the rate and 10 and
100,000 of the time, which the comments in the code name as minimum and
maximum, are rejected. -/
theorem setting_ranges (st : Settings) :
    (∀ v, v ≤ 2147483647 → ProcessCommands (settingLine "CHAN=" v) st =
      some (if 1 ≤ v ∧ v ≤ 8 then { st with SamplingChannels := v } else st)) ∧
    (∀ v, v ≤ 2147483647 → ProcessCommands (settingLine "RATE=" v) st =
      some (if 10 < v ∧ v < 10000000 then { st with SamplingRate := v } else st)) ∧
    (∀ v, v ≤ 2147483647 → ProcessCommands (settingLine "TIME=" v) st =
      some (if 10 < v ∧ v < 100000 then { st with SamplingTime := v % 65536 } else st)) ∧
    ProcessCommands (some "RATE=10".toList) st = some st ∧
    ProcessCommands (some "RATE=10000000".toList) st = some st ∧
    ProcessCommands (some "TIME=10".toList) st = some st ∧
    ProcessCommands (some "TIME=100000".toList) st = some st ∧
    ProcessCommands (some "RATE=11".toList) st = some { st with SamplingRate := 11 } ∧
    ProcessCommands (some "TIME=11".toList) st = some { st with SamplingTime := 11 } := by
  refine ⟨fun v hv => settingLine_chan v hv st, fun v hv => settingLine_rate v hv st,
    fun v hv => settingLine_time v hv st, ?_, ?_, ?_, ?_, ?_, ?_⟩
  · exact settingLine_rate 10 (by norm_num) st
  · exact settingLine_rate 10000000 (by norm_num) st
  · exact settingLine_time 10 (by norm_num) st
  · exact settingLine_time 100000 (by norm_num) st
  · exact settingLine_rate 11 (by norm_num) st
  · exact settingLine_time 11 (by norm_num) st

/-- Claim C28, as the code behaves: a value `v` that `ProcessCommands` accepts
from `TIME=v` is stored in the `uint16_t SamplingTime` as `v mod 65536`, which
is `v` only for `v <= 65535`; `TIME=70000` is accepted and leaves
`SamplingTime` at 4464, so the test of `SampleLoop` ends the session once more
than 4464 ms have passed. -/
theorem session_duration_truncated (st : Settings) :
    (∀ v, 10 < v → v < 100000 →
      ∃ st1, ProcessCommands (settingLine "TIME=" v) st = some st1 ∧
        st1.SamplingTime = v % 65536 ∧ (st1.SamplingTime = v ↔ v ≤ 65535)) ∧
    (∃ st1, ProcessCommands (some "TIME=70000".toList) st = some st1 ∧
      st1.SamplingTime = 4464 ∧
      sampleTimeIsUp { st1 with SamplingActive := 1 } 4464 0 = false ∧
      sampleTimeIsUp { st1 with SamplingActive := 1 } 4465 0 = true) := by
  constructor
  · intro v h1 h2
    refine ⟨_, settingLine_time v (by omega) st, ?_, ?_⟩
    · rw [if_pos ⟨h1, h2⟩]
    · rw [if_pos ⟨h1, h2⟩]
      show v % 65536 = v ↔ v ≤ 65535
      omega
  · refine ⟨_, settingLine_time 70000 (by norm_num) st, ?_, ?_, ?_⟩
    · rw [if_pos (by norm_num)]
    · rw [if_pos (by norm_num)]
      simp [sampleTimeIsUp, u32]
    · rw [if_pos (by norm_num)]
      simp [sampleTimeIsUp, u32]

/-! ## The timer interrupt against the main loop -/

theorem dequeueStatements_succ (n k : Nat) (m : QState × Nat) :
    dequeueStatements (n + 1) k m =
      (dequeueStatement k m).bind fun m1 => dequeueStatements n (k + 1) m1 := rfl

theorem dequeueStatement_zero (m : QState × Nat) (hh : m.1.qHead < QSIZE) :
    dequeueStatement 0 m =
      some ({ m.1 with qHead := u32 (m.1.qHead + 1) }, m.1.queue m.1.qHead) := by
  have : ¬ (m.1.qHead ≥ QSIZE) := by omega
  simp only [dequeueStatement, if_true, this, if_false]

theorem dequeueStatement_one (m : QState × Nat) :
    dequeueStatement 1 m =
      some ({ m.1 with qHead := if m.1.qHead = QSIZE then 0 else m.1.qHead }, m.2) := rfl

theorem dequeueStatement_two (m : QState × Nat) (hb : m.1.enqueueBusy = 0) :
    dequeueStatement 2 m = some m := by
  show (if m.1.enqueueBusy ≠ 0 then none else some m) = some m
  rw [if_neg (by simp [hb])]

theorem dequeueStatement_three (m : QState × Nat) :
    dequeueStatement 3 m = some ({ m.1 with dequeueBusy := 1 }, m.2) := rfl

theorem dequeueStatement_four (m : QState × Nat) :
    dequeueStatement 4 m =
      some ({ m.1 with qCount := if m.1.qCount = 0 then 4294967295 else m.1.qCount - 1 },
        m.2) := rfl

theorem dequeueStatement_five (m : QState × Nat) :
    dequeueStatement 5 m = some ({ m.1 with dequeueBusy := 0 }, m.2) := rfl

theorem dequeueStatement_rest (k : Nat) (m : QState × Nat) (hk : 6 ≤ k) :
    dequeueStatement k m = some m := by
  have h0 : ¬ k = 0 := by omega
  have h1 : ¬ k = 1 := by omega
  have h2 : ¬ k = 2 := by omega
  have h3 : ¬ k = 3 := by omega
  have h4 : ¬ k = 4 := by omega
  have h5 : ¬ k = 5 := by omega
  simp only [dequeueStatement, h0, h1, h2, h3, h4, h5, if_false]

/-- A statement of `DequeueSample` returns when `qHead` is within the array
and the producer flag is released; it leaves `qTail`, `enqueueBusy` and
`Overflow` as they are, keeps `qHead` within the array from the second
statement on, and before `dequeueBusy = 1` it leaves `qCount` and
`dequeueBusy` as they are. -/
theorem dequeueStatement_returns (k : Nat) (m : QState × Nat)
    (hh : m.1.qHead < QSIZE ∨ (0 < k ∧ m.1.qHead ≤ QSIZE)) (hb : m.1.enqueueBusy = 0) :
    ∃ m1, dequeueStatement k m = some m1 ∧ m1.1.enqueueBusy = 0 ∧ m1.1.qTail = m.1.qTail ∧
      m1.1.Overflow = m.1.Overflow ∧ m1.1.qHead ≤ QSIZE ∧
      (k < 3 → m1.1.qCount = m.1.qCount ∧ m1.1.dequeueBusy = m.1.dequeueBusy) := by
  have hcases : k = 0 ∨ k = 1 ∨ k = 2 ∨ k = 3 ∨ k = 4 ∨ k = 5 ∨ 6 ≤ k := by omega
  have hle : m.1.qHead ≤ QSIZE := by rcases hh with h | h <;> omega
  rcases hcases with rfl | rfl | rfl | rfl | rfl | rfl | h6
  · have hlt : m.1.qHead < QSIZE := by rcases hh with h | h <;> omega
    refine ⟨_, dequeueStatement_zero m hlt, hb, rfl, rfl, ?_, fun _ => ⟨rfl, rfl⟩⟩
    simp only [QSIZE, u32] at hlt ⊢
    omega
  · refine ⟨_, dequeueStatement_one m, hb, rfl, rfl, ?_, fun _ => ⟨rfl, rfl⟩⟩
    show (if m.1.qHead = QSIZE then 0 else m.1.qHead) ≤ QSIZE
    split <;> omega
  · exact ⟨_, dequeueStatement_two m hb, hb, rfl, rfl, hle, fun _ => ⟨rfl, rfl⟩⟩
  · exact ⟨_, dequeueStatement_three m, hb, rfl, rfl, hle, fun h => absurd h (by norm_num)⟩
  · exact ⟨_, dequeueStatement_four m, hb, rfl, rfl, hle, fun h => absurd h (by norm_num)⟩
  · exact ⟨_, dequeueStatement_five m, hb, rfl, rfl, hle, fun h => absurd h (by norm_num)⟩
  · exact ⟨_, dequeueStatement_rest k m h6, hb, rfl, rfl, hle, fun h => absurd h (by omega)⟩

/-- A run of statements of `DequeueSample` returns under the same conditions. -/
theorem dequeueStatements_return (n : Nat) :
    ∀ (k : Nat) (m : QState × Nat),
      (m.1.qHead < QSIZE ∨ (0 < k ∧ m.1.qHead ≤ QSIZE)) → m.1.enqueueBusy = 0 →
      ∃ m1, dequeueStatements n k m = some m1 ∧ m1.1.enqueueBusy = 0 ∧
        m1.1.qTail = m.1.qTail ∧ m1.1.Overflow = m.1.Overflow ∧ m1.1.qHead ≤ QSIZE ∧
        (k + n ≤ 3 → m1.1.qCount = m.1.qCount ∧ m1.1.dequeueBusy = m.1.dequeueBusy) := by
  induction n with
  | zero =>
    intro k m hh hb
    refine ⟨m, rfl, hb, rfl, rfl, ?_, fun _ => ⟨rfl, rfl⟩⟩
    rcases hh with h | h <;> omega
  | succ n ih =>
    intro k m hh hb
    obtain ⟨m1, e1, b1, t1, o1, q1, c1⟩ := dequeueStatement_returns k m hh hb
    obtain ⟨m2, e2, b2, t2, o2, q2, c2⟩ := ih (k + 1) m1 (Or.inr ⟨by omega, q1⟩) b1
    refine ⟨m2, ?_, b2, by rw [t2, t1], by rw [o2, o1], q2, ?_⟩
    · rw [dequeueStatements_succ, e1, Option.some_bind, e2]
    · intro h
      obtain ⟨c1a, c1b⟩ := c1 (by omega)
      obtain ⟨c2a, c2b⟩ := c2 (by omega)
      exact ⟨by rw [c2a, c1a], by rw [c2b, c1b]⟩

/-- The interrupt handler in continuous mode with more than 4 channels is one
call of `enqueueByte`. -/
theorem irqHandler_continuous (e : Env) (s : QState) (pins : Nat)
    (hmode : e.SamplingMode = SAMPLING_MODE_CONTINUOUS) (hch : 4 < e.SamplingChannels) :
    TIM2_IRQHandler e s pins =
      (enqueueByte s (u8 pins)).map fun r => ({ e with Irqs := u32 (e.Irqs + 1) }, r.1) := by
  have h1 : ¬ (SAMPLING_MODE_CONTINUOUS = SAMPLING_MODE_TRANSITIONONLY) := by decide
  have h2 : ¬ (e.SamplingChannels ≤ 4) := by omega
  simp only [TIM2_IRQHandler, EnqueueSample, enqueueRecord, hmode, h1, if_false, h2]
  cases enqueueByte s (u8 pins) <;> rfl

/-- The function `enqueueByte` returns when the consumer flag is released, and spins for
ever when the flag is set and the queue is not full. -/
theorem enqueueByte_flag (s : QState) (b : Nat) (ht : s.qTail < QSIZE) :
    (s.dequeueBusy = 0 → ∃ t r, enqueueByte s b = some (t, r) ∧
      (s.enqueueBusy = 0 → t.enqueueBusy = 0) ∧ t.qHead = s.qHead) ∧
    (s.dequeueBusy ≠ 0 → s.qCount < QSIZE → enqueueByte s b = none) := by
  have ht1 : ¬ (s.qTail ≥ QSIZE) := by omega
  constructor
  · intro hb
    have hb1 : ¬ (s.dequeueBusy ≠ 0) := by simp [hb]
    by_cases hc : s.qCount ≥ QSIZE
    · exact ⟨{ s with Overflow := 1 }, u16 65535, by simp only [enqueueByte, hc, if_true],
        fun h => h, rfl⟩
    · refine ⟨{ s with
          queue := Function.update s.queue s.qTail (u8 b),
          qTail := if u32 (s.qTail + 1) = QSIZE then 0 else u32 (s.qTail + 1),
          qCount := u32 (s.qCount + 1), enqueueBusy := 0 }, 0, ?_, fun _ => rfl, rfl⟩
      simp only [enqueueByte, hc, if_false, ht1, hb1]
  · intro hb hc
    have hc1 : ¬ (s.qCount ≥ QSIZE) := by omega
    simp only [enqueueByte, hc1, if_false, ht1]
    rw [if_pos hb]

theorem dequeueStatements_six (m : QState × Nat) :
    dequeueStatements 6 0 m =
      (dequeueStatement 0 m).bind fun m1 =>
      (dequeueStatement 1 m1).bind fun m2 =>
      (dequeueStatement 2 m2).bind fun m3 =>
      (dequeueStatement 3 m3).bind fun m4 =>
      (dequeueStatement 4 m4).bind fun m5 =>
      (dequeueStatement 5 m5).bind fun m6 => some m6 := rfl

theorem dequeueStatements_upto_four (m : QState × Nat) :
    dequeueStatements 4 0 m =
      (dequeueStatement 0 m).bind fun m1 =>
      (dequeueStatement 1 m1).bind fun m2 =>
      (dequeueStatement 2 m2).bind fun m3 =>
      (dequeueStatement 3 m3).bind fun m4 => some m4 := rfl

theorem dequeueStatements_upto_five (m : QState × Nat) :
    dequeueStatements 5 0 m =
      (dequeueStatement 0 m).bind fun m1 =>
      (dequeueStatement 1 m1).bind fun m2 =>
      (dequeueStatement 2 m2).bind fun m3 =>
      (dequeueStatement 3 m3).bind fun m4 =>
      (dequeueStatement 4 m4).bind fun m5 => some m5 := rfl

/-- The six statements of `DequeueSample`, one after the other, are the call. -/
theorem dequeueStatements_all (s : QState) (hw : QWellFormed s) (h0 : 0 < s.qCount) :
    dequeueStatements 6 0 (s, 0) = DequeueSample s := by
  obtain ⟨h1, h2, h3, h4, h5, h6⟩ := hw
  rw [dequeueSample_nonempty_eq s ⟨h1, h2, h3, h4, h5, h6⟩ h0]
  have hh := h2
  simp only [QSIZE] at h1 h2 h3 h4
  have e1 : (s.qHead + 1) % 4294967296 = s.qHead + 1 := by omega
  have hne : ¬ (s.qCount = 0) := by omega
  rw [dequeueStatements_six, dequeueStatement_zero (s, 0) hh, Option.some_bind,
    dequeueStatement_one, Option.some_bind, dequeueStatement_two _ h5, Option.some_bind,
    dequeueStatement_three, Option.some_bind, dequeueStatement_four, Option.some_bind,
    dequeueStatement_five, Option.some_bind]
  simp only [u32, e1, QSIZE, hne, if_false]

/-- Claim C22, as the code behaves: in continuous mode with more than 4
channels, for a queue that is not empty, a timer interrupt taken during
`DequeueSample` after `dequeueBusy = 1` and before `dequeueBusy = 0` (after 4
or 5 of its six statements) enters `while (dequeueBusy);` in `enqueueByte`,
which has no exit since the main loop does not run during the handler: the
handler does not return, unless the queue is full at that point, where the
enqueue fails and sets `Overflow`.  At every other point of `DequeueSample`
the handler returns. -/
theorem interrupt_spins_during_dequeue (e : Env) (s : QState) (pins : Nat)
    (hw : QWellFormed s) (h0 : 0 < s.qCount)
    (hmode : e.SamplingMode = SAMPLING_MODE_CONTINUOUS) (hch : 4 < e.SamplingChannels) :
    dequeueStatements 6 0 (s, 0) = DequeueSample s ∧
    (∃ m, dequeueStatements 4 0 (s, 0) = some m ∧ m.1.dequeueBusy = 1 ∧
      (s.qCount < QSIZE → TIM2_IRQHandler e m.1 pins = none)) ∧
    (∃ m, dequeueStatements 5 0 (s, 0) = some m ∧ m.1.dequeueBusy = 1 ∧
      TIM2_IRQHandler e m.1 pins = none) ∧
    (s.qCount < QSIZE → dequeueInterrupted 4 e s pins = none) ∧
    dequeueInterrupted 5 e s pins = none ∧
    (s.qCount = QSIZE → ∃ r, dequeueInterrupted 4 e s pins = some r ∧ r.2.1.Overflow = 1) ∧
    (∀ n, n ≤ 3 ∨ n = 6 → ∃ r, dequeueInterrupted n e s pins = some r) := by
  have hall := dequeueStatements_all s hw h0
  have hw0 := hw
  obtain ⟨h1, h2, h3, h4, h5, h6⟩ := hw
  have hne : ¬ (s.qCount = 0) := by omega
  have p4 : dequeueStatements 4 0 (s, 0) = some ({ s with
      qHead := if u32 (s.qHead + 1) = QSIZE then 0 else u32 (s.qHead + 1), dequeueBusy := 1 },
      s.queue s.qHead) := by
    rw [dequeueStatements_upto_four, dequeueStatement_zero (s, 0) h2, Option.some_bind,
      dequeueStatement_one, Option.some_bind, dequeueStatement_two _ h5, Option.some_bind,
      dequeueStatement_three, Option.some_bind]
  have p5 : dequeueStatements 5 0 (s, 0) = some ({ s with
      qHead := if u32 (s.qHead + 1) = QSIZE then 0 else u32 (s.qHead + 1), dequeueBusy := 1,
      qCount := s.qCount - 1 },
      s.queue s.qHead) := by
    rw [dequeueStatements_upto_five, dequeueStatement_zero (s, 0) h2, Option.some_bind,
      dequeueStatement_one, Option.some_bind, dequeueStatement_two _ h5, Option.some_bind,
      dequeueStatement_three, Option.some_bind, dequeueStatement_four, Option.some_bind]
    simp only [hne, if_false]
  have s4 : s.qCount < QSIZE → TIM2_IRQHandler e { s with
      qHead := if u32 (s.qHead + 1) = QSIZE then 0 else u32 (s.qHead + 1), dequeueBusy := 1 }
      pins = none := by
    intro hroom
    rw [irqHandler_continuous e _ pins hmode hch,
      (enqueueByte_flag { s with
        qHead := if u32 (s.qHead + 1) = QSIZE then 0 else u32 (s.qHead + 1), dequeueBusy := 1 } (u8 pins) h3).2 (by show (1 : Nat) ≠ 0; norm_num) hroom]
    rfl
  have s5 : TIM2_IRQHandler e { s with
      qHead := if u32 (s.qHead + 1) = QSIZE then 0 else u32 (s.qHead + 1), dequeueBusy := 1,
      qCount := s.qCount - 1 } pins = none := by
    rw [irqHandler_continuous e _ pins hmode hch,
      (enqueueByte_flag { s with
        qHead := if u32 (s.qHead + 1) = QSIZE then 0 else u32 (s.qHead + 1), dequeueBusy := 1,
        qCount := s.qCount - 1 } (u8 pins) h3).2 (by show (1 : Nat) ≠ 0; norm_num)
        (by show s.qCount - 1 < QSIZE; omega)]
    rfl
  refine ⟨hall, ⟨_, p4, rfl, s4⟩, ⟨_, p5, rfl, s5⟩, ?_, ?_, ?_, ?_⟩
  · intro hroom
    simp only [dequeueInterrupted, hne, if_false, p4, Option.some_bind, s4 hroom, Option.none_bind]
  · simp only [dequeueInterrupted, hne, if_false, p5, Option.some_bind, s5, Option.none_bind]
  · intro hfull
    simp only [dequeueInterrupted, hne, if_false, p4, Option.some_bind]
    rw [irqHandler_continuous e _ pins hmode hch,
      enqueueByte_full { s with
        qHead := if u32 (s.qHead + 1) = QSIZE then 0 else u32 (s.qHead + 1), dequeueBusy := 1 } (u8 pins) (by show QSIZE ≤ s.qCount; omega)]
    exact ⟨_, rfl, rfl⟩
  · intro n hn
    simp only [dequeueInterrupted, hne, if_false]
    rcases hn with hn | rfl
    · obtain ⟨m, em, bm, tm, -, qm, cm⟩ := dequeueStatements_return n 0 (s, 0) (Or.inl h2) h5
      obtain ⟨cq, cb⟩ := cm (by omega)
      obtain ⟨t, r, et, bt, ht⟩ := (enqueueByte_flag m.1 (u8 pins) (by rw [tm]; exact h3)).1
        (by rw [cb]; exact h6)
      obtain ⟨m2, em2, -⟩ := dequeueStatements_return (6 - n) n (t, m.2)
        (by
          rcases Nat.eq_zero_or_pos n with hz | hp
          · left
            subst hz
            have : m = (s, 0) := by
              have := em
              simp only [dequeueStatements] at this
              exact (Option.some.inj this).symm
            show t.qHead < QSIZE
            rw [ht, this]
            exact h2
          · right
            exact ⟨hp, by show t.qHead ≤ QSIZE; rw [ht]; exact qm⟩)
        (bt bm)
      rw [em, Option.some_bind, irqHandler_continuous e _ pins hmode hch, et]
      simp only [Option.map_some', Option.some_bind, em2]
      exact ⟨_, rfl⟩
    · rw [hall, dequeueSample_nonempty_eq s hw0 h0, Option.some_bind,
        irqHandler_continuous e _ pins hmode hch]
      obtain ⟨t, r, et, -, -⟩ := (enqueueByte_flag { s with
          qHead := if s.qHead + 1 = QSIZE then 0 else s.qHead + 1,
          qCount := s.qCount - 1, dequeueBusy := 0 } (u8 pins) h3).1 rfl
      rw [et]
      exact ⟨_, rfl⟩

theorem interrupt_spins_during_dequeue_witness :
    QWellFormed sampleState ∧ 0 < sampleState.qCount ∧
    (⟨8, SAMPLING_MODE_CONTINUOUS, 0⟩ : Env).SamplingMode = SAMPLING_MODE_CONTINUOUS ∧
    4 < (⟨8, SAMPLING_MODE_CONTINUOUS, 0⟩ : Env).SamplingChannels ∧
    dequeueInterrupted 5 ⟨8, SAMPLING_MODE_CONTINUOUS, 0⟩ sampleState 0xAA = none :=
  ⟨by simp [QWellFormed, sampleState, QSIZE], by decide, rfl, by decide,
   (interrupt_spins_during_dequeue ⟨8, SAMPLING_MODE_CONTINUOUS, 0⟩ sampleState 0xAA
     (by simp [QWellFormed, sampleState, QSIZE]) (by decide) rfl (by decide)).2.2.2.2.1⟩

/-! ## The table of hash table sizes -/

/-- In a table of size 1501 a probe that starts at a multiple of 79 with the
displacement `1501 - 79` only ever visits the 19 multiples of 79. -/
theorem sparseTable_probe (hc : Int) (hhc : hc ≠ 1) (fuel : Nat) :
    ∀ k : Nat, k < 19 → probe 1501 sparseTable hc fuel (79 * (k : Int)) 1422 = none := by
  induction fuel with
  | zero => intro k hk; rfl
  | succ fuel ih =>
    intro k hk
    obtain ⟨k1, hk1, hstep⟩ : ∃ k1 : Nat, k1 < 19 ∧
        (if toInt16 (79 * (k : Int) - 1422) < 0
          then toInt16 (toInt16 (79 * (k : Int) - 1422) + ((1501 : Nat) : Int))
          else toInt16 (79 * (k : Int) - 1422)) = 79 * (k1 : Int) := by
      by_cases h18 : k = 18
      · refine ⟨0, by norm_num, ?_⟩
        subst h18
        decide
      · refine ⟨k + 1, by omega, ?_⟩
        have h1 : toInt16 (79 * (k : Int) - 1422) = 79 * (k : Int) - 1422 := by
          simp only [toInt16]; omega
        rw [h1, if_pos (by omega)]
        simp only [toInt16]
        push_cast
        omega
    obtain ⟨slot, hslot, hval⟩ := slotOf_inRange (79 * (k1 : Int)) (by omega)
    have htbl : sparseTable slot = 1 := by
      have hv : slot.val = 79 * k1 := by exact_mod_cast hval
      simp only [sparseTable, hv]
      rw [if_pos]
      exact ⟨by omega, Nat.mul_mod_right 79 _⟩
    simp only [probe, hstep, hslot, Option.some_bind, htbl]
    rw [if_neg (fun h => hhc h.symm), if_neg (by norm_num)]
    exact ih k1 hk1

/-- Claim C24, as the code is: for every code width from 9 to 15 the entry
`primes[NBITS - 9]` is at least `2^NBITS` and is the smallest entry of the
list that is, and for `NBITS = 13` it is 9001, a prime, the size set by
`CompressInit` and the length of `hashTable` and `codeTable`; the entries for
the widths 9 and 11 to 15 are prime, but the entry 1501 for the width 10 is
`19 * 79`.  With that size a probe can go round 19 slots for ever while all
other slots are empty. -/
theorem primes_entry_composite (s0 : CState) :
    (∀ n, 9 ≤ n → n ≤ 15 → ∃ p, primes[n - MINBITS]? = some p ∧ 2 ^ n ≤ p ∧
      (∀ q ∈ primes, 2 ^ n ≤ q → p ≤ q) ∧ (n ≠ 10 → Nat.Prime p)) ∧
    primes[10 - MINBITS]? = some 1501 ∧ 1501 = 19 * 79 ∧ ¬ Nat.Prime 1501 ∧
    primes[NBITS - MINBITS]? = some 9001 ∧ TABLE_LEN = 9001 ∧
    (CompressInit s0).map (fun s => s.hashSize) = some 9001 ∧
    (∀ hc fuel, hc ≠ 1 → probe 1501 sparseTable hc fuel 79 (hashDisplacementOf 1501 79) = none) := by
  refine ⟨?_, rfl, rfl, by norm_num, rfl, rfl, ?_, ?_⟩
  · intro n h9 h15
    have hcases : n = 9 ∨ n = 10 ∨ n = 11 ∨ n = 12 ∨ n = 13 ∨ n = 14 ∨ n = 15 := by omega
    rcases hcases with rfl | rfl | rfl | rfl | rfl | rfl | rfl
    · exact ⟨601, rfl, by norm_num, by decide, fun _ => by norm_num⟩
    · exact ⟨1501, rfl, by norm_num, by decide, fun h => absurd rfl h⟩
    · exact ⟨2801, rfl, by norm_num, by decide, fun _ => by norm_num⟩
    · exact ⟨5003, rfl, by norm_num, by decide, fun _ => by norm_num⟩
    · exact ⟨9001, rfl, by norm_num, by decide, fun _ => by norm_num⟩
    · exact ⟨18013, rfl, by norm_num, by decide, fun _ => by norm_num⟩
    · exact ⟨35023, rfl, by norm_num, by decide, fun _ => by norm_num⟩
  · rw [compressInit_eq]
    rfl
  · intro hc fuel hne
    exact sparseTable_probe hc hne fuel 1 (by norm_num)

/-! ## Termination and bounds of the search -/

/-- A probe that stops within its budget stops in the same way with a larger
budget. -/
theorem probe_fuel_mono (hs : Nat) (tbl : Fin TABLE_LEN → Int) (hc d : Int) (r : Lookup) :
    ∀ (fuel : Nat) (i : Int), probe hs tbl hc fuel i d = some r →
      probe hs tbl hc (fuel + 1) i d = some r := by
  intro fuel
  induction fuel with
  | zero => intro i h; simp [probe] at h
  | succ fuel ih =>
    intro i h
    have hunf : ∀ n, probe hs tbl hc (n + 1) i d =
        (slotOf (if toInt16 (i - d) < 0 then toInt16 (toInt16 (i - d) + (hs : Int))
          else toInt16 (i - d))).bind fun slot =>
        if tbl slot = hc then some (Lookup.hit slot)
        else if tbl slot ≤ 0 then some (Lookup.miss slot)
        else probe hs tbl hc n (if toInt16 (i - d) < 0 then toInt16 (toInt16 (i - d) + (hs : Int))
          else toInt16 (i - d)) d := fun n => rfl
    rw [hunf] at h ⊢
    cases hslot : slotOf (if toInt16 (i - d) < 0 then toInt16 (toInt16 (i - d) + (hs : Int))
        else toInt16 (i - d)) with
    | none => rw [hslot] at h; simp at h
    | some slot =>
      rw [hslot] at h
      simp only [Option.some_bind] at h ⊢
      by_cases h1 : tbl slot = hc
      · simpa [h1] using h
      · by_cases h2 : tbl slot ≤ 0
        · simpa [h1, h2] using h
        · simp only [h1, h2, if_false] at h ⊢
          exact ih _ h

/-- The initial index and the displacement of the search in a running
compressor. -/
theorem hashIndex_bounds (s : CState) (dict : List (List Nat)) (b : Nat)
    (h : DictOk s dict) (hb : b < 256) :
    hashIndexOf s b ≤ 8191 ∧
    1 ≤ hashDisplacementOf s.hashSize (hashIndexOf s b) ∧
    hashDisplacementOf s.hashSize (hashIndexOf s b) ≤ 9000 := by
  have hent := dictOk_ent_lt s dict h
  have hx : (b <<< 5) ^^^ s.ent < 2 ^ 13 :=
    Nat.xor_lt_two_pow (shiftLeft_lt_two_pow b 8 5 (by norm_num; omega)) (by norm_num; omega)
  have hx' : (b <<< 5) ^^^ s.ent < 8192 := by simpa using hx
  have hsh : s.shift.toNat = 5 := by rw [h.shift_eq]; rfl
  simp only [hashIndexOf, hashDisplacementOf, hsh, h.hashSize_eq]
  refine ⟨by omega, ?_, ?_⟩ <;> split <;> omega

/-- The search of `CompressByte` written with the index and the displacement
in unbounded integers. -/
theorem lookup_eq (s : CState) (dict : List (List Nat)) (b : Nat)
    (h : DictOk s dict) (hb : b < 256) :
    lookup s b =
      (slotOf (hashIndexOf s b)).bind fun slot =>
        if s.hashTable slot = hashCodeOf s.ent b then some (Lookup.hit slot)
        else if s.hashTable slot ≥ 0 then
          probe s.hashSize s.hashTable (hashCodeOf s.ent b) s.hashSize (hashIndexOf s b)
            (hashDisplacementOf s.hashSize (hashIndexOf s b))
        else some (Lookup.miss slot) := by
  obtain ⟨hi, hd1, hd2⟩ := hashIndex_bounds s dict b h hb
  have hsh : ¬ s.shift < 0 := by rw [h.shift_eq]; norm_num
  have hidx : toInt16 ((hashIndexOf s b : Nat) : Int) = ((hashIndexOf s b : Nat) : Int) := by
    simp only [toInt16]; omega
  have hdd : toInt16 (hashDisplacementOf s.hashSize (hashIndexOf s b)) =
      hashDisplacementOf s.hashSize (hashIndexOf s b) := by
    simp only [toInt16]; omega
  have hlook : lookup s b =
      (slotOf (toInt16 ((hashIndexOf s b : Nat) : Int))).bind fun slot =>
        if s.hashTable slot = hashCodeOf s.ent b then some (Lookup.hit slot)
        else if s.hashTable slot ≥ 0 then
          probe s.hashSize s.hashTable (hashCodeOf s.ent b) s.hashSize
            (toInt16 ((hashIndexOf s b : Nat) : Int))
            (if toInt16 (hashDisplacementOf s.hashSize (toInt16 ((hashIndexOf s b : Nat) : Int))) < 0
              then toInt16 (-toInt16 (hashDisplacementOf s.hashSize
                (toInt16 ((hashIndexOf s b : Nat) : Int))))
              else toInt16 (hashDisplacementOf s.hashSize (toInt16 ((hashIndexOf s b : Nat) : Int))))
        else some (Lookup.miss slot) := by
    simp only [lookup, hsh, if_false]
    rfl
  rw [hlook, hidx, hdd, if_neg (by omega)]

/-- At most 7934 slots of the table are in use. -/
theorem dictOk_card (s : CState) (dict : List (List Nat)) (h : DictOk s dict) :
    (Finset.univ.filter fun i => s.hashTable i ≠ -1).card ≤ 7934 := by
  have hlen : dict.length ≤ 7934 := by have := h.free_eq; have := h.free_le; omega
  have hcode : ∀ i, s.hashTable i ≠ -1 → 257 ≤ s.codeTable i ∧ s.codeTable i - 257 < 7934 := by
    intro i hi
    obtain ⟨e, b, k, -, -, hk, -, hc, -⟩ := h.slots i hi
    omega
  have hmaps : ∀ i ∈ (Finset.univ.filter fun i => s.hashTable i ≠ -1),
      s.codeTable i - 257 ∈ Finset.range 7934 := by
    intro i hi
    exact Finset.mem_range.2 (hcode i (Finset.mem_filter.1 hi).2).2
  have hinj : Set.InjOn (fun i => s.codeTable i - 257)
      ((Finset.univ.filter fun i => s.hashTable i ≠ -1 : Finset (Fin TABLE_LEN)) :
        Set (Fin TABLE_LEN)) := by
    intro i hi j hj hij
    have hi' := (Finset.mem_filter.1 (Finset.mem_coe.1 hi)).2
    have hj' := (Finset.mem_filter.1 (Finset.mem_coe.1 hj)).2
    apply h.distinct i j hi' hj'
    have := (hcode i hi').1; have := (hcode j hj').1
    simp only at hij
    omega
  have hcard := Finset.card_le_card_of_injOn _ hmaps hinj
  rwa [Finset.card_range] at hcard

/-- Claim C25: in every state reached from `CompressInit` by `CompressByte`
calls and for every byte `b`, the table (of prime size 9001) has an empty slot,
at most 7934 slots being in use, the probe displacement is between 1 and 9000
and so not a multiple of the size, and the probe loop of `CompressByte`, when
it is entered (the first slot holds another key), stops within
`hashSize - 1 = 9000` passes; the call of `CompressByte` returns. -/
theorem probe_termination (s0 : CState) (input : List Nat) (b : Nat) :
    ∃ si s, CompressInit s0 = some si ∧ compressBytes si input = some s ∧
      s.hashSize = 9001 ∧ Nat.Prime s.hashSize ∧
      (∃ m, s.hashTable m = -1) ∧
      (Finset.univ.filter fun i => s.hashTable i ≠ -1).card ≤ 7934 ∧
      1 ≤ hashDisplacementOf s.hashSize (hashIndexOf s (u8 b)) ∧
      hashDisplacementOf s.hashSize (hashIndexOf s (u8 b)) ≤ 9000 ∧
      ¬ ((s.hashSize : Int) ∣ hashDisplacementOf s.hashSize (hashIndexOf s (u8 b))) ∧
      (∀ slot, slotOf (hashIndexOf s (u8 b)) = some slot →
        s.hashTable slot ≠ hashCodeOf s.ent (u8 b) → s.hashTable slot ≥ 0 →
        ∃ r, probe s.hashSize s.hashTable (hashCodeOf s.ent (u8 b)) (s.hashSize - 1)
            (hashIndexOf s (u8 b)) (hashDisplacementOf s.hashSize (hashIndexOf s (u8 b))) =
            some r ∧
          lookup s (u8 b) = some r) ∧
      ∃ s1, CompressByte s b = some s1 := by
  obtain ⟨s, hrun, hr⟩ := running_compressBytes input freshState running_fresh
  obtain ⟨s1, hstep, -, -⟩ := running_compressByte s b hr
  obtain ⟨⟨dict, hd⟩, -, -⟩ := hr
  obtain ⟨hi, hd1, hd2⟩ := hashIndex_bounds s dict (u8 b) hd (u8_lt b)
  obtain ⟨m, hm⟩ := dictOk_free_slot s dict hd
  have hsz := hd.hashSize_eq
  refine ⟨freshState, s, compressInit_eq s0, hrun, hsz, by rw [hsz]; exact prime_9001,
    ⟨m, hm⟩, dictOk_card s dict hd, hd1, hd2, ?_, ?_, s1, hstep⟩
  · rw [hsz] at hd1 hd2 ⊢
    intro hdvd
    have := Int.le_of_dvd (by omega) hdvd
    omega
  · intro slot hslot hne hocc
    rw [hsz] at hd1 hd2
    rw [hsz]
    have hrange : 0 ≤ ((hashIndexOf s (u8 b) : Nat) : Int) ∧
        ((hashIndexOf s (u8 b) : Nat) : Int) < 9001 := by omega
    have hsv : (slot.val : Int) = ((hashIndexOf s (u8 b) : Nat) : Int) := by
      obtain ⟨slot', hs', hv'⟩ := slotOf_inRange _ hrange
      rw [hs'] at hslot
      cases hslot
      exact hv'
    obtain ⟨j, hj1, hj2, hj⟩ := probe_reaches ((hashIndexOf s (u8 b) : Nat) : Int)
      (hashDisplacementOf 9001 (hashIndexOf s (u8 b))) (m.val : Int) ⟨hd1, hd2⟩
    have hmlt := m.isLt
    simp only [TABLE_LEN] at hmlt
    have hj9 : j ≠ 9001 := by
      rintro rfl
      have h1 : (((hashIndexOf s (u8 b) : Nat) : Int) -
          ((9001 : Nat) : Int) * hashDisplacementOf 9001 (hashIndexOf s (u8 b))) % 9001 =
          ((hashIndexOf s (u8 b) : Nat) : Int) := by
        push_cast
        omega
      rw [h1] at hj
      have hms : m = slot := by
        apply Fin.ext
        have : (m.val : Int) = (slot.val : Int) := by rw [hsv]; omega
        exact_mod_cast this
      rw [hms] at hm
      rw [hm] at hocc
      norm_num at hocc
    obtain ⟨r, hr1, -⟩ := probe_stops s.hashTable (hashCodeOf s.ent (u8 b))
      (hashDisplacementOf 9001 (hashIndexOf s (u8 b))) ⟨hd1, hd2⟩ 9000
      ((hashIndexOf s (u8 b) : Nat) : Int) hrange
      ⟨j, hj1, by omega, m, by rw [hj]; omega, Or.inr (by rw [hm]; norm_num)⟩
    refine ⟨r, hr1, ?_⟩
    rw [lookup_eq s dict (u8 b) hd (u8_lt b), hslot, Option.some_bind, if_neg hne, if_pos hocc, hsz]
    exact probe_fuel_mono 9001 s.hashTable _ _ r 9000 _ hr1

/-- The index stays within the table along the probe sequence, and no
intermediate value leaves the range of `int16_t`. -/
theorem probeIndex_bounds (i d : Int) (hi : 0 ≤ i ∧ i ≤ 9000) (hd : 1 ≤ d ∧ d ≤ 9000) (k : Nat) :
    0 ≤ probeIndex 9001 i d k ∧ probeIndex 9001 i d k ≤ 9000 := by
  induction k with
  | zero => exact hi
  | succ k ih =>
    simp only [probeIndex, probeNext]
    split <;> push_cast <;> omega

/-- Claim C26: `CompressInit` sets `shift = 5` and `hashSize = 9001`, and in
every state reached by `CompressByte` calls, for every byte `b`, the initial
index `(b << 5) ^ ent` is in `[0, 8191]`, the displacement is in `[1, 9000]`
(so within `[1, 9001]`), and every index produced by a pass of the probe loop
is in `[0, 9000]`, a slot of the 9001 elements of `hashTable` and `codeTable`;
the values assigned to the `int16_t` variables, with the intermediate
`hashIndex - hashDisplacement`, fit 16 bits, so that the `int16_t` arithmetic
of the code gives the same indices as unbounded integers.  The search and the
call of `CompressByte` return, which they would not on an access outside the
tables. -/
theorem table_index_bounds (s0 : CState) (input : List Nat) (b : Nat) :
    ∃ si s, CompressInit s0 = some si ∧ si.shift = 5 ∧ si.hashSize = 9001 ∧
      compressBytes si input = some s ∧ s.shift = 5 ∧ s.hashSize = 9001 ∧ TABLE_LEN = 9001 ∧
      hashIndexOf s (u8 b) = (u8 b <<< 5) ^^^ s.ent ∧
      hashIndexOf s (u8 b) ≤ 8191 ∧
      toInt16 (hashIndexOf s (u8 b)) = hashIndexOf s (u8 b) ∧
      1 ≤ hashDisplacementOf s.hashSize (hashIndexOf s (u8 b)) ∧
      hashDisplacementOf s.hashSize (hashIndexOf s (u8 b)) ≤ 9000 ∧
      toInt16 (hashDisplacementOf s.hashSize (hashIndexOf s (u8 b))) =
        hashDisplacementOf s.hashSize (hashIndexOf s (u8 b)) ∧
      (∀ k,
        0 ≤ probeIndex s.hashSize (hashIndexOf s (u8 b))
          (hashDisplacementOf s.hashSize (hashIndexOf s (u8 b))) k ∧
        probeIndex s.hashSize (hashIndexOf s (u8 b))
          (hashDisplacementOf s.hashSize (hashIndexOf s (u8 b))) k ≤ 9000 ∧
        (slotOf (probeIndex s.hashSize (hashIndexOf s (u8 b))
          (hashDisplacementOf s.hashSize (hashIndexOf s (u8 b))) k)).isSome = true ∧
        fitsInt16 (probeIndex s.hashSize (hashIndexOf s (u8 b))
            (hashDisplacementOf s.hashSize (hashIndexOf s (u8 b))) k -
          hashDisplacementOf s.hashSize (hashIndexOf s (u8 b))) = true ∧
        (if toInt16 (probeIndex s.hashSize (hashIndexOf s (u8 b))
              (hashDisplacementOf s.hashSize (hashIndexOf s (u8 b))) k -
            hashDisplacementOf s.hashSize (hashIndexOf s (u8 b))) < 0
          then toInt16 (toInt16 (probeIndex s.hashSize (hashIndexOf s (u8 b))
              (hashDisplacementOf s.hashSize (hashIndexOf s (u8 b))) k -
            hashDisplacementOf s.hashSize (hashIndexOf s (u8 b))) + (s.hashSize : Int))
          else toInt16 (probeIndex s.hashSize (hashIndexOf s (u8 b))
              (hashDisplacementOf s.hashSize (hashIndexOf s (u8 b))) k -
            hashDisplacementOf s.hashSize (hashIndexOf s (u8 b)))) =
          probeIndex s.hashSize (hashIndexOf s (u8 b))
            (hashDisplacementOf s.hashSize (hashIndexOf s (u8 b))) (k + 1)) ∧
      (∃ r, lookup s (u8 b) = some r) ∧
      ∃ s1, CompressByte s b = some s1 := by
  obtain ⟨s, hrun, hr⟩ := running_compressBytes input freshState running_fresh
  obtain ⟨s1, hstep, -, -⟩ := running_compressByte s b hr
  obtain ⟨⟨dict, hd⟩, -, -⟩ := hr
  obtain ⟨hi, hd1, hd2⟩ := hashIndex_bounds s dict (u8 b) hd (u8_lt b)
  obtain ⟨r, hlook, -⟩ := lookup_total s dict (u8 b) hd (u8_lt b)
  have hsz := hd.hashSize_eq
  have hsh : s.shift.toNat = 5 := by rw [hd.shift_eq]; rfl
  refine ⟨freshState, s, compressInit_eq s0, rfl, rfl, hrun, hd.shift_eq, hsz, rfl, ?_, hi, ?_,
    hd1, hd2, ?_, ?_, ⟨r, hlook⟩, s1, hstep⟩
  · simp only [hashIndexOf, hsh]
  · simp only [toInt16]; omega
  · simp only [toInt16]; omega
  · intro k
    rw [hsz] at hd1 hd2 ⊢
    obtain ⟨hk0, hk1⟩ := probeIndex_bounds ((hashIndexOf s (u8 b) : Nat) : Int)
      (hashDisplacementOf 9001 (hashIndexOf s (u8 b))) ⟨by omega, by omega⟩ ⟨hd1, hd2⟩ k
    refine ⟨hk0, hk1, ?_, ?_, ?_⟩
    · obtain ⟨slot, hslot, -⟩ := slotOf_inRange _ ⟨hk0, by omega⟩
      rw [hslot]
      rfl
    · simp only [fitsInt16, decide_eq_true_eq]
      omega
    · rw [probe_index _ _ ⟨hk0, by omega⟩ ⟨hd1, hd2⟩]
      simp only [probeIndex, probeNext]
      split <;> push_cast <;> omega

/-! ## The phrase with key 0 -/

/-- Claim C23, as the code behaves: the probe loop of `CompressByte` also stops
at a slot that holds the key 0, the key of the learned phrase `(0, 0)`, because
it tests `hashTable[hashIndex] <= 0`.  For the bytes
`0x20 0x01 0x00 0x00 0x40 0x02 0x00 0x00` after `CompressInit`: the fourth
byte stores the phrase `(0, 0)` in slot 9000 with code 259 and a lookup finds
it there; the search for the phrase `(64, 2)` at the sixth byte ends as a miss
at slot 9000 and the insertion overwrites the slot with code 261, with no
table reset (no code 256 is sent); at the eighth byte the phrase `(0, 0)` is not found any more (a
miss at slot 8999). -/
theorem zero_key_overwritten (s0 : CState) :
    hashCodeOf 0 0 = 0 ∧
    ((CompressInit s0).bind fun s => compressBytes s [0x20, 0x01, 0x00, 0x00]).map
      (fun s => (s.hashTable ⟨9000, by decide⟩, s.codeTable ⟨9000, by decide⟩, s.ent,
        lookup s 0)) =
      some (0, 259, 0, some (Lookup.hit ⟨9000, by decide⟩)) ∧
    ((CompressInit s0).bind fun s => compressBytes s [0x20, 0x01, 0x00, 0x00, 0x40]).map
      (fun s => (s.hashTable ⟨9000, by decide⟩, s.codeTable ⟨9000, by decide⟩, s.ent,
        lookup s 2)) =
      some (0, 259, 64, some (Lookup.miss ⟨9000, by decide⟩)) ∧
    ((CompressInit s0).bind fun s => compressBytes s [0x20, 0x01, 0x00, 0x00, 0x40, 0x02]).map
      (fun s => (s.hashTable ⟨9000, by decide⟩, s.codeTable ⟨9000, by decide⟩, s.freeEntry,
        s.codes)) =
      some (hashCodeOf 64 2, 261, 262, [0x20, 0x01, 0x00, 0x00, 0x40]) ∧
    ((CompressInit s0).bind fun s =>
        compressBytes s [0x20, 0x01, 0x00, 0x00, 0x40, 0x02, 0x00]).map
      (fun s => (s.ent, lookup s 0)) =
      some (0, some (Lookup.miss ⟨8999, by decide⟩)) ∧
    ((CompressInit s0).bind fun s =>
        compressBytes s [0x20, 0x01, 0x00, 0x00, 0x40, 0x02, 0x00, 0x00]).map
      (fun s => (s.hashTable ⟨8999, by decide⟩, s.codeTable ⟨8999, by decide⟩, s.codes)) =
      some (0, 263, [0x20, 0x01, 0x00, 0x00, 0x40, 0x02, 0x00]) := by
  simp only [compressInit_eq, Option.some_bind]
  refine ⟨by decide, by decide, by decide, by decide, by decide, by decide⟩

/-! ## Records and the free space of the queue -/

theorem contents_length (s : QState) : (contents s).length = s.qCount := by
  simp [contents]

theorem attempted_refl (s : QState) (hw : QWellFormed s) : Attempted s s [] :=
  ⟨hw, rfl, by simp, by simp, by simp⟩

/-- One more call of `enqueueByte`: the byte is appended when there is room,
and dropped with the overflow flag raised when there is none. -/
theorem attempted_step (s t : QState) (bs : List Nat) (b : Nat) (hs : s.qCount ≤ QSIZE)
    (h : Attempted s t bs) :
    ∃ t1 r, enqueueByte t b = some (t1, r) ∧ Attempted s t1 (bs ++ [u8 b]) ∧
      t1.firstSample = t.firstSample ∧ t1.prevSample = t.prevSample := by
  obtain ⟨hw, hh, hc, hq, ho⟩ := h
  have hlen : (bs.take (QSIZE - s.qCount)).length = min (QSIZE - s.qCount) bs.length :=
    List.length_take _ _
  by_cases hroom : t.qCount < QSIZE
  · obtain ⟨t1, h1, hw1, hc1, hq1, hh1, ho1, hf1, hp1, -⟩ := enqueueByte_room t b hw hroom
    have hfit : bs.length < QSIZE - s.qCount := by
      rw [hlen] at hq
      omega
    have htake : bs.take (QSIZE - s.qCount) = bs := List.take_of_length_le (by omega)
    have htake1 : (bs ++ [u8 b]).take (QSIZE - s.qCount) = bs ++ [u8 b] :=
      List.take_of_length_le (by simp; omega)
    refine ⟨t1, 0, h1, ⟨hw1, by rw [hh1, hh], ?_, ?_, ?_⟩, hf1, hp1⟩
    · rw [hc1, hc, htake, htake1, List.append_assoc]
    · rw [hq1, hq, htake, htake1]
      simp
      omega
    · rw [ho1, ho, if_neg (by omega), if_neg (by simp; omega)]
  · have hfull : QSIZE - s.qCount ≤ bs.length := by
      rw [hlen] at hq
      have := hw.1
      omega
    have htake1 : (bs ++ [u8 b]).take (QSIZE - s.qCount) = bs.take (QSIZE - s.qCount) :=
      List.take_append_of_le_length hfull
    refine ⟨_, _, enqueueByte_full t b (by omega), ⟨hw, hh, ?_, ?_, ?_⟩, rfl, rfl⟩
    · rw [htake1]; exact hc
    · rw [htake1]; exact hq
    · rw [if_pos (by simp; omega)]

/-- The encoder variables are not looked at by `enqueueByte`. -/
theorem attempted_encoder (s t : QState) (bs : List Nat) (a b : Nat) (h : Attempted s t bs) :
    Attempted s { t with firstSample := a, prevSample := b } bs := h

/-- Four calls of `enqueueByte` in a row, whatever the room. -/
theorem attempted_four {α : Type} (s t : QState) (bs : List Nat) (a b c d : Nat)
    (k : QState × Nat → Option α) (hs : s.qCount ≤ QSIZE) (h : Attempted s t bs) :
    ∃ t4 r4, Attempted s t4 (bs ++ [u8 a, u8 b, u8 c, u8 d]) ∧
      t4.firstSample = t.firstSample ∧ t4.prevSample = t.prevSample ∧
      ((enqueueByte t a).bind fun r1 =>
        (enqueueByte r1.1 b).bind fun r2 =>
        (enqueueByte r2.1 c).bind fun r3 =>
        (enqueueByte r3.1 d).bind k) = k (t4, r4) := by
  obtain ⟨t1, r1, e1, h1, f1, p1⟩ := attempted_step s t bs a hs h
  obtain ⟨t2, r2, e2, h2, f2, p2⟩ := attempted_step s t1 _ b hs h1
  obtain ⟨t3, r3, e3, h3, f3, p3⟩ := attempted_step s t2 _ c hs h2
  obtain ⟨t4, r4, e4, h4, f4, p4⟩ := attempted_step s t3 _ d hs h3
  refine ⟨t4, r4, ?_, by rw [f4, f3, f2, f1], by rw [p4, p3, p2, p1],
    by simp only [e1, e2, e3, e4, Option.some_bind]⟩
  simpa using h4

/-- A call of `EnqueueSample` in transition-only mode, whatever the room: it
returns, and it has called `enqueueByte` on the bytes of its records in
order. -/
theorem enqueueSample_attempted (e : Env) (s : QState) (x : Nat)
    (hm : e.SamplingMode = SAMPLING_MODE_TRANSITIONONLY) (hw : QWellFormed s) :
    ∃ t r, EnqueueSample e s x = some (t, r) ∧ Attempted s t (recordBytes e s x) := by
  have hs := hw.1
  have hmk : u8 ROLLOVER_MARKER = ROLLOVER_MARKER := by decide
  have hsk : u8 SAMPLE_MARKER = SAMPLE_MARKER := by decide
  have hz : u8 0 = 0 := by decide
  have hrec : ∀ t bs, Attempted s t bs → t.firstSample = s.firstSample →
      t.prevSample = s.prevSample →
      ∃ t1 r, enqueueRecord e t (u8 x) = some (t1, r) ∧
        Attempted s t1 (bs ++ (if s.firstSample = 0 ∧ s.prevSample = u8 x then []
          else [SAMPLE_MARKER, e.Irqs &&& 0xff, (e.Irqs >>> 8) &&& 0xff, u8 x])) := by
    intro t bs ht hf hp
    by_cases hsup : s.firstSample = 0 ∧ s.prevSample = u8 x
    · refine ⟨t, 0, ?_, by simpa [hsup] using ht⟩
      simp [enqueueRecord, hm, hf, hp, hsup]
    · obtain ⟨t4, r4, h4, -, -, hrun⟩ := attempted_four s
        { t with firstSample := 0, prevSample := u8 x }
        bs SAMPLE_MARKER (e.Irqs &&& 0xff) ((e.Irqs >>> 8) &&& 0xff) (u8 x)
        (fun r4 => some (r4.1, toInt16 r4.2)) hs (attempted_encoder s t bs 0 (u8 x) ht)
      refine ⟨t4, toInt16 r4, ?_, ?_⟩
      · simp only [enqueueRecord, hm, if_true, hf, hp, hsup, if_false]
        rw [hrun]
      · rw [hsk, u8_and_ff, u8_and_ff, u8_u8] at h4
        simpa [hsup] using h4
  by_cases hr : e.Irqs &&& 0xffff = 0
  · obtain ⟨t4, r4, h4, hf4, hp4, hrun⟩ := attempted_four s s [] ROLLOVER_MARKER
      (u16 (e.Irqs >>> 16) &&& 0xff) ((u16 (e.Irqs >>> 16) >>> 8) &&& 0xff) 0
      (fun r4 => enqueueRecord e r4.1 (u8 x)) hs (attempted_refl s hw)
    rw [hmk, u8_and_ff, u8_and_ff, hz] at h4
    have hrun1 : EnqueueSample e s x = enqueueRecord e t4 (u8 x) := by
      simp only [EnqueueSample, hm, if_true, hr]
      exact hrun
    obtain ⟨t1, r, h1, h2⟩ := hrec t4 _ h4 hf4 hp4
    refine ⟨t1, r, by rw [hrun1, h1], ?_⟩
    simpa [recordBytes, hr] using h2
  · have hrun1 : EnqueueSample e s x = enqueueRecord e s (u8 x) := by
      simp only [EnqueueSample, hm, if_true, hr, if_false]
    obtain ⟨t1, r, h1, h2⟩ := hrec s [] (attempted_refl s hw) rfl rfl
    refine ⟨t1, r, by rw [hrun1, h1], ?_⟩
    simpa [recordBytes, hr] using h2

theorem wholeRecords_append (a : List Nat) :
    ∀ b : List Nat, wholeRecords a = true → wholeRecords b = true →
      wholeRecords (a ++ b) = true := by
  induction a using wholeRecords.induct with
  | case1 => intro b _ hb; simpa using hb
  | case2 m x y z rest ih =>
    intro b ha hb
    simp only [wholeRecords, Bool.and_eq_true] at ha
    simp only [List.cons_append, wholeRecords, Bool.and_eq_true]
    exact ⟨ha.1, ih b ha.2 hb⟩
  | case3 l h1 h2 =>
    intro b ha
    exfalso
    unfold wholeRecords at ha
    split at ha
    · exact h1 rfl
    · exact h2 _ _ _ _ _ rfl
    · exact Bool.false_ne_true ha

theorem wholeRecords_length (a : List Nat) :
    wholeRecords a = true → a.length % 4 = 0 := by
  induction a using wholeRecords.induct with
  | case1 => intro _; rfl
  | case2 m x y z rest ih =>
    intro ha
    simp only [wholeRecords, Bool.and_eq_true] at ha
    have := ih ha.2
    simp only [List.length_cons]
    omega
  | case3 l h1 h2 =>
    intro ha
    exfalso
    unfold wholeRecords at ha
    split at ha
    · exact h1 rfl
    · exact h2 _ _ _ _ _ rfl
    · exact Bool.false_ne_true ha

/-- The bytes of the records of one call are whole records, at most eight
bytes. -/
theorem recordBytes_whole (e : Env) (s : QState) (x : Nat) :
    wholeRecords (recordBytes e s x) = true ∧ (recordBytes e s x).length ≤ 8 := by
  simp only [recordBytes]
  split <;> split <;> exact ⟨rfl, by simp⟩

/-- What a call of `EnqueueSample` in transition-only mode adds to the queue:
the bytes of its records as far as there is room; the overflow flag is raised
when they do not all fit, and is left as it is when they do. -/
theorem enqueueSample_added (e : Env) (s : QState) (x : Nat)
    (hm : e.SamplingMode = SAMPLING_MODE_TRANSITIONONLY) (hw : QWellFormed s) :
    ∃ t r, EnqueueSample e s x = some (t, r) ∧ QWellFormed t ∧
      (contents t).drop s.qCount = (recordBytes e s x).take (QSIZE - s.qCount) ∧
      t.qCount = s.qCount + ((recordBytes e s x).take (QSIZE - s.qCount)).length ∧
      t.Overflow = (if QSIZE - s.qCount < (recordBytes e s x).length then 1 else s.Overflow) := by
  obtain ⟨t, r, hrun, hw1, -, hc, hq, ho⟩ := enqueueSample_attempted e s x hm hw
  refine ⟨t, r, hrun, hw1, ?_, hq, ho⟩
  rw [hc, List.drop_left' (contents_length s)]

/-- One public call in transition-only mode: it returns, and if the overflow
flag is down after it, the flag was down before and the call has added whole
records. -/
theorem call_added (c : QCall) (s : QState) (hw : QWellFormed s) (htr : c.transitionOnly) :
    ∃ t, c.run s = some t ∧ QWellFormed t ∧
      (t.Overflow = 0 → s.Overflow = 0 ∧ wholeRecords (c.added s t) = true) := by
  have henq : ∀ (e : Env) (x : Nat), e.SamplingMode = SAMPLING_MODE_TRANSITIONONLY →
      ∃ t, (EnqueueSample e s x).map Prod.fst = some t ∧ QWellFormed t ∧
        (t.Overflow = 0 → s.Overflow = 0 ∧ wholeRecords ((contents t).drop s.qCount) = true) := by
    intro e x hm
    obtain ⟨t, r, hrun, hw1, hc, -, ho⟩ := enqueueSample_added e s x hm hw
    refine ⟨t, by rw [hrun]; rfl, hw1, ?_⟩
    intro h0
    by_cases hfit : QSIZE - s.qCount < (recordBytes e s x).length
    · rw [ho, if_pos hfit] at h0
      exact absurd h0 (by norm_num)
    · rw [ho, if_neg hfit] at h0
      rw [hc, List.take_of_length_le (by omega)]
      exact ⟨h0, (recordBytes_whole e s x).1⟩
  cases c with
  | enqueueSample e x => exact henq e x htr
  | enqueueFinalSample e => exact henq e _ htr
  | dequeueSample =>
    by_cases hc : 0 < s.qCount
    · obtain ⟨t, h1, hw1, -, -, ho, -⟩ := dequeueSample_nonempty s hw hc
      exact ⟨t, by simp [QCall.run, h1], hw1, fun h => ⟨by rw [← ho]; exact h, rfl⟩⟩
    · refine ⟨s, ?_, hw, fun h => ⟨h, rfl⟩⟩
      simp [QCall.run, DequeueSample, show s.qCount = 0 by omega]
  | sampleQueueIsEmpty => exact ⟨s, rfl, hw, fun h => ⟨h, rfl⟩⟩
  | sampleQueueIsFull => exact ⟨s, rfl, hw, fun h => ⟨h, rfl⟩⟩

theorem runCallsLog_whole (calls : List QCall) :
    ∀ s : QState, QWellFormed s → (∀ c ∈ calls, c.transitionOnly) →
      ∃ t log, runCallsLog s calls = some (t, log) ∧ QWellFormed t ∧
        (t.Overflow = 0 → s.Overflow = 0 ∧ wholeRecords log = true) := by
  induction calls with
  | nil => intro s hw _; exact ⟨s, [], rfl, hw, fun h => ⟨h, rfl⟩⟩
  | cons c rest ih =>
    intro s hw htr
    obtain ⟨s1, h1, hw1, hstep⟩ := call_added c s hw (htr c (List.mem_cons_self _ _))
    obtain ⟨t, log, h2, hw2, hrest⟩ := ih s1 hw1 (fun c' hc' => htr c' (List.mem_cons_of_mem _ hc'))
    refine ⟨t, c.added s s1 ++ log, by simp [runCallsLog, h1, h2], hw2, ?_⟩
    intro h0
    obtain ⟨h3, h4⟩ := hrest h0
    obtain ⟨h5, h6⟩ := hstep h3
    exact ⟨h5, wholeRecords_append _ _ h6 h4⟩

/-- Claim C27, amended: in transition-only mode every sequence of public calls
after `ClearSampleQueue` returns, and as long as `Overflow` is 0 the bytes
enqueued since `ClearSampleQueue` are a sequence of whole 4-byte records, each
starting with `0xbe` or `0xbf`, and their number is a multiple of 4.  A call
of `EnqueueSample` adds the bytes of its records as far as there is room: all
of them, whole records, with `Overflow` left as it is, when 8 bytes are free;
a record is cut short, the rest dropped and `Overflow` set to 1, when the free
space is less than the records of the call need. -/
theorem record_atomicity (e0 : Env) (s0 : QState) (calls : List QCall)
    (htr : ∀ c ∈ calls, c.transitionOnly) :
    ∃ t log, runCallsLog (ClearSampleQueue e0 s0) calls = some (t, log) ∧
      (t.Overflow = 0 → wholeRecords log = true ∧ log.length % 4 = 0) ∧
      ∀ (e : Env) (x : Nat), e.SamplingMode = SAMPLING_MODE_TRANSITIONONLY →
        ∃ u r, EnqueueSample e t x = some (u, r) ∧
          (contents u).drop t.qCount = (recordBytes e t x).take (QSIZE - t.qCount) ∧
          wholeRecords (recordBytes e t x) = true ∧
          (t.qCount + 8 ≤ QSIZE →
            (contents u).drop t.qCount = recordBytes e t x ∧ u.Overflow = t.Overflow) ∧
          (QSIZE - t.qCount < (recordBytes e t x).length → u.Overflow = 1) := by
  obtain ⟨t, log, hrun, hw, hwhole⟩ := runCallsLog_whole calls _ (clear_wellFormed e0 s0) htr
  refine ⟨t, log, hrun, ?_, ?_⟩
  · intro h0
    obtain ⟨-, h1⟩ := hwhole h0
    exact ⟨h1, wholeRecords_length log h1⟩
  · intro e x hm
    obtain ⟨u, r, h1, -, hc, -, ho⟩ := enqueueSample_added e t x hm hw
    obtain ⟨hwr, hlen⟩ := recordBytes_whole e t x
    refine ⟨u, r, h1, hc, hwr, ?_, ?_⟩
    · intro hroom
      rw [hc, ho, List.take_of_length_le (by omega), if_neg (by omega)]
      exact ⟨rfl, rfl⟩
    · intro hcut
      rw [ho, if_pos hcut]

theorem runCallsLog_cons (s : QState) (c : QCall) (rest : List QCall) :
    runCallsLog s (c :: rest) =
      (c.run s).bind fun t => (runCallsLog t rest).map fun p => (p.1, c.added s t ++ p.2) := rfl

theorem runCallsLog_append (a b : List QCall) :
    ∀ s : QState, runCallsLog s (a ++ b) =
      (runCallsLog s a).bind fun p => (runCallsLog p.1 b).map fun q => (q.1, p.2 ++ q.2) := by
  induction a with
  | nil =>
    intro s
    simp only [List.nil_append, runCallsLog, Option.some_bind]
    cases runCallsLog s b <;> rfl
  | cons c rest ih =>
    intro s
    rw [List.cons_append, runCallsLog_cons, runCallsLog_cons]
    cases c.run s with
    | none => rfl
    | some t =>
      rw [Option.some_bind, Option.some_bind, ih t]
      cases runCallsLog t rest with
      | none => rfl
      | some p =>
        rw [Option.some_bind, Option.map_some', Option.some_bind]
        cases runCallsLog p.1 b with
        | none => rfl
        | some q => simp only [Option.map_some', List.append_assoc]

/-- The alternating samples fill the queue record by record: after `n` of
them, up to 1024, the queue holds `4 * n` bytes. -/
theorem fillCalls_run (e0 : Env) (s0 : QState) (n : Nat) (hn : n ≤ 1024) :
    ∃ t log, runCallsLog (ClearSampleQueue e0 s0) (fillCalls n) = some (t, log) ∧
      QWellFormed t ∧ t.qCount = 4 * n ∧ log.length = 4 * n ∧ t.Overflow = 0 ∧
      (n = 0 → t.firstSample = 1) ∧ (0 < n → t.firstSample = 0 ∧ t.prevSample = (n - 1) % 2) := by
  induction n with
  | zero =>
    exact ⟨_, [], rfl, clear_wellFormed e0 s0, rfl, rfl, rfl, fun _ => rfl,
      fun h => absurd h (by norm_num)⟩
  | succ n ih =>
    obtain ⟨t, log, hrun, hw, hq, hl, ho, hf0, hfp⟩ := ih (by omega)
    have hcalls : fillCalls (n + 1) = fillCalls n ++
        [QCall.enqueueSample ⟨8, SAMPLING_MODE_TRANSITIONONLY, 1⟩ (n % 2)] := by
      simp only [fillCalls, List.range_succ, List.map_append, List.map_cons, List.map_nil]
    have hu : u8 (n % 2) = n % 2 := by simp only [u8]; omega
    have hsup : ¬ (t.firstSample = 0 ∧ t.prevSample = u8 (n % 2)) := by
      rw [hu]
      rintro ⟨h1, h2⟩
      rcases Nat.eq_zero_or_pos n with hz | hp
      · rw [hf0 hz] at h1
        exact absurd h1 (by norm_num)
      · rw [(hfp hp).2] at h2
        omega
    have hnr : ¬ ((⟨8, SAMPLING_MODE_TRANSITIONONLY, 1⟩ : Env).Irqs &&& 0xffff = 0) := by decide
    obtain ⟨t1, hrun1, hap⟩ := enqueueSample_transition ⟨8, SAMPLING_MODE_TRANSITIONONLY, 1⟩ t
      (n % 2) rfl hw (by rw [if_neg hnr, if_neg hsup, hq]; simp only [QSIZE]; omega)
    rw [if_neg hnr, if_neg hsup, if_neg hsup, List.nil_append] at hap
    obtain ⟨a1, a2, a3, a4, a5, a6, a7, -⟩ := hap
    have hadded : (contents t1).drop t.qCount =
        [0xbf, (⟨8, SAMPLING_MODE_TRANSITIONONLY, 1⟩ : Env).Irqs &&& 0xff,
          ((⟨8, SAMPLING_MODE_TRANSITIONONLY, 1⟩ : Env).Irqs >>> 8) &&& 0xff, u8 (n % 2)] := by
      rw [a2]
      exact List.drop_left' (contents_length t)
    refine ⟨t1, log ++ ((contents t1).drop t.qCount ++ []), ?_, a1, ?_, ?_, ?_, ?_, ?_⟩
    · rw [hcalls, runCallsLog_append, hrun, Option.some_bind]
      simp only [runCallsLog, QCall.run, hrun1, Option.map_some', Option.some_bind, QCall.added]
    · rw [a3]
      show t.qCount + 4 = 4 * (n + 1)
      omega
    · rw [hadded]
      simp only [List.length_append, List.length_cons, List.length_nil, hl]
      omega
    · rw [a5]; exact ho
    · intro h; omega
    · intro _
      refine ⟨a6, ?_⟩
      rw [a7]
      show u8 (n % 2) = (n + 1 - 1) % 2
      rw [hu]
      simp

theorem record_atomicity_counterexample :
    (runCallsLog (ClearSampleQueue ⟨8, SAMPLING_MODE_TRANSITIONONLY, 0⟩ sampleState)
      (fillCalls 1024 ++ [QCall.dequeueSample,
        QCall.enqueueSample ⟨8, SAMPLING_MODE_TRANSITIONONLY, 1⟩ 0xAA])).map
      (fun r => (r.1.Overflow, r.2.length, r.2.drop 4096, wholeRecords r.2)) =
    some (1, 4097, [0xbf], false) := by
  obtain ⟨t, log, hrun, hw, hq, hl, ho, -, hfp⟩ :=
    fillCalls_run ⟨8, SAMPLING_MODE_TRANSITIONONLY, 0⟩ sampleState 1024 (le_refl _)
  obtain ⟨hf, hp⟩ := hfp (by norm_num)
  have hdeq := dequeueSample_nonempty_eq t hw (by omega)
  obtain ⟨t2, hdeq2, hw2, -, hq2, ho2, -⟩ := dequeueSample_nonempty t hw (by omega)
  have ht2 : t2.prevSample = t.prevSample ∧ t2.firstSample = t.firstSample := by
    rw [hdeq] at hdeq2
    have := (Prod.mk.inj (Option.some.inj hdeq2)).1
    rw [← this]
    exact ⟨rfl, rfl⟩
  have hq2' : t2.qCount = 4095 := by omega
  obtain ⟨t3, r, hrun3, -, hadd, -, ho3⟩ := enqueueSample_added
    ⟨8, SAMPLING_MODE_TRANSITIONONLY, 1⟩ t2 0xAA rfl hw2
  have hrec : recordBytes ⟨8, SAMPLING_MODE_TRANSITIONONLY, 1⟩ t2 0xAA = [0xbf, 1, 0, 0xAA] := by
    have hsup : ¬ (t2.firstSample = 0 ∧ t2.prevSample = u8 0xAA) := by
      rw [ht2.1, hp]
      rintro ⟨-, h⟩
      exact absurd h (by decide)
    have hnr : ¬ ((⟨8, SAMPLING_MODE_TRANSITIONONLY, 1⟩ : Env).Irqs &&& 0xffff = 0) := by decide
    simp only [recordBytes, hnr, if_false, hsup, List.nil_append]
    decide
  rw [hrec, hq2'] at hadd ho3
  have hadd' : (contents t3).drop 4095 = [0xbf] := hadd
  have ho3' : t3.Overflow = 1 := ho3
  have hlog : runCallsLog (ClearSampleQueue ⟨8, SAMPLING_MODE_TRANSITIONONLY, 0⟩ sampleState)
      (fillCalls 1024 ++ [QCall.dequeueSample,
        QCall.enqueueSample ⟨8, SAMPLING_MODE_TRANSITIONONLY, 1⟩ 0xAA]) =
      some (t3, log ++ [0xbf]) := by
    rw [runCallsLog_append, hrun, Option.some_bind]
    simp only [runCallsLog, QCall.run, hdeq2, hrun3, Option.map_some', Option.some_bind,
      QCall.added, hq2', hadd', List.nil_append, List.append_nil]
  rw [hlog]
  have hlen : (log ++ [0xbf]).length = 4097 := by simp [hl]
  have hdrop : (log ++ [0xbf]).drop 4096 = [0xbf] := List.drop_left' (by rw [hl])
  have hwr : wholeRecords (log ++ [0xbf]) = false := by
    cases h : wholeRecords (log ++ [0xbf]) with
    | false => rfl
    | true =>
      have := wholeRecords_length _ h
      rw [hlen] at this
      exact absurd this (by norm_num)
  simp only [Option.map_some', ho3', hlen, hdrop, hwr]

theorem record_atomicity_witness :
    (∀ c ∈ [QCall.enqueueSample ⟨8, SAMPLING_MODE_TRANSITIONONLY, 1⟩ 0xAA, QCall.dequeueSample,
        QCall.enqueueFinalSample ⟨8, SAMPLING_MODE_TRANSITIONONLY, 2⟩], c.transitionOnly) ∧
    ∃ t log, runCallsLog (ClearSampleQueue ⟨8, SAMPLING_MODE_TRANSITIONONLY, 0⟩ sampleState)
        [QCall.enqueueSample ⟨8, SAMPLING_MODE_TRANSITIONONLY, 1⟩ 0xAA, QCall.dequeueSample,
          QCall.enqueueFinalSample ⟨8, SAMPLING_MODE_TRANSITIONONLY, 2⟩] = some (t, log) ∧
      (t.Overflow = 0 → wholeRecords log = true ∧ log.length % 4 = 0) :=
  have htr : ∀ c ∈ [QCall.enqueueSample ⟨8, SAMPLING_MODE_TRANSITIONONLY, 1⟩ 0xAA,
      QCall.dequeueSample, QCall.enqueueFinalSample ⟨8, SAMPLING_MODE_TRANSITIONONLY, 2⟩],
      c.transitionOnly := by
    intro c hc
    simp only [List.mem_cons, List.mem_singleton, List.mem_nil_iff, or_false] at hc
    rcases hc with rfl | rfl | rfl
    · exact rfl
    · exact trivial
    · exact rfl
  ⟨htr, (record_atomicity ⟨8, SAMPLING_MODE_TRANSITIONONLY, 0⟩ sampleState _ htr).imp
    fun _ h => h.imp fun _ h1 => ⟨h1.1, h1.2.1⟩⟩

/-! ## Records against the free space: length and rollover -/

theorem recordBytes_length (e : Env) (s : QState) (x : Nat) :
    (recordBytes e s x).length =
      (if e.Irqs &&& 0xffff = 0 then 4 else 0) +
      (if s.firstSample = 0 ∧ s.prevSample = u8 x then 0 else 4) := by
  simp only [recordBytes]
  split <;> split <;> rfl

/-- A call of `EnqueueSample` in transition-only mode, whatever the room: it
returns; the bytes of its records are stored as far as there is room; with
room for all of them the result is `0` and the overflow flag is left as it
is, with less the queue ends full and the flag is raised. -/
theorem enqueueSample_records (e : Env) (s : QState) (x : Nat)
    (hm : e.SamplingMode = SAMPLING_MODE_TRANSITIONONLY) (hw : QWellFormed s) :
    ∃ t r, EnqueueSample e s x = some (t, r) ∧ QWellFormed t ∧
      contents t = contents s ++ (recordBytes e s x).take (QSIZE - s.qCount) ∧
      ((recordBytes e s x).length ≤ QSIZE - s.qCount →
        r = 0 ∧ contents t = contents s ++ recordBytes e s x ∧
        t.qCount = s.qCount + (recordBytes e s x).length ∧ t.Overflow = s.Overflow) ∧
      (QSIZE - s.qCount < (recordBytes e s x).length →
        t.qCount = QSIZE ∧ t.Overflow = 1) := by
  obtain ⟨t, r, hrun, hw1, -, hc, hq, ho⟩ := enqueueSample_attempted e s x hm hw
  have hs := hw.1
  have hlen : ((recordBytes e s x).take (QSIZE - s.qCount)).length =
      min (QSIZE - s.qCount) (recordBytes e s x).length := List.length_take _ _
  refine ⟨t, r, hrun, hw1, hc, ?_, ?_⟩
  · intro hroom
    have htake : (recordBytes e s x).take (QSIZE - s.qCount) = recordBytes e s x :=
      List.take_of_length_le hroom
    obtain ⟨t1, hrun1, -⟩ := enqueueSample_transition e s x hm hw
      (by rw [recordBytes_length] at hroom; omega)
    have hr : r = 0 := by
      rw [hrun1] at hrun
      exact ((Prod.mk.inj (Option.some.inj hrun)).2).symm
    refine ⟨hr, by rw [hc, htake], by rw [hq, htake], ?_⟩
    rw [ho, if_neg (by omega)]
  · intro hcut
    refine ⟨?_, by rw [ho, if_pos hcut]⟩
    rw [hq, hlen]
    omega

/-- Claim C13, amended: in transition-only mode a sample record is 4 bytes
long (marker, two timestamp bytes, sample).  A call of `EnqueueSample` that
emits its sample hands to the queue these 4 bytes, after the 4 bytes of the
rollover record when one is due.  With room for all bytes of the call the
occupancy goes up by exactly 4 for the sample record (and by 4 more for the
rollover record), the result is 0 and `Overflow` is left as it is; with less
room only the bytes that fit are stored, the queue is full afterwards and
`Overflow` is set.  From `ClearSampleQueue` with `Irqs = 1`,
`EnqueueSample(0xAA)` twice leaves the occupancy at 4. -/
theorem sample_record_length (e : Env) (s : QState) (x : Nat)
    (hm : e.SamplingMode = SAMPLING_MODE_TRANSITIONONLY) (hw : QWellFormed s)
    (hemit : ¬ (s.firstSample = 0 ∧ s.prevSample = u8 x)) :
    (∃ t r, EnqueueSample e s x = some (t, r) ∧
      recordBytes e s x =
        (if e.Irqs &&& 0xffff = 0 then
          [ROLLOVER_MARKER, u16 (e.Irqs >>> 16) &&& 0xff, (u16 (e.Irqs >>> 16) >>> 8) &&& 0xff,
           0x00]
        else []) ++
        [SAMPLE_MARKER, e.Irqs &&& 0xff, (e.Irqs >>> 8) &&& 0xff, u8 x] ∧
      contents t = contents s ++ (recordBytes e s x).take (QSIZE - s.qCount) ∧
      (s.qCount + (if e.Irqs &&& 0xffff = 0 then 4 else 0) + 4 ≤ QSIZE →
        r = 0 ∧ contents t = contents s ++ recordBytes e s x ∧
        t.qCount = s.qCount + (if e.Irqs &&& 0xffff = 0 then 4 else 0) + 4 ∧
        t.Overflow = s.Overflow) ∧
      (QSIZE < s.qCount + (if e.Irqs &&& 0xffff = 0 then 4 else 0) + 4 →
        t.qCount = QSIZE ∧ t.Overflow = 1)) ∧
    (∀ (c : Nat) (s0 : QState),
      ∃ t, runCalls (ClearSampleQueue ⟨c, SAMPLING_MODE_TRANSITIONONLY, 1⟩ s0)
          [QCall.enqueueSample ⟨c, SAMPLING_MODE_TRANSITIONONLY, 1⟩ 0xAA,
           QCall.enqueueSample ⟨c, SAMPLING_MODE_TRANSITIONONLY, 1⟩ 0xAA] = some t ∧
        t.qCount = 4) := by
  constructor
  · obtain ⟨t, r, hrun, -, hc, hroom, hcut⟩ := enqueueSample_records e s x hm hw
    have hlen := recordBytes_length e s x
    rw [if_neg hemit] at hlen
    have hs := hw.1
    refine ⟨t, r, hrun, ?_, hc, ?_, ?_⟩
    · simp only [recordBytes, hemit, if_false]
    · intro h
      obtain ⟨h1, h2, h3, h4⟩ := hroom (by omega)
      exact ⟨h1, h2, by rw [h3, hlen]; omega, h4⟩
    · intro h
      exact hcut (by omega)
  · intro c s0
    have hm1 : (⟨c, SAMPLING_MODE_TRANSITIONONLY, 1⟩ : Env).SamplingMode =
        SAMPLING_MODE_TRANSITIONONLY := rfl
    obtain ⟨t, hrun, ht⟩ := enqueueSample_transition ⟨c, SAMPLING_MODE_TRANSITIONONLY, 1⟩
      (ClearSampleQueue ⟨c, SAMPLING_MODE_TRANSITIONONLY, 1⟩ s0) 0xAA hm1
      (clear_wellFormed _ s0) (by simp [ClearSampleQueue, QSIZE])
    have hsup0 : ¬ ((ClearSampleQueue ⟨c, SAMPLING_MODE_TRANSITIONONLY, 1⟩ s0).firstSample = 0 ∧
        (ClearSampleQueue ⟨c, SAMPLING_MODE_TRANSITIONONLY, 1⟩ s0).prevSample = u8 0xAA) := by
      simp [ClearSampleQueue]
    simp only [hsup0, if_false] at ht
    have hq : t.qCount = 4 := by
      rw [ht.2.2.1]; simp [ClearSampleQueue]
    have hsame := (enqueueRecord_transition ⟨c, SAMPLING_MODE_TRANSITIONONLY, 1⟩ t 0xAA hm1
      ht.1).1 ⟨ht.2.2.2.2.2.1, ht.2.2.2.2.2.2.1⟩
    have hrun2 : EnqueueSample ⟨c, SAMPLING_MODE_TRANSITIONONLY, 1⟩ t 0xAA = some (t, 0) := by
      simp only [EnqueueSample, if_true]
      exact hsame
    exact ⟨t, by simp [runCalls, QCall.run, hrun, hrun2], hq⟩

theorem sample_record_length_witness :
    (⟨8, 1, 0x1234⟩ : Env).SamplingMode = SAMPLING_MODE_TRANSITIONONLY ∧
    QWellFormed sampleState ∧
    ¬ (sampleState.firstSample = 0 ∧ sampleState.prevSample = u8 0x5a) ∧
    ∃ t r, EnqueueSample ⟨8, 1, 0x1234⟩ sampleState 0x5a = some (t, r) ∧
      recordBytes ⟨8, 1, 0x1234⟩ sampleState 0x5a =
        (if (⟨8, 1, 0x1234⟩ : Env).Irqs &&& 0xffff = 0 then
          [ROLLOVER_MARKER, u16 ((⟨8, 1, 0x1234⟩ : Env).Irqs >>> 16) &&& 0xff,
           (u16 ((⟨8, 1, 0x1234⟩ : Env).Irqs >>> 16) >>> 8) &&& 0xff, 0x00]
        else []) ++
        [SAMPLE_MARKER, (⟨8, 1, 0x1234⟩ : Env).Irqs &&& 0xff,
          ((⟨8, 1, 0x1234⟩ : Env).Irqs >>> 8) &&& 0xff, u8 0x5a] ∧
      contents t = contents sampleState ++
        (recordBytes ⟨8, 1, 0x1234⟩ sampleState 0x5a).take (QSIZE - sampleState.qCount) ∧
      (sampleState.qCount + (if (⟨8, 1, 0x1234⟩ : Env).Irqs &&& 0xffff = 0 then 4 else 0) + 4
          ≤ QSIZE →
        r = 0 ∧ contents t = contents sampleState ++ recordBytes ⟨8, 1, 0x1234⟩ sampleState 0x5a ∧
        t.qCount =
          sampleState.qCount + (if (⟨8, 1, 0x1234⟩ : Env).Irqs &&& 0xffff = 0 then 4 else 0) + 4 ∧
        t.Overflow = sampleState.Overflow) ∧
      (QSIZE <
          sampleState.qCount + (if (⟨8, 1, 0x1234⟩ : Env).Irqs &&& 0xffff = 0 then 4 else 0) + 4 →
        t.qCount = QSIZE ∧ t.Overflow = 1) :=
  ⟨rfl, by simp [QWellFormed, sampleState, QSIZE], by decide,
   (sample_record_length ⟨8, 1, 0x1234⟩ sampleState 0x5a rfl
     (by simp [QWellFormed, sampleState, QSIZE]) (by decide)).1⟩

